import Mathlib

/-!
# Verification of the pdfbreak PDF tokenizer / object parser / serializer

A shallow embedding of the core of the `pdfbreak` C++ sources
(`pdfparser` revision in `part_004`, `pdfbase.h` / `pdfbase.cpp`,
`pdffilter.cpp`, the `ObjStream` reader) together with proofs and
refutations of the specification claims.

Bytes are modelled as `Char` values (with code points below 256 where it
matters), byte strings (`std::string`) as `List Char`, the seekable byte
source (`std::streambuf`) as a pair of the full data and a cursor, and
the one-token-pushback tokenizer (`TokenParser`) as that buffer plus a
stack of pushed-back tokens and the `lastLen` counter.  Every loop of the
C++ code is embedded as a fuelled structural recursion; the fuel of each
wrapper is chosen (and where needed proven) large enough that the
out-of-fuel branch is unreachable, so the functions compute.
-/

set_option maxHeartbeats 1600000

namespace Pdf

/-- A byte of the input. -/
abbrev B := Char

/-- A byte string (C++ `std::string`). -/
abbrev Bs := List Char

/-- Byte string from a Lean string literal (ASCII). -/
def S (s : String) : Bs := s.data

/-- `pdf::parser::CharType`. -/
inductive CharType where
  | ws
  | delim
  | regular
deriving DecidableEq, Repr

/-- `pdf::parser::charType`: the PDF byte classes. -/
def charType (c : B) : CharType :=
  if c = '\x00' ∨ c = '\t' ∨ c = '\r' ∨ c = '\n' ∨ c = '\x0c' ∨ c = ' ' then .ws
  else if c = '(' ∨ c = ')' ∨ c = '<' ∨ c = '>' ∨ c = '[' ∨ c = ']' ∨
          c = '\x7b' ∨ c = '\x7d' ∨ c = '/' ∨ c = '%' then .delim
  else .regular

/-- The seekable byte source (`std::streambuf`): full data plus cursor. -/
structure SBuf where
  data : Bs
  pos : Nat
deriving DecidableEq, Repr

/-- Bytes still to be read. -/
def SBuf.rem (b : SBuf) : Bs := b.data.drop b.pos

/-- Advance the cursor by `n` bytes. -/
def SBuf.adv (b : SBuf) (n : Nat) : SBuf := ⟨b.data, b.pos + n⟩

/-- Number of leading whitespace bytes (the tokenizer's skip loop). -/
def countWs : Bs → Nat
  | [] => 0
  | c :: rest => if charType c = .ws then countWs rest + 1 else 0

/-- Maximal run of regular bytes (continuation of a regular token). -/
def regRun : Bs → Bs
  | [] => []
  | c :: rest => if charType c = .regular then c :: regRun rest else []

/-- Bytes consumed by `skipToNL`: everything up to and including the next
LF or CR (a CR immediately followed by LF consumes both). -/
def skipToNLLen : Bs → Nat
  | [] => 0
  | c :: rest =>
    if c = '\n' then 1
    else if c = '\r' then (if rest.head? = some '\n' then 2 else 1)
    else skipToNLLen rest + 1

/-- Bytes consumed by `skipToLF`: everything up to and including the next
LF. -/
def skipToLFLen : Bs → Nat
  | [] => 0
  | c :: rest => if c = '\n' then 1 else skipToLFLen rest + 1

/-- `readToNL`: the consumed bytes (a line, ending with its terminator,
where only LF or CRLF terminate; a lone CR does not). -/
def readToNLBs : Bs → Bs
  | [] => []
  | c :: rest =>
    if c = '\n' then [c]
    else if c = '\r' ∧ rest.head? = some '\n' then [c, '\n']
    else c :: readToNLBs rest

/-- `chopNL`: drop one trailing CR, LF or CRLF. -/
def chopNL (s : Bs) : Bs :=
  match s.getLast? with
  | none => s
  | some c =>
    if c = '\r' then s.dropLast
    else if c = '\n' then
      let s' := s.dropLast
      match s'.getLast? with
      | some '\r' => s'.dropLast
      | _ => s'
    else s

/-- `TokenParser::underflow`, fuelled (the fuel is spent only on the
comment-skipping self-call, which always consumes at least one byte, so
`remaining + 1` fuel always suffices).  Returns the token, the new
cursor, and the token's byte length (`_lastLen`). -/
def ufGo : Nat → Bs → Nat → Bs × Nat × Nat
  | 0, _, pos => ([], pos, 0)
  | f + 1, data, pos =>
    let p := pos + countWs (data.drop pos)
    match data.drop p with
    | [] => ([], p, 0)
    | c :: rest =>
      if c = '%' then ufGo f data (p + skipToNLLen (data.drop p))
      else match charType c with
      | .delim =>
        if c = '<' ∨ c = '>' then
          if rest.head? = some c then ([c, c], p + 2, 2)
          else ([c], p + 1, 1)
        else ([c], p + 1, 1)
      | .regular =>
        let s := c :: regRun rest
        (s, p + s.length, s.length)
      | .ws => ([], p, 0)

/-- One tokenizer read on a byte source. -/
def SBuf.underflow (b : SBuf) : Bs × SBuf × Nat :=
  let r := ufGo (b.rem.length + 1) b.data b.pos
  (r.1, ⟨b.data, r.2.1⟩, r.2.2)

/-- `pdf::parser::TokenParser`: byte source, pushback stack, `_lastLen`. -/
structure TP where
  buf : SBuf
  stack : List Bs
  lastLen : Nat
deriving DecidableEq, Repr

/-- `TokenParser::read`. -/
def TP.read : TP → Bs × TP
  | ⟨b, t :: rest, ll⟩ => (t, ⟨b, rest, ll⟩)
  | ⟨b, [], _⟩ =>
    let r := b.underflow
    (r.1, ⟨r.2.1, [], r.2.2⟩)

/-- `TokenParser::consume`. -/
def TP.consume (ts : TP) : TP := ts.read.2

/-- `TokenParser::unread`. -/
def TP.unread (ts : TP) (t : Bs) : TP := ⟨ts.buf, t :: ts.stack, ts.lastLen⟩

/-- `TokenParser::peek`. -/
def TP.peek : TP → Bs × TP
  | ⟨b, [], _⟩ =>
    let r := b.underflow
    (r.1, ⟨r.2.1, [r.1], r.2.2⟩)
  | ⟨b, t :: rest, ll⟩ => (t, ⟨b, t :: rest, ll⟩)

/-- `TokenParser::reset` (also performed by `TokenParser::stream()`). -/
def TP.reset (ts : TP) : TP := ⟨ts.buf, [], 0⟩

/-- `TokenParser::pos`. -/
def TP.pos (ts : TP) : Nat := ts.buf.pos

/-- `TokenParser::lastpos`. -/
def TP.lastpos (ts : TP) : Nat := ts.buf.pos - ts.lastLen

/-- A fresh `TokenParser` over the given input. -/
def initTP (data : Bs) : TP := ⟨⟨data, 0⟩, [], 0⟩

/-! ## Decimal formatting (for positions and the serializer) -/

/-- The ASCII digit for `n < 10`. -/
def digitChar (n : Nat) : B := Char.ofNat ('0'.toNat + n)

/-- Decimal digits of `n`, most significant first, fuelled. -/
def natDigitsGo : Nat → Nat → Bs
  | 0, _ => []
  | f + 1, n => if n < 10 then [digitChar n] else natDigitsGo f (n / 10) ++ [digitChar (n % 10)]

/-- Decimal digits of `n`, most significant first. -/
def natDigits (n : Nat) : Bs := natDigitsGo (n + 1) n

/-- `format_position`. -/
def formatPosition (n : Nat) : Bs := natDigits n

/-- `report_position`. -/
def reportPos (ts : TP) : Bs := S " at " ++ formatPosition ts.lastpos

/-! ## `pdf::Numeric` -/

/-- C `isspace` in the C locale (used by `strtol`). -/
def isSpaceC (c : B) : Bool :=
  c = ' ' ∨ c = '\t' ∨ c = '\n' ∨ c = '\x0b' ∨ c = '\x0c' ∨ c = '\r'

/-- ASCII decimal digit (byte-value comparison, as the C code's
`'0' <= c && c <= '9'`). -/
def isDigitC (c : B) : Bool := 48 ≤ c.toNat ∧ c.toNat ≤ 57

/-- Value of an ASCII digit. -/
def digitVal (c : B) : Nat := c.toNat - '0'.toNat

/-- Value of a digit run, most significant first. -/
def digitsVal (l : Bs) : Nat := l.foldl (fun acc c => 10 * acc + digitVal c) 0

def LONG_MAX : Int := 2 ^ 63 - 1
def LONG_MIN : Int := -(2 ^ 63)

/-- Saturation of `strtol` on out-of-range input. -/
def clampLong (v : Int) : Int := max LONG_MIN (min LONG_MAX v)

/-- The C cast `(int)v` (two's-complement truncation to 32 bits). -/
def toInt32 (v : Int) : Int := (v + 2 ^ 31) % 2 ^ 32 - 2 ^ 31

/-- `strtol(s, &last, 10)`: skips C whitespace, an optional sign, then a
digit run; returns the (saturated) value and the number of bytes
consumed, which is `0` when no conversion was performed. -/
def strtol10 (s : Bs) : Int × Nat :=
  let wsn := (s.takeWhile isSpaceC).length
  let s1 := s.drop wsn
  let sgn : Int := if s1.head? = some '-' then -1 else 1
  let sgnLen : Nat := if s1.head? = some '-' ∨ s1.head? = some '+' then 1 else 0
  let ds := (s1.drop sgnLen).takeWhile isDigitC
  if ds = [] then (0, 0)
  else (clampLong (sgn * digitsVal ds), wsn + sgnLen + ds.length)

/-- `pdf::Numeric`: scaled integer with decimal point position `dp`
(`dp < 0` is the failed state). -/
structure Numeric where
  val_s : Int
  dp : Int
deriving DecidableEq, Repr

/-- `Numeric::Numeric(std::string)`: excise one optional dot, parse the
rest with `strtol`, fail unless the whole remainder was consumed. -/
def Numeric.fromTok (s : Bs) : Numeric :=
  if s = [] then ⟨0, -1⟩
  else
    let off? := s.findIdx? (fun c => c = '.')
    let off := off?.getD 0
    let s' := if off?.isSome then s.take off ++ s.drop (off + 1) else s
    let dp_ : Int := if off?.isSome then (s'.length : Int) - (off : Int) else 0
    let r := strtol10 s'
    if r.2 = s'.length then ⟨toInt32 r.1, dp_⟩ else ⟨0, -1⟩

def Numeric.failed (n : Numeric) : Bool := n.dp < 0
def Numeric.valid (n : Numeric) : Bool := !n.failed
def Numeric.integral (n : Numeric) : Bool := n.dp = 0
def Numeric.uintegral (n : Numeric) : Bool := n.integral && n.val_s ≥ 0
def Numeric.val_ulong (n : Numeric) : Nat := n.val_s.toNat

/-! ## `pdf::Object` -/

/-- The `pdf::Object` tagged union.  A `Stream` owns its dictionary, so
its entries and the dictionary's own error are inlined. -/
inductive Obj where
  | null
  | boolean (b : Bool)
  | numeric (n : Numeric)
  | string (val : Bs) (hex : Bool) (error : Bs)
  | name (val : Bs)
  | array (items : List Obj) (error : Bs)
  | dict (entries : List (Bs × Obj)) (error : Bs)
  | stream (dict : List (Bs × Obj)) (dictError : Bs) (data : Bs) (error : Bs)
  | indirect (num gen : Nat)
  | invalid (error : Bs)
deriving Repr

/-- `failed()` of each variant (`tagged_union::failed` dispatch). -/
def Obj.failed : Obj → Bool
  | .null => false
  | .boolean _ => false
  | .numeric n => n.failed
  | .string _ _ e => !e.isEmpty
  | .name _ => false
  | .array _ e => !e.isEmpty
  | .dict _ e => !e.isEmpty
  | .stream _ de _ e => !de.isEmpty || !e.isEmpty
  | .indirect _ _ => false
  | .invalid _ => true

/-- `Object::operator bool`: neither `Null` nor `Invalid`. -/
def Obj.toBool : Obj → Bool
  | .null => false
  | .invalid _ => false
  | _ => true

/-- `Dictionary::lookup`: the value bound to `key`, or the shared `Null`
object when the key is absent. -/
def dictLookup : List (Bs × Obj) → Bs → Obj
  | [], _ => .null
  | (k, v) :: rest, key => if k = key then v else dictLookup rest key

/-- `std::string` `operator<` (lexicographic on unsigned bytes), which
orders `std::map<std::string, Object>`. -/
def bsLt : Bs → Bs → Bool
  | [], [] => false
  | [], _ :: _ => true
  | _ :: _, [] => false
  | a :: as, b :: bs =>
    if a.toNat < b.toNat then true
    else if b.toNat < a.toNat then false
    else bsLt as bs

/-- Insertion into the key-sorted entry list (`std::map::emplace` on a
key that is not yet present). -/
def dinsert (k : Bs) (v : Obj) : List (Bs × Obj) → List (Bs × Obj)
  | [] => [(k, v)]
  | (k', v') :: rest =>
    if bsLt k k' then (k, v) :: (k', v') :: rest
    else (k', v') :: dinsert k v rest

/-- `std::map::find(key) != end`. -/
def dhasKey (l : List (Bs × Obj)) (k : Bs) : Bool := l.any (fun e => e.1 == k)

/-! ## Non-recursive parse functions -/

/-- `parseName`: the `/` token has been peeked; read it and the following
token; a token starting with a regular byte is a `Name`.  (On an empty
token the C++ indexes `s[0]`, which for `std::string` yields `'\0'`, a
whitespace byte.) -/
def parseName (ts : TP) : Obj × TP :=
  let r1 := ts.read
  let r2 := r1.2.read
  let s := r2.1
  let ts2 := r2.2
  match s.head? with
  | some c =>
    if charType c = .regular then (.name s, ts2)
    else (.invalid (S "/ not followed by a proper name" ++ reportPos ts2), ts2)
  | none => (.invalid (S "/ not followed by a proper name" ++ reportPos ts2), ts2)

/-- `parseNumberIndir`: speculative `num gen R` lookahead, restoring the
read tokens through `unread` when the pattern does not match. -/
def parseNumberIndir (ts : TP) (n1 : Numeric) : Obj × TP :=
  let r2 := ts.read
  let t2 := r2.1
  let ts2 := r2.2
  let n2 := Numeric.fromTok t2
  if n1.uintegral && n2.uintegral then
    let r3 := ts2.read
    let t3 := r3.1
    let ts3 := r3.2
    if t3 = S "R" then (.indirect n1.val_ulong n2.val_ulong, ts3)
    else (.numeric n1, (ts3.unread t3).unread t2)
  else (.numeric n1, ts2.unread t2)

/-- The loop of `parseStringLiteral`, fuelled (each iteration consumes at
least one byte).  State: paren nesting depth, byte source, accumulated
string bytes.  Returns the value, the error and the final source. -/
def pslGo : Nat → Nat → SBuf → Bs → Bs × Bs × SBuf
  | 0, _, b, acc => (acc, [], b)
  | f + 1, parens, b, acc =>
    match b.rem with
    | [] => (acc, S "End of input while reading string", b)
    | c :: rest =>
      let b1 := b.adv 1
      if c = ')' then
        if parens > 0 then pslGo f (parens - 1) b1 (acc ++ [c])
        else (acc, [], b1)
      else if c = '(' then pslGo f (parens + 1) b1 (acc ++ [c])
      else if c = '\\' then
        match rest with
        | [] => (acc, S "End of input while reading string", b1)
        | e :: rest2 =>
          let b2 := b.adv 2
          if e = 'n' then pslGo f parens b2 (acc ++ ['\n'])
          else if e = 'r' then pslGo f parens b2 (acc ++ ['\r'])
          else if e = 't' then pslGo f parens b2 (acc ++ ['\t'])
          else if e = 'b' then pslGo f parens b2 (acc ++ ['\x08'])
          else if e = 'f' then pslGo f parens b2 (acc ++ ['\x0c'])
          else if e = '(' ∨ e = ')' ∨ e = '\\' then pslGo f parens b2 (acc ++ [e])
          else if e = '\r' ∨ e = '\n' then pslGo f parens b2 acc
          else if 48 ≤ e.toNat ∧ e.toNat ≤ 55 then
            -- octal escape: one digit read, then up to two more peeked
            match rest2 with
            | [] => (acc, S "End of input while reading string", b2)
            | c2 :: rest3 =>
              if 48 ≤ c2.toNat ∧ c2.toNat ≤ 55 then
                -- second digit consumed by snextc, which then peeks ahead
                match rest3 with
                | [] => (acc, S "End of input while reading string", b.adv 3)
                | c3 :: _ =>
                  if 48 ≤ c3.toNat ∧ c3.toNat ≤ 55 then
                    let d := (digitVal e * 8 + digitVal c2) * 8 + digitVal c3
                    if d > 255 then
                      (acc, S "Invalid octal value at " ++ formatPosition b.pos, b.adv 4)
                    else pslGo f parens (b.adv 4) (acc ++ [Char.ofNat d])
                  else
                    let d := digitVal e * 8 + digitVal c2
                    pslGo f parens (b.adv 3) (acc ++ [Char.ofNat d])
              else
                let d := digitVal e
                pslGo f parens b2 (acc ++ [Char.ofNat d])
          else
            (acc, S "Invalid character in string at " ++ formatPosition (b2.pos - 1), b2)
      else pslGo f parens b1 (acc ++ [c])

/-- `parseStringLiteral`: the `(` token has been peeked; read it, then
consume raw bytes up to the matching unescaped `)` (`ts.stream()` resets
the pushback). -/
def parseStringLiteral (ts : TP) : Obj × TP :=
  let r1 := ts.read
  let b := r1.2.buf
  let r := pslGo (b.rem.length + 1) 0 b []
  (.string r.1 false r.2.1, ⟨r.2.2, [], 0⟩)

/-- Hex digit test (`std::isxdigit`), byte-value comparisons. -/
def isXDigit (c : B) : Bool :=
  (48 ≤ c.toNat ∧ c.toNat ≤ 57) ∨ (65 ≤ c.toNat ∧ c.toNat ≤ 70) ∨
    (97 ≤ c.toNat ∧ c.toNat ≤ 102)

/-- Value of a hex digit. -/
def xVal (c : B) : Nat :=
  if 48 ≤ c.toNat ∧ c.toNat ≤ 57 then c.toNat - 48
  else if 65 ≤ c.toNat ∧ c.toNat ≤ 70 then c.toNat - 65 + 10
  else c.toNat - 97 + 10

/-- The loop of `parseStringHex`, fuelled.  State: accumulator nibble
`d`, oddness flag, byte source, string bytes so far. -/
def pshGo : Nat → Nat → Bool → SBuf → Bs → Bs × Bs × SBuf
  | 0, _, _, b, acc => (acc, [], b)
  | f + 1, d, odd, b, acc =>
    match b.rem with
    | [] => (acc, S "End of input while reading string", b)
    | c :: _ =>
      let b1 := b.adv 1
      if c = '>' then
        (if odd then acc ++ [Char.ofNat ((16 * d) % 256)] else acc, [], b1)
      else if isXDigit c then
        let d' := (d * 16 + xVal c) % 256
        if odd then pshGo f 0 false b1 (acc ++ [Char.ofNat d'])
        else pshGo f d' true b1 acc
      else if c = ' ' ∨ c = '\t' ∨ c = '\r' ∨ c = '\n' ∨ c = '\x0c' then
        pshGo f d odd b1 acc
      else
        (acc, S "Invalid character in string at " ++ formatPosition (b1.pos - 1), b1)

/-- `parseStringHex`: the `<` token has been peeked; read it, then
consume raw bytes up to `>`. -/
def parseStringHex (ts : TP) : Obj × TP :=
  let r1 := ts.read
  let b := r1.2.buf
  let r := pshGo (b.rem.length + 1) 0 false b []
  (.string r.1 true r.2.1, ⟨r.2.2, [], 0⟩)

/-! ## The recursive-descent object parser -/

/-- Parsing mode: a single object, the element loop of `parseArray` with
the elements collected so far, or the key/value loop of `parseDict` with
the entries inserted so far. -/
inductive PMode where
  | obj
  | arr (acc : List Obj)
  | dct (acc : List (Bs × Obj))

/-- `readObject` / `parseArray` / `parseDict` as one fuelled recursion
(the fuel is spent on every recursive step; `none` is the out-of-fuel
signal and never arises for sufficient fuel). -/
def parseGo : Nat → PMode → TP → Option (Obj × TP)
  | 0, _, _ => none
  | f + 1, .obj, ts =>
    let r := ts.peek
    let t := r.1
    let ts := r.2
    if t = [] then some (.invalid (S "End of input"), ts)
    else if t = S "/" then some (parseName ts)
    else if t = S "(" then some (parseStringLiteral ts)
    else if t = S "<" then some (parseStringHex ts)
    else if t = S "<<" then parseGo f (.dct []) ts.consume
    else if t = S "[" then parseGo f (.arr []) ts.consume
    else if t = S "null" then some (.null, ts.consume)
    else if t = S "true" ∨ t = S "false" then some (.boolean (t = S "true"), ts.consume)
    else
      let n1 := Numeric.fromTok t
      if n1.valid then some (parseNumberIndir ts.consume n1)
      else some (.invalid (S "Garbage or unexpected token" ++ reportPos ts), ts)
  | f + 1, .arr acc, ts =>
    let r := ts.peek
    let t := r.1
    let ts := r.2
    if t = S "]" then some (.array acc [], ts.consume)
    else match parseGo f .obj ts with
    | none => none
    | some (o, ts1) =>
      if o.failed then
        let err := S "Error reading array element" ++ reportPos ts1
        let r2 := ts1.peek
        some (.array (acc ++ [o]) err, if r2.1 = S "]" then r2.2.consume else r2.2)
      else parseGo f (.arr (acc ++ [o])) ts1
  | f + 1, .dct acc, ts =>
    let r := ts.peek
    let t := r.1
    let ts := r.2
    if t = S ">>" then some (.dict acc [], ts.consume)
    else match parseGo f .obj ts with
    | none => none
    | some (oKey, ts1) =>
      let closeOff : TP → TP := fun tsx =>
        let rx := tsx.peek
        if rx.1 = S ">>" then rx.2.consume else rx.2
      if oKey.failed then
        some (.dict acc (S "Error reading key" ++ reportPos ts1), closeOff ts1)
      else match oKey with
      | .name key =>
        if dhasKey acc key then
          some (.dict acc (S "Duplicite key /" ++ key ++ reportPos ts1), closeOff ts1)
        else
          let rv := ts1.peek
          let step : Option (Obj × TP) :=
            if rv.1 = S ">>" then
              some (.invalid (S "Value not present" ++ reportPos rv.2), rv.2)
            else parseGo f .obj rv.2
          match step with
          | none => none
          | some (oVal, ts2) =>
            let acc' := dinsert key oVal acc
            if oVal.failed then
              some (.dict acc' (S "Error reading value" ++ reportPos ts2), closeOff ts2)
            else parseGo f (.dct acc') ts2
      | _ => some (.dict acc (S "Key not a name" ++ reportPos ts1), closeOff ts1)

/-- `readObject`, fuelled. -/
def readObjF (f : Nat) (ts : TP) : Option (Obj × TP) := parseGo f .obj ts

/-! ## Stream payload parsing and recovery -/

/-- `sep` is an initial run of the second list. -/
def leadsWith : Bs → Bs → Bool
  | [], _ => true
  | _ :: _, [] => false
  | a :: as, b :: bs => a = b && leadsWith as bs

/-- First index at which `sep` occurs as a contiguous run of `s`
(`std::string::find`). -/
def findSub (sep : Bs) : Bs → Option Nat
  | [] => none
  | c :: rest =>
    if leadsWith sep (c :: rest) then some 0
    else (findSub sep rest).map (· + 1)

/-- The sentinel-scanning loop of `parseStream`, fuelled (each iteration
advances the cursor by at least one byte).  Returns the payload so far,
the error, and the byte source.  A `sgetc` at end of input yields the
eof character, which is not regular in the C++ classification only
because `to_char_type(eof)` is `'\xff'`, a regular byte — but that point
is unreachable because the seek target lies strictly inside the line
just read. -/
def streamSentinelGo : Nat → SBuf → Bs → Bs × Bs × SBuf
  | 0, b, acc => (acc, [], b)
  | f + 1, b, acc =>
    let s := readToNLBs b.rem
    if s = [] then (acc, S "End of input during reading stream data", b)
    else
      let b1 := b.adv s.length
      match findSub (S "endstream") s with
      | none => streamSentinelGo f b1 (acc ++ s)
      | some off =>
        let acc1 := acc ++ s.take off
        if off + 9 = s.length then (acc1, [], b1)
        else
          let b2 : SBuf := ⟨b.data, b.pos + off + 9⟩
          let after := b2.rem.headD '\xff'
          if charType after ≠ .regular then (acc1, [], b2)
          else streamSentinelGo f b2 (acc1 ++ S "endstream")

/-- The `/Length`-directed branch of `parseStream`: resize the payload
buffer to `len` (zero-filled), `sgetn` as many bytes as are available,
then require the `endstream` token. -/
def streamLenPath (b : SBuf) (dict : List (Bs × Obj)) (dictErr : Bs) (len : Nat) : Obj × TP :=
  let avail := b.rem.length
  let contents := b.rem.take len ++ List.replicate (len - min len avail) '\x00'
  let b1 := b.adv (min len avail)
  if avail < len then
    (.stream dict dictErr contents
      (S "End of input during reading stream data, read " ++ formatPosition avail ++ S " bytes"),
     ⟨b1, [], 0⟩)
  else
    let ts1 : TP := ⟨b1, [], 0⟩
    let r := ts1.read
    if r.1 = S "endstream" then (.stream dict dictErr contents [], r.2)
    else (.stream dict dictErr contents (S "endstream not found" ++ reportPos r.2), r.2)

/-- The sentinel-scanning branch of `parseStream` (with the trailing
newline chopped from the payload). -/
def streamSentinelPath (b : SBuf) (dict : List (Bs × Obj)) (dictErr : Bs) : Obj × TP :=
  let r := streamSentinelGo (b.rem.length + 1) b []
  (.stream dict dictErr (chopNL r.1) r.2.1, ⟨r.2.2, [], 0⟩)

/-- `parseStream`: the `stream` keyword has been peeked after a
dictionary; read it, skip to the next LF, then read the payload either
by the `/Length`-directed path or by sentinel scanning. -/
def parseStream (ts : TP) (dict : List (Bs × Obj)) (dictErr : Bs) : Obj × TP :=
  let r1 := ts.read
  let b0 := r1.2.buf
  let b := b0.adv (skipToLFLen b0.rem)
  let oLen := dictLookup dict (S "Length")
  let len? : Option Nat :=
    match oLen with
    | .numeric n => if n.uintegral then some n.val_ulong else none
    | _ => none
  match len? with
  | some len => streamLenPath b dict dictErr len
  | none => streamSentinelPath b dict dictErr

/-- `skipToEndobj`, fuelled (each iteration advances the cursor). -/
def skipToEndobjGo : Nat → SBuf → Bool × SBuf
  | 0, b => (false, ⟨b.data, b.data.length⟩)
  | f + 1, b =>
    let s := readToNLBs b.rem
    if s = [] then (false, b)
    else
      let b1 := b.adv s.length
      match findSub (S "endobj") s with
      | none => skipToEndobjGo f b1
      | some off =>
        if off + 6 = s.length then (true, b1)
        else
          let b2 : SBuf := ⟨b.data, b.pos + off + 6⟩
          let after := b2.rem.headD '\xff'
          if charType after ≠ .regular then (true, b2)
          else skipToEndobjGo f b2

/-- `skipToEndobj`: scan line-by-line for a proper `endobj` token and
reposition the byte source just past it. -/
def skipToEndobj (b : SBuf) : Bool × SBuf := skipToEndobjGo (b.rem.length + 1) b

/-! ## The serializer (`dump`) -/

/-- `print_offset`: two-space indentation. -/
def pOff (off : Nat) (text : Bs) : Bs := List.replicate (2 * off) ' ' ++ text

/-- Zero padding to width `w` (no-op when already at least that long). -/
def zeroPad (w : Nat) (ds : Bs) : Bs := List.replicate (w - ds.length) '0' ++ ds

/-- `snprintf("%0*li", w, v)` before buffer truncation. -/
def numFmt (v : Int) (w : Nat) : Bs :=
  if v < 0 then '-' :: zeroPad (w - 1) (natDigits v.natAbs) else zeroPad w (natDigits v.natAbs)

/-- `Numeric::dump` into its 20-byte buffer: format with a zero padding
of `dp (+ sign) + 1`, truncate to the 19 bytes the buffer can hold,
then insert the decimal point `dp` places from the right.  `none` models
the `assert(!failed())` and the `std::out_of_range` thrown by
`std::string::insert` when `dp` exceeds the (truncated) length. -/
def numDump (n : Numeric) : Option Bs :=
  if n.failed then none
  else
    let w : Nat := n.dp.toNat + (if n.val_s < 0 then 1 else 0) + 1
    let str := (numFmt n.val_s w).take 19
    if n.dp > 0 then
      if str.length < n.dp.toNat then none
      else some (str.take (str.length - n.dp.toNat) ++ ['.'] ++ str.drop (str.length - n.dp.toNat))
    else some str

/-- Uppercase hex digit. -/
def hexDigitUC (n : Nat) : B := if n < 10 then digitChar n else Char.ofNat ('A'.toNat + (n - 10))

/-- `snprintf("%02X ", (unsigned char)c)` (without the trailing space). -/
def hex2 (c : B) : Bs :=
  let v := c.toNat % 256
  [hexDigitUC (v / 16), hexDigitUC (v % 16)]

/-- `snprintf("\\%03o", (unsigned char)c)` (without the backslash). -/
def oct3 (c : B) : Bs :=
  let v := c.toNat % 256
  [digitChar (v / 64), digitChar ((v / 8) % 8), digitChar (v % 8)]

/-- One byte of `String::dump` in literal form: printable ASCII except
`(`, `)`, `\` is copied; everything else becomes a 3-digit octal
escape. -/
def escLit (c : B) : Bs :=
  if 32 ≤ c.toNat ∧ c.toNat ≤ 127 ∧ c ≠ '(' ∧ c ≠ ')' ∧ c ≠ '\\' then [c]
  else '\\' :: oct3 c

/-- The `% !!! error` tail appended by several `dump` routines. -/
def dumpErrTail (off : Nat) (e : Bs) : Bs :=
  if e = [] then [] else '\n' :: pOff off (S "% !!! " ++ e)

/-- Serializer mode: one object, the element list of an array, or the
entry list of a dictionary. -/
inductive DMode where
  | obj (o : Obj)
  | items (l : List Obj)
  | entries (l : List (Bs × Obj))

/-- The `dump` routines of all `Object` variants as one fuelled
recursion; `none` models out of fuel (never for sufficient fuel) and
the exceptions of `Numeric::dump`. -/
def dumpGo : Nat → DMode → Nat → Option Bs
  | 0, _, _ => none
  | f + 1, .obj o, off =>
    match o with
    | .null => some (pOff off (S "null"))
    | .invalid e => some (pOff off (S "null") ++ ['\n'] ++ pOff off (S "% !!! " ++ e))
    | .boolean b => some (pOff off (S (if b then "true" else "false")))
    | .numeric n => (numDump n).map (pOff off)
    | .string v hx e =>
      if hx then
        some (pOff off (S "< ") ++ (v.map (fun c => hex2 c ++ [' '])).flatten ++ ['>'] ++
          dumpErrTail off e)
      else
        some (pOff off (S "(") ++ (v.map escLit).flatten ++ [')'] ++ dumpErrTail off e)
    | .name v => some (pOff off (S "/" ++ v))
    | .array items e =>
      match dumpGo f (.items items) (off + 1) with
      | none => none
      | some body =>
        some (pOff off (S "[" ++ ['\n']) ++ body ++
          (if e = [] then [] else pOff (off + 1) (S "% !!! " ++ e ++ ['\n'])) ++
          pOff off (S "]"))
    | .dict entries e =>
      match dumpGo f (.entries entries) (off + 1) with
      | none => none
      | some body =>
        some (pOff off (S "<<" ++ ['\n']) ++ body ++
          (if e = [] then [] else pOff (off + 1) (S "% !!! " ++ e ++ ['\n'])) ++
          pOff off (S ">>"))
    | .stream d de data e =>
      match dumpGo f (.obj (.dict d de)) off with
      | none => none
      | some dd => some (dd ++ S "\nstream\n" ++ data ++ S "\nendstream" ++ dumpErrTail off e)
    | .indirect num gen =>
      some (pOff off [] ++ natDigits num ++ [' '] ++ natDigits gen ++ S " R")
  | _ + 1, .items [], _ => some []
  | f + 1, .items (o :: rest), off =>
    match dumpGo f (.obj o) off, dumpGo f (.items rest) off with
    | some d, some drest => some (d ++ ['\n'] ++ drest)
    | _, _ => none
  | _ + 1, .entries [], _ => some []
  | f + 1, .entries ((k, v) :: rest), off =>
    match dumpGo f (.obj v) (off + 1), dumpGo f (.entries rest) off with
    | some dv, some drest => some (pOff off (S "/" ++ k ++ ['\n']) ++ dv ++ ['\n'] ++ drest)
    | _, _ => none

/-- `Object::dump`, fuelled. -/
def dumpObj (f : Nat) (o : Obj) (off : Nat) : Option Bs := dumpGo f (.obj o) off

/-! ## The filter chain (`DecoderChain`) -/

/-- The single decoder recognized by `DecoderChain::chain_append`. -/
def chainRecognized (f : Bs) : Bool := f = S "FlateDecode"

/-- The array walk of the `DecoderChain` constructor: append recognized
decoders, stop at the first unrecognized name (recording it as the
innermost remaining filter), throw on a non-name entry.  Result: the
appended filter names and the innermost remaining name (empty when the
chain is complete). -/
def chainFold (acc : List Bs) : List Obj → Except Bs (List Bs × Bs)
  | [] => .ok (acc, [])
  | e :: rest =>
    match e with
    | .name fl =>
      if chainRecognized fl then chainFold (acc ++ [fl]) rest
      else .ok (acc, fl)
    | _ => .error (S "Invalid /Filter")

/-- The `DecoderChain` constructor on a stream's dictionary: dispatch on
the shape of the `/Filter` entry.  `Except.error` models the thrown
`codec::decode_error` (whose message here is exactly `Invalid /Filter`
since the component is empty and no position is given). -/
def decoderChain (dict : List (Bs × Obj)) : Except Bs (List Bs × Bs) :=
  let filters := dictLookup dict (S "Filter")
  if !filters.toBool then .ok ([], [])
  else match filters with
  | .name fl => if chainRecognized fl then .ok ([fl], []) else .ok ([], fl)
  | .array items _ => chainFold [] items
  | _ => .error (S "Invalid /Filter")

/-- `DecoderChain::complete`. -/
def chainComplete (r : List Bs × Bs) : Bool := r.2.isEmpty

/-! ## Top-level objects and the object-stream reader -/

/-- The `pdf::TopLevelObject` tagged union (only the variants the
object-stream reader produces carry data here). -/
inductive TLObj where
  | null
  | namedObject (num gen : Nat) (contents : Obj) (error : Bs)
  | xrefTable
  | trailer
  | startxref
  | invalid (error : Bs)
deriving Repr

/-- `ObjStream` state: the numbers from the header, the read index, the
failure flag, and the tokenizer over the decoded payload. -/
structure ObjS where
  nums : List Nat
  ix : Nat
  fail : Bool
  ts : TP
deriving Repr

/-- The header loop of the `ObjStream` constructor: read `count`
`(number, offset)` pairs of unsigned integers; offsets are ignored. -/
def objStreamHeader (count : Nat) (ts : TP) (acc : List Nat) :
    Except Bs (List Nat × TP) :=
  match count with
  | 0 => .ok (acc, ts)
  | c + 1 =>
    let r1 := ts.read
    let num := Numeric.fromTok r1.1
    if num.uintegral then
      let r2 := r1.2.read
      let offs := Numeric.fromTok r2.1
      if offs.uintegral then objStreamHeader c r2.2 (acc ++ [num.val_ulong])
      else .error (S "Broken object stream header")
    else .error (S "Broken object stream header")

/-- The `ObjStream` constructor.  The decoded payload of the filter
chain is passed explicitly (`decode` stands for the external `Deflate`
collaborator; for a stream without filters it is not applied and the
payload is the raw data).  `Except.error` models the thrown
`objstm_error`. -/
def mkObjStream (dict : List (Bs × Obj)) (rawData : Bs) (decode : Bs → Bs) :
    Except Bs ObjS :=
  match decoderChain dict with
  | .error e => .error e
  | .ok chain =>
    if !chainComplete chain then .error (S "Couldn't unpack object stream")
    else
      let oN := dictLookup dict (S "N")
      let oFirst := dictLookup dict (S "First")
      match oN, oFirst with
      | .numeric nN, .numeric nF =>
        if nN.uintegral && nF.uintegral then
          let decoded := if chain.1 = [] then rawData else decode rawData
          match objStreamHeader nN.val_ulong (initTP decoded) [] with
          | .error e => .error e
          | .ok (nums, ts) => .ok ⟨nums, 0, false, ts⟩
        else .error (S "Object stream lacks required fields")
      | _, _ => .error (S "Object stream lacks required fields")

/-- `ObjStream::read`, fuelled through the embedded `readObject`. -/
def ObjS.read (s : ObjS) (f : Nat) : Option (TLObj × ObjS) :=
  if s.fail then some (.invalid (S "Read on a failed ObjStream"), s)
  else if s.ix = s.nums.length then some (.null, { s with fail := true })
  else match readObjF f s.ts with
  | none => none
  | some (o, ts') =>
    let num := s.nums.getD s.ix 0
    some (.namedObject num 0 o [],
      { s with ts := ts', fail := o.failed, ix := if o.failed then s.ix else s.ix + 1 })

/-! ## Basic character facts -/

theorem charEq_of_toNat {a b : B} (h : a.toNat = b.toNat) : a = b := by
  apply Char.eq_of_val_eq
  apply UInt32.eq_of_toBitVec_eq
  exact BitVec.eq_of_toNat_eq h

theorem charEq_iff_toNat {a b : B} : a = b ↔ a.toNat = b.toNat :=
  ⟨fun h => h ▸ rfl, charEq_of_toNat⟩

theorem toNat_ofNatChar {n : Nat} (h : n < 55296) : (Char.ofNat n).toNat = n := by
  simp only [Char.ofNat, Nat.isValidChar]
  rw [dif_pos (Or.inl h)]
  rfl

theorem isSpaceC_iff {c : B} : isSpaceC c = true ↔
    c.toNat = 32 ∨ c.toNat = 9 ∨ c.toNat = 10 ∨ c.toNat = 11 ∨ c.toNat = 12 ∨ c.toNat = 13 := by
  simp only [isSpaceC, Bool.or_eq_true, decide_eq_true_eq]
  constructor
  · rintro (rfl | rfl | rfl | rfl | rfl | rfl) <;> simp
  · rw [charEq_iff_toNat, charEq_iff_toNat, charEq_iff_toNat, charEq_iff_toNat,
      charEq_iff_toNat, charEq_iff_toNat]
    intro h
    rcases h with h | h | h | h | h | h <;> simp [h]

theorem charType_ws_iff {c : B} : charType c = .ws ↔
    c.toNat = 0 ∨ c.toNat = 9 ∨ c.toNat = 13 ∨ c.toNat = 10 ∨ c.toNat = 12 ∨ c.toNat = 32 := by
  unfold charType
  constructor
  · intro h
    by_cases h1 : c = '\x00' ∨ c = '\t' ∨ c = '\r' ∨ c = '\n' ∨ c = '\x0c' ∨ c = ' '
    · rcases h1 with (rfl | rfl | rfl | rfl | rfl | rfl) <;> simp
    · rw [if_neg h1] at h
      split at h <;> simp_all
  · intro h
    have h1 : c = '\x00' ∨ c = '\t' ∨ c = '\r' ∨ c = '\n' ∨ c = '\x0c' ∨ c = ' ' := by
      rcases h with h | h | h | h | h | h
      · exact Or.inl (charEq_of_toNat (by rw [h]; rfl))
      · exact Or.inr (Or.inl (charEq_of_toNat (by rw [h]; rfl)))
      · exact Or.inr (Or.inr (Or.inl (charEq_of_toNat (by rw [h]; rfl))))
      · exact Or.inr (Or.inr (Or.inr (Or.inl (charEq_of_toNat (by rw [h]; rfl)))))
      · exact Or.inr (Or.inr (Or.inr (Or.inr (Or.inl (charEq_of_toNat (by rw [h]; rfl))))))
      · exact Or.inr (Or.inr (Or.inr (Or.inr (Or.inr (charEq_of_toNat (by rw [h]; rfl))))))
    rw [if_pos h1]

theorem charType_delim_iff {c : B} : charType c = .delim ↔
    (c.toNat = 40 ∨ c.toNat = 41 ∨ c.toNat = 60 ∨ c.toNat = 62 ∨ c.toNat = 91 ∨
     c.toNat = 93 ∨ c.toNat = 123 ∨ c.toNat = 125 ∨ c.toNat = 47 ∨ c.toNat = 37) := by
  unfold charType
  constructor
  · intro h
    split at h
    · simp at h
    · split at h
      · next _ h2 =>
        rcases h2 with (rfl | rfl | rfl | rfl | rfl | rfl | rfl | rfl | rfl | rfl) <;> simp
      · simp at h
  · intro h
    have hws : ¬ (c = '\x00' ∨ c = '\t' ∨ c = '\r' ∨ c = '\n' ∨ c = '\x0c' ∨ c = ' ') := by
      rintro (rfl | rfl | rfl | rfl | rfl | rfl) <;> revert h <;> decide
    rw [if_neg hws]
    have hd : c = '(' ∨ c = ')' ∨ c = '<' ∨ c = '>' ∨ c = '[' ∨ c = ']' ∨
        c = '\x7b' ∨ c = '\x7d' ∨ c = '/' ∨ c = '%' := by
      rcases h with h | h | h | h | h | h | h | h | h | h
      · exact Or.inl (charEq_of_toNat (by rw [h]; rfl))
      · exact Or.inr (Or.inl (charEq_of_toNat (by rw [h]; rfl)))
      · exact Or.inr (Or.inr (Or.inl (charEq_of_toNat (by rw [h]; rfl))))
      · exact Or.inr (Or.inr (Or.inr (Or.inl (charEq_of_toNat (by rw [h]; rfl)))))
      · exact Or.inr (Or.inr (Or.inr (Or.inr (Or.inl (charEq_of_toNat (by rw [h]; rfl))))))
      · exact Or.inr (Or.inr (Or.inr (Or.inr (Or.inr (Or.inl (charEq_of_toNat (by rw [h]; rfl)))))))
      · exact Or.inr (Or.inr (Or.inr (Or.inr (Or.inr (Or.inr (Or.inl (charEq_of_toNat (by rw [h]; rfl))))))))
      · exact Or.inr (Or.inr (Or.inr (Or.inr (Or.inr (Or.inr (Or.inr (Or.inl (charEq_of_toNat (by rw [h]; rfl)))))))))
      · exact Or.inr (Or.inr (Or.inr (Or.inr (Or.inr (Or.inr (Or.inr (Or.inr (Or.inl (charEq_of_toNat (by rw [h]; rfl))))))))))
      · exact Or.inr (Or.inr (Or.inr (Or.inr (Or.inr (Or.inr (Or.inr (Or.inr (Or.inr (charEq_of_toNat (by rw [h]; rfl))))))))))
    rw [if_pos hd]

theorem charType_regular_iff {c : B} : charType c = .regular ↔
    ¬ (charType c = .ws) ∧ ¬ (charType c = .delim) := by
  cases h : charType c <;> simp [h]

/-! ## Lemmas about `strtol` and `Numeric` construction (claim C7) -/

theorem isDigitC_not_space {c : B} (h : isDigitC c = true) : isSpaceC c = false := by
  simp only [isDigitC, Bool.and_eq_true, decide_eq_true_eq] at h
  by_contra hs
  rw [Bool.not_eq_false, isSpaceC_iff] at hs
  omega

theorem isDigitC_ne_signs {c : B} (h : isDigitC c = true) :
    c ≠ '-' ∧ c ≠ '+' ∧ c ≠ '.' := by
  simp only [isDigitC, Bool.and_eq_true, decide_eq_true_eq] at h
  refine ⟨?_, ?_, ?_⟩ <;> rintro rfl <;> revert h <;> decide

theorem take_length_takeWhile (p : B → Bool) (l : Bs) :
    l.take (l.takeWhile p).length = l.takeWhile p := by
  induction l with
  | nil => rfl
  | cons a l ih => by_cases h : p a <;> simp [List.takeWhile_cons, h, ih]

theorem takeWhile_full {p : B → Bool} {l : Bs}
    (h : (l.takeWhile p).length = l.length) : l.takeWhile p = l := by
  have := take_length_takeWhile p l
  rw [h, List.take_length] at this
  exact this.symm

theorem findIdx?_append_first_go {p : B → Bool} (x : B) (l2 : Bs) (hx : p x = true) :
    ∀ (l1 : Bs) (i : Nat), (∀ c ∈ l1, p c = false) →
      List.findIdx? p (l1 ++ x :: l2) i = some (i + l1.length) := by
  intro l1
  induction l1 with
  | nil =>
    intro i _
    rw [List.nil_append, List.findIdx?_cons, if_pos hx]
    simp
  | cons a l ih =>
    intro i h
    rw [List.cons_append, List.findIdx?_cons,
      if_neg (by simp [h a (List.mem_cons_self a l)]),
      ih (i + 1) (fun c hc => h c (List.mem_cons_of_mem _ hc))]
    congr 1
    simp
    omega

theorem findIdx?_append_first {p : B → Bool} (l1 : Bs) (x : B) (l2 : Bs)
    (h : ∀ c ∈ l1, p c = false) (hx : p x = true) :
    (l1 ++ x :: l2).findIdx? p = some l1.length := by
  have := findIdx?_append_first_go x l2 hx l1 0 h
  simpa using this

theorem findIdx?_get_go {p : B → Bool} : ∀ (l : Bs) (i j : Nat),
    List.findIdx? p l i = some j →
      ∃ k c, j = i + k ∧ l.get? k = some c ∧ p c = true := by
  intro l
  induction l with
  | nil =>
    intro i j h
    simp [List.findIdx?] at h
  | cons a t ih =>
    intro i j h
    rw [List.findIdx?_cons] at h
    by_cases hp : p a
    · rw [if_pos hp] at h
      cases h
      exact ⟨0, a, by omega, rfl, hp⟩
    · rw [if_neg hp] at h
      obtain ⟨k, c, hk, hc, hpc⟩ := ih (i + 1) j h
      exact ⟨k + 1, c, by omega, by simpa using hc, hpc⟩

theorem findIdx?_get {p : B → Bool} {l : Bs} {i : Nat} (h : l.findIdx? p = some i) :
    ∃ c, l.get? i = some c ∧ p c = true := by
  obtain ⟨k, c, hk, hc, hpc⟩ := findIdx?_get_go l 0 i h
  exact ⟨c, by rw [hk]; simpa using hc, hpc⟩

theorem length_takeWhile_le (p : B → Bool) (l : Bs) : (l.takeWhile p).length ≤ l.length := by
  induction l with
  | nil => simp
  | cons a t ih =>
    rw [List.takeWhile_cons]
    split
    · simpa using ih
    · simp

theorem strtol10_clean (sg ds : Bs) (hsg : sg = [] ∨ sg = S "-" ∨ sg = S "+")
    (hds : ∀ c ∈ ds, isDigitC c = true) (hne : ds ≠ []) :
    strtol10 (sg ++ ds) =
      (clampLong ((if sg = S "-" then -1 else 1) * digitsVal ds), sg.length + ds.length) := by
  obtain ⟨d, ds', rfl⟩ : ∃ d ds', ds = d :: ds' := by
    cases ds with
    | nil => exact absurd rfl hne
    | cons d ds' => exact ⟨d, ds', rfl⟩
  have hd := hds d (List.mem_cons_self d ds')
  have hdall : (d :: ds').takeWhile isDigitC = d :: ds' :=
    List.takeWhile_eq_self_iff.mpr hds
  have hdash := isDigitC_ne_signs hd
  rcases hsg with rfl | rfl | rfl
  · have hA : (d :: ds').takeWhile isSpaceC = [] := by
      rw [List.takeWhile_cons, if_neg (by simp [isDigitC_not_space hd])]
    rw [List.nil_append]
    simp [strtol10, hA, hdall, hdash.1, hdash.2.1, S]
  · have heq : S "-" ++ d :: ds' = '-' :: d :: ds' := rfl
    have hA : ('-' :: d :: ds').takeWhile isSpaceC = [] := by
      rw [List.takeWhile_cons, if_neg (by decide)]
    rw [heq]
    simp [strtol10, hA, hdall, S]
  · have heq : S "+" ++ d :: ds' = '+' :: d :: ds' := rfl
    have hA : ('+' :: d :: ds').takeWhile isSpaceC = [] := by
      rw [List.takeWhile_cons, if_neg (by decide)]
    rw [heq]
    simp [strtol10, hA, hdall, S]

theorem strtol10_full_chars {s : Bs} (h : (strtol10 s).2 = s.length) :
    ∀ c ∈ s, isSpaceC c = true ∨ c = '-' ∨ c = '+' ∨ isDigitC c = true := by
  intro c hc
  by_cases hds : ((s.drop (s.takeWhile isSpaceC).length).drop
      (if (s.drop (s.takeWhile isSpaceC).length).head? = some '-' ∨
          (s.drop (s.takeWhile isSpaceC).length).head? = some '+' then 1 else 0)).takeWhile
        isDigitC = []
  · have h0 : (strtol10 s).2 = 0 := by
      simp only [strtol10, hds]
      rfl
    rw [h0] at h
    have : s = [] := List.eq_nil_of_length_eq_zero h.symm
    subst this
    simp at hc
  · set wsn := (s.takeWhile isSpaceC).length with hwsn
    set s1 := s.drop wsn with hs1
    set sgnLen := (if s1.head? = some '-' ∨ s1.head? = some '+' then 1 else 0) with hsgn
    set ds := (s1.drop sgnLen).takeWhile isDigitC with hds2
    have hlen : (strtol10 s).2 = wsn + sgnLen + ds.length := by
      simp only [strtol10]
      rw [if_neg hds]
    rw [hlen] at h
    have hwle : wsn ≤ s.length := by
      rw [hwsn]
      exact length_takeWhile_le _ _
    have hs1len : s1.length = s.length - wsn := by simp [hs1]
    have hsgbound : sgnLen ≤ 1 := by
      rw [hsgn]
      split <;> simp
    have hsgnle : sgnLen ≤ s1.length := by
      rcases Nat.eq_zero_or_pos s1.length with h0 | h0
      · have : s1 = [] := List.eq_nil_of_length_eq_zero h0
        simp [hsgn, this]
      · omega
    have hdslen : ds.length = (s1.drop sgnLen).length := by
      have h1 : ds.length ≤ (s1.drop sgnLen).length := by
        rw [hds2]
        exact length_takeWhile_le _ _
      have h2 : (s1.drop sgnLen).length = s1.length - sgnLen := by simp
      omega
    have hdseq : ds = s1.drop sgnLen := takeWhile_full (by rw [← hds2, hdslen])
    rw [← List.take_append_drop wsn s] at hc
    rcases List.mem_append.mp hc with hcw | hcs1
    · left
      rw [hwsn, take_length_takeWhile] at hcw
      exact List.mem_takeWhile_imp hcw
    · rw [← hs1] at hcs1
      rw [← List.take_append_drop sgnLen s1] at hcs1
      rcases List.mem_append.mp hcs1 with hcsg | hcds
      · rcases Nat.eq_zero_or_pos sgnLen with h0 | h0
        · rw [h0] at hcsg
          simp at hcsg
        · have hsg1 : sgnLen = 1 := by omega
          have hhead : s1.head? = some '-' ∨ s1.head? = some '+' := by
            by_contra hh
            rw [hsgn, if_neg hh] at h0
            exact absurd h0 (by simp)
          obtain ⟨a, s1', hcons⟩ : ∃ a s1', s1 = a :: s1' := by
            cases hs : s1 with
            | nil => rw [hs] at hhead; simp at hhead
            | cons a s1' => exact ⟨a, s1', rfl⟩
          have htake : s1.take 1 = [a] := by rw [hcons]; simp
          rw [hsg1, htake] at hcsg
          rcases List.mem_singleton.mp hcsg with rfl
          rw [hcons] at hhead
          simp only [List.head?_cons, Option.some_inj] at hhead
          rcases hhead with rfl | rfl
          · right; left; rfl
          · right; right; left; rfl
      · right; right; right
        rw [← hdseq] at hcds
        exact List.mem_takeWhile_imp hcds

theorem drop_append_cons (l1 : Bs) (x : B) (l2 : Bs) :
    (l1 ++ x :: l2).drop (l1.length + 1) = l2 := by
  induction l1 with
  | nil => simp
  | cons a l ih => simpa using ih

theorem take_append_cons (l1 : Bs) (x : B) (l2 : Bs) :
    (l1 ++ x :: l2).take l1.length = l1 := by
  induction l1 with
  | nil => simp
  | cons a l ih => simpa using ih

theorem sign_chars_ne_dot {sg : Bs} (hsg : sg = [] ∨ sg = S "-" ∨ sg = S "+") :
    ∀ c ∈ sg, (decide (c = '.')) = false := by
  rcases hsg with rfl | rfl | rfl
  · simp
  · intro c hc
    rcases List.mem_singleton.mp hc with rfl
    decide
  · intro c hc
    rcases List.mem_singleton.mp hc with rfl
    decide

theorem fromTok_clean_dot (sg d1 d2 : Bs) (hsg : sg = [] ∨ sg = S "-" ∨ sg = S "+")
    (h1 : ∀ c ∈ d1, isDigitC c = true) (h2 : ∀ c ∈ d2, isDigitC c = true)
    (hne : d1 ++ d2 ≠ []) :
    Numeric.fromTok (sg ++ d1 ++ '.' :: d2) =
      ⟨toInt32 (clampLong ((if sg = S "-" then -1 else 1) * (digitsVal (d1 ++ d2) : Int))),
        (d2.length : Int)⟩ := by
  have hassoc : sg ++ d1 ++ '.' :: d2 = (sg ++ d1) ++ '.' :: d2 := by
    rw [List.append_assoc]
  have hchars : ∀ c ∈ sg ++ d1, (decide (c = '.')) = false := by
    intro c hcm
    rcases List.mem_append.mp hcm with hcs | hcd
    · exact sign_chars_ne_dot hsg c hcs
    · simpa using (isDigitC_ne_signs (h1 c hcd)).2.2
  have hfind : ((sg ++ d1) ++ '.' :: d2).findIdx? (fun c => c = '.') = some (sg ++ d1).length :=
    findIdx?_append_first _ _ _ hchars (by simp)
  have hnil : ((sg ++ d1) ++ '.' :: d2) ≠ [] := by simp
  have hsall : ∀ c ∈ d1 ++ d2, isDigitC c = true := by
    intro c hcm
    rcases List.mem_append.mp hcm with hcd | hcd
    · exact h1 c hcd
    · exact h2 c hcd
  have hstr : strtol10 (sg ++ (d1 ++ d2)) =
      (clampLong ((if sg = S "-" then -1 else 1) * digitsVal (d1 ++ d2)),
        sg.length + (d1 ++ d2).length) :=
    strtol10_clean sg (d1 ++ d2) hsg hsall (by simpa using hne)
  rw [hassoc]
  simp only [Numeric.fromTok, hfind, if_neg hnil, Option.isSome_some, if_true,
    Option.getD_some, take_append_cons, drop_append_cons]
  rw [List.append_assoc, hstr]
  rw [if_pos (by simp)]
  congr 1
  simp only [List.length_append]
  push_cast
  ring

theorem fromTok_clean_nodot (sg d1 : Bs) (hsg : sg = [] ∨ sg = S "-" ∨ sg = S "+")
    (h1 : ∀ c ∈ d1, isDigitC c = true) (hne : d1 ≠ []) :
    Numeric.fromTok (sg ++ d1) =
      ⟨toInt32 (clampLong ((if sg = S "-" then -1 else 1) * (digitsVal d1 : Int))), 0⟩ := by
  have hchars : ∀ c ∈ sg ++ d1, (decide (c = '.')) = false := by
    intro c hcm
    rcases List.mem_append.mp hcm with hcs | hcd
    · exact sign_chars_ne_dot hsg c hcs
    · simpa using (isDigitC_ne_signs (h1 c hcd)).2.2
  have hfind : (sg ++ d1).findIdx? (fun c => c = '.') = none :=
    List.findIdx?_eq_none_iff.mpr hchars
  have hnil : sg ++ d1 ≠ [] := by
    intro h
    exact hne (List.append_eq_nil.mp h).2
  have hstr := strtol10_clean sg d1 hsg h1 hne
  simp only [Numeric.fromTok, hfind, if_neg hnil, Option.isSome_none, Bool.false_eq_true,
    if_false, hstr]
  rw [if_pos (by simp)]

theorem fromTok_multidot {s : Bs} (h : 2 ≤ s.count '.') :
    (Numeric.fromTok s).failed = true := by
  have hnil : s ≠ [] := by
    intro h0
    rw [h0] at h
    simp at h
  have hmem : '.' ∈ s := List.count_pos_iff_mem.mp (by omega)
  obtain ⟨off, hoff⟩ : ∃ off, s.findIdx? (fun c => c = '.') = some off := by
    cases hf : s.findIdx? (fun c => c = '.') with
    | some off => exact ⟨off, rfl⟩
    | none =>
      have := List.findIdx?_eq_none_iff.mp hf '.' hmem
      simp at this
  obtain ⟨c, hc, hpc⟩ := findIdx?_get hoff
  have hcdot : c = '.' := by simpa using hpc
  subst hcdot
  have hofflt : off < s.length := by
    by_contra hge
    rw [List.get?_eq_none.mpr (by omega)] at hc
    exact Option.noConfusion hc
  have hdropeq : s.drop off = '.' :: s.drop (off + 1) := by
    rw [List.drop_eq_getElem_cons hofflt]
    congr 1
    have := List.get?_eq_getElem? s off
    rw [this, List.getElem?_eq_getElem hofflt] at hc
    exact Option.some_inj.mp hc
  have hcount : s.count '.' = (s.take off).count '.' + ((s.drop (off + 1)).count '.' + 1) := by
    conv_lhs => rw [← List.take_append_drop off s]
    rw [List.count_append, hdropeq]
    simp [List.count_cons]
  have hcount' : 1 ≤ (s.take off ++ s.drop (off + 1)).count '.' := by
    rw [List.count_append]
    omega
  have hmem' : '.' ∈ s.take off ++ s.drop (off + 1) :=
    List.count_pos_iff_mem.mp (by omega)
  simp only [Numeric.fromTok, hoff, if_neg hnil, Option.isSome_some, if_true, Option.getD_some]
  split
  · next hfull =>
    have := strtol10_full_chars hfull '.' hmem'
    rcases this with hsp | hd | hd | hdg
    · exact absurd hsp (by decide)
    · exact absurd hd (by decide)
    · exact absurd hd (by decide)
    · exact absurd hdg (by decide)
  · rfl

/-- **C7, counterexample.**  The claim states that every empty, non-digit,
or multi-dot input string yields the fail state `dp = -1`.  The
single-dot string `"."` contains no digit at all, yet the constructor
accepts it: the excised remainder is empty, `strtol` consumes zero bytes
of it, and the `last != str.data() + str.length()` check passes vacuously,
producing `Numeric` `0` with `dp = 0` (not failed). -/
theorem C7_counterexample :
    (∀ c ∈ S ".", isDigitC c = false) ∧ Numeric.fromTok (S ".") = ⟨0, 0⟩ ∧
      (Numeric.fromTok (S ".")).failed = false :=
  ⟨by decide, rfl, rfl⟩

/-- **C7 (amended).**  `Numeric` construction from a token string: one
optional `.` is located and excised and the remaining string is parsed as
a signed decimal integer in the `strtol` sense, `dp` becoming the number
of digits after the dot.  The empty string fails, every multi-dot string
fails, and every clean signed decimal (optional sign, digits, at most one
dot) yields the signed value of its digits (saturated to `long`, then
truncated to `int`) with `dp` the number of fractional digits — but the
string consisting of a single dot succeeds with value `0`, `dp = 0`,
rather than failing as the original claim states. -/
theorem C7_numeric_fromTok :
    (Numeric.fromTok [] = ⟨0, -1⟩)
    ∧ (∀ s : Bs, 2 ≤ s.count '.' → (Numeric.fromTok s).failed = true)
    ∧ (Numeric.fromTok (S ".") = ⟨0, 0⟩)
    ∧ (∀ sg d1 d2 : Bs, sg = [] ∨ sg = S "-" ∨ sg = S "+" →
        (∀ c ∈ d1, isDigitC c = true) → (∀ c ∈ d2, isDigitC c = true) → d1 ++ d2 ≠ [] →
        Numeric.fromTok (sg ++ d1 ++ '.' :: d2) =
          ⟨toInt32 (clampLong ((if sg = S "-" then -1 else 1) * (digitsVal (d1 ++ d2) : Int))),
            (d2.length : Int)⟩)
    ∧ (∀ sg d1 : Bs, sg = [] ∨ sg = S "-" ∨ sg = S "+" →
        (∀ c ∈ d1, isDigitC c = true) → d1 ≠ [] →
        Numeric.fromTok (sg ++ d1) =
          ⟨toInt32 (clampLong ((if sg = S "-" then -1 else 1) * (digitsVal d1 : Int))), 0⟩) :=
  ⟨rfl, fun _ h => fromTok_multidot h, rfl,
    fun sg d1 d2 hsg h1 h2 hne => fromTok_clean_dot sg d1 d2 hsg h1 h2 hne,
    fun sg d1 hsg h1 hne => fromTok_clean_nodot sg d1 hsg h1 hne⟩

/-- Witness for C7: the amended characterization evaluated at `-10.25`
and at the multi-dot string `1.2.3`. -/
theorem C7_witness :
    Numeric.fromTok (S "-" ++ S "10" ++ '.' :: S "25") =
        ⟨toInt32 (clampLong (-1 * (digitsVal (S "10" ++ S "25") : Int))), 2⟩ ∧
      (Numeric.fromTok (S "1.2.3")).failed = true := by
  constructor
  · have h := C7_numeric_fromTok.2.2.2.1 (S "-") (S "10") (S "25")
      (Or.inr (Or.inl rfl)) (by decide) (by decide) (by decide)
    rw [h]
    rfl
  · exact C7_numeric_fromTok.2.1 (S "1.2.3") (by decide)

/-! ## Claim C5: duplicate dictionary keys -/

/-- Helper: the general duplicate-key step of the `parseDict` loop. -/
theorem parseDict_duplicate (f : Nat) (ts : TP) (acc : List (Bs × Obj)) (t1 : Bs)
    (ts0 : TP) (key : Bs) (ts1 : TP)
    (hpeek : ts.peek = (t1, ts0)) (ht1 : t1 ≠ S ">>")
    (hread : readObjF f ts0 = some (.name key, ts1))
    (hdup : dhasKey acc key = true) :
    parseGo (f + 1) (.dct acc) ts =
      some (.dict acc (S "Duplicite key /" ++ key ++ S " at " ++ formatPosition ts1.lastpos),
        if (ts1.peek).1 = S ">>" then (ts1.peek).2.consume else (ts1.peek).2) := by
  rw [readObjF] at hread
  simp only [parseGo, hpeek]
  rw [if_neg ht1, hread]
  simp only [Obj.failed, Bool.false_eq_true, if_false, hdup, if_true, reportPos]
  simp [List.append_assoc]

/-- **C5, counterexample.**  Parsing `<</A 1 /A 2>>` preserves the first
entry but produces the error text `Duplicite key /A at 8` — a misspelled
word and a single position (of the second occurrence), not the claimed
`Duplicate key /A` carrying both entries' positions. -/
theorem C5_counterexample :
    (readObjF 50 (initTP (S "<</A 1 /A 2>>"))).map (fun r => r.1) =
        some (.dict [(S "A", .numeric ⟨1, 0⟩)] (S "Duplicite key /A at 8")) ∧
      S "Duplicite key /A at 8" ≠ S "Duplicate key /A" :=
  ⟨rfl, by decide⟩

/-- **C5 (amended).**  When `parseDict` reads a key equal to an
already-inserted key, it stops with the partial-parse error
`Duplicite key /k at POS` on the resulting `Dictionary`, where `POS` is
the byte offset at which the second occurrence's token began (only that
one position appears in the text), and the entries inserted before the
failure are kept unchanged. -/
theorem C5_duplicate_key (f : Nat) (ts : TP) (acc : List (Bs × Obj)) (t1 : Bs)
    (ts0 : TP) (key : Bs) (ts1 : TP)
    (hpeek : ts.peek = (t1, ts0)) (ht1 : t1 ≠ S ">>")
    (hread : readObjF f ts0 = some (.name key, ts1))
    (hdup : dhasKey acc key = true) :
    parseGo (f + 1) (.dct acc) ts =
      some (.dict acc (S "Duplicite key /" ++ key ++ S " at " ++ formatPosition ts1.lastpos),
        if (ts1.peek).1 = S ">>" then (ts1.peek).2.consume else (ts1.peek).2) :=
  parseDict_duplicate f ts acc t1 ts0 key ts1 hpeek ht1 hread hdup

/-- Witness for C5: the duplicate-key step applied to the concrete state
reached inside `<</A 1 /A 2>>` right before the second `/A`. -/
theorem C5_witness :
    parseGo 11 (.dct [(S "A", Obj.numeric ⟨1, 0⟩)]) (initTP (S "/A 2>>")) =
      some (.dict [(S "A", Obj.numeric ⟨1, 0⟩)]
          (S "Duplicite key /" ++ S "A" ++ S " at " ++ formatPosition 1),
        ⟨⟨S "/A 2>>", 4⟩, [S "2"], 1⟩) := by
  have h := C5_duplicate_key 10 (initTP (S "/A 2>>")) [(S "A", Obj.numeric ⟨1, 0⟩)]
    (S "/") ⟨⟨S "/A 2>>", 1⟩, [S "/"], 1⟩ (S "A") ⟨⟨S "/A 2>>", 2⟩, [], 1⟩
    rfl (by decide) rfl rfl
  rw [h]
  rfl

/-! ## Claim C6: pushback soundness of the number/indirect parser -/

/-- **C6.**  Pushback soundness: when `parseNumberIndir` rejects the
speculative lookahead, the returned tokenizer replays the token(s) it
read — the next `read` yields `t2` with exactly the state the tokenizer
had after `t2` was first read (so the tokenizer is observationally
positioned exactly where it was after `n1` was consumed), and in the
two-token case the read after that yields the third token likewise.
Consequently `[1 2 3 4 R 5]` parses to
`[Numeric 1, Numeric 2, Indirect 3 4, Numeric 5]`. -/
theorem C6_pushback_soundness :
    (∀ (ts : TP) (n1 : Numeric),
      (¬ (n1.uintegral = true ∧ (Numeric.fromTok (ts.read).1).uintegral = true) →
        parseNumberIndir ts n1 = (.numeric n1, (ts.read).2.unread (ts.read).1) ∧
        ((ts.read).2.unread (ts.read).1).read = ts.read) ∧
      (n1.uintegral = true → (Numeric.fromTok (ts.read).1).uintegral = true →
        ((ts.read).2.read).1 ≠ S "R" →
        parseNumberIndir ts n1 =
          (.numeric n1, ((((ts.read).2.read).2.unread ((ts.read).2.read).1).unread (ts.read).1)) ∧
        (((((ts.read).2.read).2.unread ((ts.read).2.read).1).unread (ts.read).1)).read =
          ((ts.read).1, (((ts.read).2.read).2.unread ((ts.read).2.read).1)) ∧
        ((((ts.read).2.read).2.unread ((ts.read).2.read).1)).read = (ts.read).2.read))
    ∧ (readObjF 50 (initTP (S "[1 2 3 4 R 5]"))).map (fun r => r.1) =
        some (.array [.numeric ⟨1, 0⟩, .numeric ⟨2, 0⟩, .indirect 3 4, .numeric ⟨5, 0⟩] []) := by
  constructor
  · intro ts n1
    constructor
    · intro hno
      have hb : (n1.uintegral && (Numeric.fromTok (ts.read).1).uintegral) = false := by
        by_contra hbb
        rw [Bool.not_eq_false, Bool.and_eq_true] at hbb
        exact hno ⟨hbb.1, hbb.2⟩
      refine ⟨by simp [parseNumberIndir, hb], ?_⟩
      rfl
    · intro h1 h2 h3
      refine ⟨?_, rfl, rfl⟩
      simp only [parseNumberIndir, h1, h2, Bool.and_self, if_true]
      rw [if_neg h3]
  · rfl

/-- Witness for C6: the one-token reject at a concrete state (reading
`x` after the numeral `5`). -/
theorem C6_witness :
    parseNumberIndir (initTP (S " x")) ⟨5, 0⟩ =
        (.numeric ⟨5, 0⟩, ((initTP (S " x")).read).2.unread ((initTP (S " x")).read).1) ∧
      ((((initTP (S " x")).read).2.unread ((initTP (S " x")).read).1)).read =
        (initTP (S " x")).read := by
  have h := (C6_pushback_soundness.1 (initTP (S " x")) ⟨5, 0⟩).1 (by decide)
  exact h

/-! ## Claim C9: skipToEndobj -/

theorem readToNLBs_pre (l : Bs) : ∃ t, l = readToNLBs l ++ t := by
  induction l with
  | nil => exact ⟨[], rfl⟩
  | cons c rest ih =>
    by_cases hnl : c = '\n'
    · subst hnl
      exact ⟨rest, by simp [readToNLBs]⟩
    · by_cases hcr : c = '\r' ∧ rest.head? = some '\n'
      · obtain ⟨rest', hrest⟩ : ∃ rest', rest = '\n' :: rest' := by
          cases rest with
          | nil => simp at hcr
          | cons a r =>
            have : a = '\n' := by simpa using hcr.2
            exact ⟨r, by rw [this]⟩
        refine ⟨rest', ?_⟩
        simp only [readToNLBs, if_neg hnl, if_pos hcr]
        rw [hrest]
        rfl
      · obtain ⟨t, ht⟩ := ih
        refine ⟨t, ?_⟩
        simp only [readToNLBs, if_neg hnl, if_neg hcr]
        rw [List.cons_append, ← ht]

theorem readToNLBs_nil_iff (l : Bs) : readToNLBs l = [] ↔ l = [] := by
  cases l with
  | nil => simp [readToNLBs]
  | cons c rest =>
    simp only [readToNLBs]
    constructor
    · intro h
      split at h
      · exact absurd h (by simp)
      · split at h
        · exact absurd h (by simp)
        · exact absurd h (by simp)
    · intro h
      exact absurd h (by simp)

theorem readToNLBs_length_le (l : Bs) : (readToNLBs l).length ≤ l.length := by
  obtain ⟨t, ht⟩ := readToNLBs_pre l
  conv_rhs => rw [ht]
  simp

theorem readToNLBs_last_nl (l : Bs) :
    readToNLBs l = l ∨ (readToNLBs l).getLast? = some '\n' := by
  induction l with
  | nil => exact Or.inl rfl
  | cons c rest ih =>
    by_cases hnl : c = '\n'
    · subst hnl
      exact Or.inr (by simp [readToNLBs])
    · by_cases hcr : c = '\r' ∧ rest.head? = some '\n'
      · right
        simp only [readToNLBs, if_neg hnl, if_pos hcr]
        rfl
      · simp only [readToNLBs, if_neg hnl, if_neg hcr]
        rcases ih with h | h
        · exact Or.inl (by rw [h])
        · right
          rw [List.getLast?_cons]
          have hne : readToNLBs rest ≠ [] := by
            intro h0
            rw [h0] at h
            simp at h
          rw [List.getLast?_eq_getLast _ hne] at h
          simp [List.getLastD_eq_getLast?, List.getLast?_eq_getLast _ hne, h]

theorem leadsWith_spec : ∀ (sep t : Bs), leadsWith sep t = true →
    sep.length ≤ t.length ∧ t.take sep.length = sep := by
  intro sep
  induction sep with
  | nil => intro t _; simp
  | cons a as ih =>
    intro t h
    cases t with
    | nil => exact absurd h (by simp [leadsWith])
    | cons b bs =>
      simp only [leadsWith, Bool.and_eq_true, decide_eq_true_eq] at h
      obtain ⟨rfl, h2⟩ := h
      obtain ⟨h3, h4⟩ := ih bs h2
      refine ⟨by simpa using h3, ?_⟩
      simp [List.take_cons, h4]

theorem findSub_spec (sep : Bs) : ∀ (t : Bs) (off : Nat), findSub sep t = some off →
    off + sep.length ≤ t.length ∧ (t.drop off).take sep.length = sep := by
  intro t
  induction t with
  | nil => intro off h; simp [findSub] at h
  | cons c rest ih =>
    intro off h
    simp only [findSub] at h
    split at h
    · next hlead =>
      cases h
      obtain ⟨h1, h2⟩ := leadsWith_spec sep (c :: rest) hlead
      simpa using ⟨h1, h2⟩
    · obtain ⟨j, hj, hji⟩ := Option.map_eq_some'.mp h
      obtain ⟨h1, h2⟩ := ih j hj
      subst hji
      constructor
      · simpa using by omega
      · simpa using h2

theorem adv_rem_length (b : SBuf) (k : Nat) :
    (b.adv k).rem.length = b.rem.length - k := by
  simp only [SBuf.adv, SBuf.rem, List.length_drop]
  omega

theorem adv_rem (b : SBuf) (k : Nat) : (b.adv k).rem = b.rem.drop k := by
  simp only [SBuf.adv, SBuf.rem, List.drop_drop]

theorem skipToEndobjGo_stable : ∀ (n : Nat), ∀ (b : SBuf) (f g : Nat),
    b.rem.length ≤ n → n < f → n < g →
    skipToEndobjGo f b = skipToEndobjGo g b := by
  intro n
  induction n using Nat.strong_induction_on with
  | _ n ih =>
    intro b f g hle hf hg
    obtain ⟨f', rfl⟩ : ∃ f', f = f' + 1 := ⟨f - 1, by omega⟩
    obtain ⟨g', rfl⟩ : ∃ g', g = g' + 1 := ⟨g - 1, by omega⟩
    simp only [skipToEndobjGo]
    by_cases hs : readToNLBs b.rem = []
    · rw [if_pos hs, if_pos hs]
    · rw [if_neg hs, if_neg hs]
      have hs1 : 1 ≤ (readToNLBs b.rem).length := by
        cases h0 : readToNLBs b.rem with
        | nil => exact absurd h0 hs
        | cons a t => simp
    
      have hsle : (readToNLBs b.rem).length ≤ b.rem.length := readToNLBs_length_le _
      cases hfind : findSub (S "endobj") (readToNLBs b.rem) with
      | none =>
        dsimp only
        exact ih (n - 1) (by omega) (b.adv (readToNLBs b.rem).length) f' g'
          (by rw [adv_rem_length]; omega) (by omega) (by omega)
      | some off =>
        dsimp only
        by_cases hend : off + 6 = (readToNLBs b.rem).length
        · rw [if_pos hend, if_pos hend]
        · rw [if_neg hend, if_neg hend]
          split
          · rfl
          · have hoffle : off + 6 ≤ (readToNLBs b.rem).length := by
              have := (findSub_spec (S "endobj") (readToNLBs b.rem) off hfind).1
              simpa using this
            exact ih (n - 6) (by omega) ⟨b.data, b.pos + off + 6⟩ f' g'
              (by
                have : (⟨b.data, b.pos + off + 6⟩ : SBuf) = b.adv (off + 6) := by
                  simp [SBuf.adv, Nat.add_assoc]
                rw [this, adv_rem_length]
                omega)
              (by omega) (by omega)

theorem skipToEndobjGo_false : ∀ (n : Nat), ∀ (b : SBuf) (f : Nat),
    b.rem.length ≤ n → n < f →
    (skipToEndobjGo f b).1 = false → (skipToEndobjGo f b).2.rem = [] := by
  intro n
  induction n using Nat.strong_induction_on with
  | _ n ih =>
    intro b f hle hf
    obtain ⟨f', rfl⟩ : ∃ f', f = f' + 1 := ⟨f - 1, by omega⟩
    simp only [skipToEndobjGo]
    by_cases hs : readToNLBs b.rem = []
    · rw [if_pos hs]
      intro _
      exact (readToNLBs_nil_iff b.rem).mp hs
    · rw [if_neg hs]
      have hs1 : 1 ≤ (readToNLBs b.rem).length := by
        cases h0 : readToNLBs b.rem with
        | nil => exact absurd h0 hs
        | cons a t => simp
      have hsle : (readToNLBs b.rem).length ≤ b.rem.length := readToNLBs_length_le _
      cases hfind : findSub (S "endobj") (readToNLBs b.rem) with
      | none =>
        dsimp only
        exact ih (n - 1) (by omega) (b.adv (readToNLBs b.rem).length) f'
          (by rw [adv_rem_length]; omega) (by omega)
      | some off =>
        dsimp only
        by_cases hend : off + 6 = (readToNLBs b.rem).length
        · rw [if_pos hend]
          intro h
          exact absurd h (by simp)
        · rw [if_neg hend]
          split
          · intro h
            exact absurd h (by simp)
          · have hoffle : off + 6 ≤ (readToNLBs b.rem).length := by
              have := (findSub_spec (S "endobj") (readToNLBs b.rem) off hfind).1
              simpa using this
            exact ih (n - 6) (by omega) ⟨b.data, b.pos + off + 6⟩ f'
              (by
                have heq : (⟨b.data, b.pos + off + 6⟩ : SBuf) = b.adv (off + 6) := by
                  simp [SBuf.adv, Nat.add_assoc]
                rw [heq, adv_rem_length]
                omega)
              (by omega)

theorem skipToEndobjGo_true : ∀ (n : Nat), ∀ (b : SBuf) (f : Nat),
    b.rem.length ≤ n → n < f → b.pos ≤ b.data.length →
    (skipToEndobjGo f b).1 = true →
    ∃ q, (skipToEndobjGo f b).2 = ⟨b.data, q + 6⟩ ∧ b.pos ≤ q ∧
      (b.data.drop q).take 6 = S "endobj" ∧
      (q + 6 = b.data.length ∨ charType ((b.data.drop (q + 6)).headD '\xff') ≠ .regular) := by
  intro n
  induction n using Nat.strong_induction_on with
  | _ n ih =>
    intro b f hle hf hpos
    obtain ⟨f', rfl⟩ : ∃ f', f = f' + 1 := ⟨f - 1, by omega⟩
    simp only [skipToEndobjGo]
    by_cases hs : readToNLBs b.rem = []
    · rw [if_pos hs]
      intro h
      exact absurd h (by simp)
    · rw [if_neg hs]
      have hs1 : 1 ≤ (readToNLBs b.rem).length := by
        cases h0 : readToNLBs b.rem with
        | nil => exact absurd h0 hs
        | cons a t => simp
      have hsle : (readToNLBs b.rem).length ≤ b.rem.length := readToNLBs_length_le _
      have hremlen : b.rem.length = b.data.length - b.pos := by
        simp [SBuf.rem]
      obtain ⟨tail, htail⟩ := readToNLBs_pre b.rem
      cases hfind : findSub (S "endobj") (readToNLBs b.rem) with
      | none =>
        dsimp only
        intro h
        obtain ⟨q, h1, h2, h3, h4⟩ := ih (n - 1) (by omega) (b.adv (readToNLBs b.rem).length) f'
          (by rw [adv_rem_length]; omega) (by omega)
          (by simp only [SBuf.adv]; omega) h
        exact ⟨q, h1, by simp only [SBuf.adv] at h2; omega, h3, h4⟩
      | some off =>
        dsimp only
        obtain ⟨hofflen, hofftake⟩ := findSub_spec (S "endobj") (readToNLBs b.rem) off hfind
        have hofflen' : off + 6 ≤ (readToNLBs b.rem).length := by simpa using hofflen
        have hdropq : b.data.drop (b.pos + off) = (readToNLBs b.rem).drop off ++ tail := by
          have : b.data.drop (b.pos + off) = b.rem.drop off := by
            simp [SBuf.rem, List.drop_drop, Nat.add_comm]
          rw [this]
          conv_lhs => rw [htail]
          rw [List.drop_append_of_le_length (by omega)]
        have htake6 : (b.data.drop (b.pos + off)).take 6 = S "endobj" := by
          rw [hdropq, List.take_append_of_le_length (by simp; omega)]
          have h6 : ((readToNLBs b.rem).drop off).take 6 = S "endobj" := by
            simpa using hofftake
          exact h6
        by_cases hend : off + 6 = (readToNLBs b.rem).length
        · rw [if_pos hend]
          intro _
          have hdrop6 : (readToNLBs b.rem).drop off = S "endobj" := by
            have hlen : ((readToNLBs b.rem).drop off).length = 6 := by
              simp only [List.length_drop]
              omega
            have h7 : ((readToNLBs b.rem).drop off).take 6 = S "endobj" := by
              simpa using hofftake
            rw [← h7]
            exact (List.take_of_length_le (by omega)).symm
          refine ⟨b.pos + off, ?_, by omega, htake6, ?_⟩
          · have h8 : b.pos + (readToNLBs b.rem).length = b.pos + off + 6 := by omega
            simp only [SBuf.adv]
            rw [h8]
          · left
            -- the line ends exactly with `endobj`, so it was terminated by
            -- end of input, not by a newline
            have hfull : readToNLBs b.rem = b.rem := by
              rcases readToNLBs_last_nl b.rem with h | h
              · exact h
              · exfalso
                have hne6 : (readToNLBs b.rem).drop off ≠ [] := by
                  rw [hdrop6]
                  simp [S]
                have hlast : (readToNLBs b.rem).getLast? = some 'j' := by
                  conv_lhs => rw [(List.take_append_drop off (readToNLBs b.rem)).symm]
                  rw [List.getLast?_append_of_ne_nil _ hne6, hdrop6]
                  rfl
                rw [h] at hlast
                simp at hlast
            rw [hfull] at hend
            omega
        · rw [if_neg hend]
          split
          · next hreg =>
            intro _
            refine ⟨b.pos + off, rfl, by omega, htake6, Or.inr ?_⟩
            have : b.pos + off + 6 = b.pos + (off + 6) := by omega
            simpa [SBuf.rem, this] using hreg
          · intro h
            obtain ⟨q, h1, h2, h3, h4⟩ := ih (n - 6) (by omega) ⟨b.data, b.pos + off + 6⟩ f'
              (by
                have heq : (⟨b.data, b.pos + off + 6⟩ : SBuf) = b.adv (off + 6) := by
                  simp [SBuf.adv, Nat.add_assoc]
                rw [heq, adv_rem_length]
                omega)
              (by omega) (by simp; omega) h
            exact ⟨q, h1, by simp at h2; omega, h3, h4⟩

/-- **C9.**  `skipToEndobj` terminates on every bounded input (its result
is stable once the fuel exceeds the number of remaining bytes); it
returns `true` exactly after repositioning the byte source immediately
past an occurrence of the substring `endobj` that is followed by a
non-regular byte or by the end of the input (occurrences ending their
line are end-of-input occurrences, since `readToNL` otherwise keeps the
terminator), and it returns `false` only with the byte source at end of
input. -/
theorem C9_skipToEndobj_terminates (b : SBuf) (hpos : b.pos ≤ b.data.length) :
    (∀ g, b.rem.length < g → skipToEndobjGo g b = skipToEndobj b)
    ∧ ((skipToEndobj b).1 = false → (skipToEndobj b).2.rem = [])
    ∧ ((skipToEndobj b).1 = true →
        ∃ q, (skipToEndobj b).2 = ⟨b.data, q + 6⟩ ∧ b.pos ≤ q ∧
          (b.data.drop q).take 6 = S "endobj" ∧
          (q + 6 = b.data.length ∨
            charType ((b.data.drop (q + 6)).headD '\xff') ≠ .regular)) :=
  ⟨fun g hg => skipToEndobjGo_stable b.rem.length b g (b.rem.length + 1) le_rfl hg
      (Nat.lt_succ_self _),
   skipToEndobjGo_false b.rem.length b (b.rem.length + 1) le_rfl (Nat.lt_succ_self _),
   skipToEndobjGo_true b.rem.length b (b.rem.length + 1) le_rfl (Nat.lt_succ_self _) hpos⟩

/-- Witness for C9 at the concrete input `xx endobj more`. -/
theorem C9_witness :
    skipToEndobjGo 20 ⟨S "xx endobj more", 0⟩ = skipToEndobj ⟨S "xx endobj more", 0⟩ ∧
      ∃ q, (skipToEndobj ⟨S "xx endobj more", 0⟩).2 = ⟨S "xx endobj more", q + 6⟩ ∧
        ((S "xx endobj more").drop q).take 6 = S "endobj" := by
  have h := C9_skipToEndobj_terminates ⟨S "xx endobj more", 0⟩ (by decide)
  refine ⟨h.1 20 (by decide), ?_⟩
  obtain ⟨q, h1, _, h3, _⟩ := h.2.2 (by decide)
  exact ⟨q, h1, h3⟩

/-! ## Claim C3: failure propagation and locality -/

/-- The embedded partial-parse error of a node (`[]` for variants that
carry none). -/
def Obj.embeddedError : Obj → Bs
  | .string _ _ e => e
  | .array _ e => e
  | .dict _ e => e
  | .stream _ _ _ e => e
  | .invalid e => e
  | _ => []

theorem dinsert_mem (k : Bs) (v : Obj) :
    ∀ l, (∀ e ∈ l, e ∈ dinsert k v l) ∧ (k, v) ∈ dinsert k v l := by
  intro l
  induction l with
  | nil => simp [dinsert]
  | cons a rest ih =>
    by_cases hlt : bsLt k a.1 = true
    · constructor
      · intro e he
        simp only [dinsert, hlt, if_true]
        exact List.mem_cons_of_mem _ he
      · simp [dinsert, hlt]
    · constructor
      · intro e he
        simp only [dinsert, hlt, Bool.false_eq_true, if_false]
        rcases List.mem_cons.mp he with rfl | he'
        · exact List.mem_cons_self _ _
        · exact List.mem_cons_of_mem _ (ih.1 e he')
      · simp only [dinsert, hlt, Bool.false_eq_true, if_false]
        exact List.mem_cons_of_mem _ ih.2

theorem ne_nil_append_left {a : Bs} (b : Bs) (h : a ≠ []) : a ++ b ≠ [] := by
  cases a with
  | nil => exact absurd rfl h
  | cons x xs => simp

/-- **C3.**  Failure propagation and locality: a node with a non-empty
embedded error message reports `failed = true`; inside `parseArray`, a
failed element is stored after the previously parsed siblings, which are
preserved unchanged, and exactly that composite is marked failed by its
partial-parse error; inside `parseDict`, a failed value is stored with
its key while the previously inserted entries are preserved, and the
dictionary is marked failed.  A failed composite is itself a failed
element of its enclosing composite, so the marking propagates up the
chain of enclosing composites by the same two rules. -/
theorem C3_failure_locality :
    (∀ o : Obj, o.embeddedError ≠ [] → o.failed = true)
    ∧ (∀ (f : Nat) (ts : TP) (acc : List Obj) (t1 : Bs) (ts0 : TP) (o : Obj) (ts1 : TP),
        ts.peek = (t1, ts0) → t1 ≠ S "]" →
        readObjF f ts0 = some (o, ts1) → o.failed = true →
        parseGo (f + 1) (.arr acc) ts =
          some (.array (acc ++ [o])
              (S "Error reading array element" ++ S " at " ++ formatPosition ts1.lastpos),
            if (ts1.peek).1 = S "]" then (ts1.peek).2.consume else (ts1.peek).2) ∧
          (Obj.array (acc ++ [o])
            (S "Error reading array element" ++ S " at " ++ formatPosition ts1.lastpos)).failed = true)
    ∧ (∀ (f : Nat) (ts : TP) (acc : List (Bs × Obj)) (t1 : Bs) (ts0 : TP) (key : Bs)
        (ts1 : TP) (tv : Bs) (tsv : TP) (o : Obj) (ts2 : TP),
        ts.peek = (t1, ts0) → t1 ≠ S ">>" →
        readObjF f ts0 = some (.name key, ts1) → dhasKey acc key = false →
        ts1.peek = (tv, tsv) → tv ≠ S ">>" →
        readObjF f tsv = some (o, ts2) → o.failed = true →
        parseGo (f + 1) (.dct acc) ts =
          some (.dict (dinsert key o acc)
              (S "Error reading value" ++ S " at " ++ formatPosition ts2.lastpos),
            if (ts2.peek).1 = S ">>" then (ts2.peek).2.consume else (ts2.peek).2) ∧
          (∀ e ∈ acc, e ∈ dinsert key o acc) ∧ (key, o) ∈ dinsert key o acc ∧
          (Obj.dict (dinsert key o acc)
            (S "Error reading value" ++ S " at " ++ formatPosition ts2.lastpos)).failed = true) := by
  refine ⟨?_, ?_, ?_⟩
  · intro o h
    cases o with
    | string v hx e =>
      simp only [Obj.embeddedError] at h
      simp [Obj.failed, List.isEmpty_iff, h]
    | array i e =>
      simp only [Obj.embeddedError] at h
      simp [Obj.failed, List.isEmpty_iff, h]
    | dict d e =>
      simp only [Obj.embeddedError] at h
      simp [Obj.failed, List.isEmpty_iff, h]
    | stream d de dat e =>
      simp only [Obj.embeddedError] at h
      simp [Obj.failed, List.isEmpty_iff, h]
    | invalid e => simp [Obj.failed]
    | null => exact absurd rfl h
    | boolean b => exact absurd rfl h
    | numeric n => exact absurd rfl h
    | name v => exact absurd rfl h
    | indirect n g => exact absurd rfl h
  · intro f ts acc t1 ts0 o ts1 hpeek ht1 hread hfail
    rw [readObjF] at hread
    constructor
    · simp only [parseGo, hpeek]
      rw [if_neg ht1, hread]
      simp only [hfail, if_true, reportPos]
      simp [List.append_assoc]
    · simp [Obj.failed, List.isEmpty_iff]
      intro h1
      exact absurd h1 (by decide)
  · intro f ts acc t1 ts0 key ts1 tv tsv o ts2 hpeek ht1 hkey hnodup hpeekv htv hval hfail
    rw [readObjF] at hkey
    rw [readObjF] at hval
    refine ⟨?_, (dinsert_mem key o acc).1, (dinsert_mem key o acc).2, ?_⟩
    · simp only [parseGo, hpeek]
      rw [if_neg ht1, hkey]
      dsimp only
      rw [show Obj.failed (.name key) = false from rfl]
      simp only [Bool.false_eq_true, if_false]
      rw [if_neg (by simp [hnodup])]
      simp only [hpeekv]
      rw [if_neg htv, hval]
      dsimp only
      rw [hfail]
      simp only [if_true, reportPos]
      simp [List.append_assoc]
    · simp [Obj.failed, List.isEmpty_iff]
      intro h1
      exact absurd h1 (by decide)

/-- Witness for C3: the failed string element `(ab` (unterminated, end
of input) inside an array marks the array and keeps the element. -/
theorem C3_witness :
    parseGo 11 (.arr []) (initTP (S "(ab")) =
      some (.array [.string (S "ab") false (S "End of input while reading string")]
          (S "Error reading array element" ++ S " at " ++ formatPosition 3),
        ⟨⟨S "(ab", 3⟩, [[]], 0⟩) ∧
      (Obj.array [.string (S "ab") false (S "End of input while reading string")]
        (S "Error reading array element" ++ S " at " ++ formatPosition 3)).failed = true := by
  have h := (C3_failure_locality.2.1 10 (initTP (S "(ab")) [] (S "(")
    ⟨⟨S "(ab", 1⟩, [S "("], 1⟩
    (.string (S "ab") false (S "End of input while reading string"))
    ⟨⟨S "(ab", 3⟩, [], 0⟩ rfl (by decide) rfl rfl)
  exact ⟨by rw [h.1]; rfl, h.2⟩

/-! ## Claim C10: lookup conflates absence with explicit null -/

/-- **C10.**  `Dictionary::lookup` on an absent key returns the shared
`Null` object — the very value returned for a key explicitly bound to
null — so an absent entry and an explicit null are indistinguishable to
callers; consequently `parseStream` takes the sentinel-scanning path
when `/Length` is explicitly null, and `DecoderChain` builds the
raw-payload-only complete chain when `/Filter` is explicitly null. -/
theorem C10_lookup_null_conflation :
    (∀ (entries : List (Bs × Obj)) (k : Bs), dhasKey entries k = false →
      dictLookup entries k = Obj.null)
    ∧ (∀ (l1 l2 : List (Bs × Obj)) (k : Bs), dhasKey l1 k = false →
        dictLookup (l1 ++ (k, Obj.null) :: l2) k = Obj.null)
    ∧ (∀ (ts : TP) (dict : List (Bs × Obj)) (de : Bs),
        dictLookup dict (S "Length") = Obj.null →
        parseStream ts dict de =
          streamSentinelPath
            (((ts.read).2.buf).adv (skipToLFLen ((ts.read).2.buf).rem)) dict de)
    ∧ (∀ dict : List (Bs × Obj), dictLookup dict (S "Filter") = Obj.null →
        decoderChain dict = .ok ([], [])) := by
  refine ⟨?_, ?_, ?_, ?_⟩
  · intro entries k h
    induction entries with
    | nil => rfl
    | cons e rest ih =>
      simp only [dhasKey, List.any_cons, Bool.or_eq_false_iff] at h
      simp only [dictLookup]
      rw [if_neg (by simpa using h.1)]
      exact ih (by simp [dhasKey, h.2])
  · intro l1 l2 k h
    induction l1 with
    | nil => simp [dictLookup]
    | cons e rest ih =>
      simp only [dhasKey, List.any_cons, Bool.or_eq_false_iff] at h
      simp only [List.cons_append, dictLookup]
      rw [if_neg (by simpa using h.1)]
      exact ih (by simp [dhasKey, h.2])
  · intro ts dict de hnull
    simp only [parseStream, hnull]
  · intro dict hnull
    simp only [decoderChain, hnull]
    rfl

/-- Witness for C10 at concrete dictionaries with `/Length null` and
`/Filter null`. -/
theorem C10_witness :
    dictLookup [(S "A", Obj.boolean true)] (S "B") = Obj.null ∧
      dictLookup [(S "B", Obj.null)] (S "B") = Obj.null ∧
      parseStream (initTP (S "stream\nAB\nendstream")) [(S "Length", Obj.null)] [] =
        streamSentinelPath
          ((((initTP (S "stream\nAB\nendstream")).read).2.buf).adv
            (skipToLFLen (((initTP (S "stream\nAB\nendstream")).read).2.buf).rem))
          [(S "Length", Obj.null)] [] ∧
      decoderChain [(S "Filter", Obj.null)] = .ok ([], []) := by
  refine ⟨C10_lookup_null_conflation.1 _ _ (by decide), rfl, ?_, ?_⟩
  · exact C10_lookup_null_conflation.2.2.1 _ _ _ rfl
  · exact C10_lookup_null_conflation.2.2.2 _ rfl

/-! ## Claim C2: the /Length-directed stream path -/

theorem streamLenPath_full (b : SBuf) (dict : List (Bs × Obj)) (de : Bs) (L : Nat)
    (h : L ≤ b.rem.length) :
    streamLenPath b dict de L =
      (Obj.stream dict de (b.rem.take L)
          (if ((⟨b.adv L, [], 0⟩ : TP).read).1 = S "endstream" then []
           else S "endstream not found" ++ S " at " ++
             formatPosition (((⟨b.adv L, [], 0⟩ : TP).read).2.lastpos)),
        ((⟨b.adv L, [], 0⟩ : TP).read).2) ∧
      (b.rem.take L).length = L := by
  constructor
  · simp only [streamLenPath]
    rw [if_neg (by omega), Nat.min_eq_left h]
    rw [Nat.sub_self, List.replicate_zero, List.append_nil]
    by_cases hr : ((⟨b.adv L, [], 0⟩ : TP).read).1 = S "endstream"
    · rw [if_pos hr, if_pos hr]
    · rw [if_neg hr, if_neg hr]
      simp [reportPos, List.append_assoc]
  · simp only [List.length_take]
    omega

theorem streamLenPath_short (b : SBuf) (dict : List (Bs × Obj)) (de : Bs) (L : Nat)
    (h : b.rem.length < L) :
    streamLenPath b dict de L =
      (Obj.stream dict de (b.rem.take L ++ List.replicate (L - b.rem.length) '\x00')
        (S "End of input during reading stream data, read " ++
          formatPosition b.rem.length ++ S " bytes"),
       ⟨b.adv b.rem.length, [], 0⟩) := by
  simp only [streamLenPath]
  rw [if_pos h, Nat.min_eq_right (by omega)]

theorem parseStream_len_dispatch (ts : TP) (dict : List (Bs × Obj)) (de : Bs) (n : Numeric)
    (hlk : dictLookup dict (S "Length") = .numeric n) (hu : n.uintegral = true) :
    parseStream ts dict de =
      streamLenPath (((ts.read).2.buf).adv (skipToLFLen ((ts.read).2.buf).rem)) dict de
        n.val_ulong := by
  simp only [parseStream, hlk]
  rw [if_pos hu]

/-- **C2.**  When the stream dictionary's `/Length` entry is a
non-negative integer `L`, `parseStream` takes the length-directed path:
it reads exactly the first `L` bytes after the post-`stream` LF skip as
the raw payload when that many are available, and requires the next
token to be `endstream`, failing that with the partial-parse error
`endstream not found at POS`; when only `N < L` bytes are available it
sets the partial-parse error
`End of input during reading stream data, read N bytes` (the payload
being the zero-filled `resize`d buffer of length `L`). -/
theorem C2_stream_length_directed :
    (∀ (ts : TP) (dict : List (Bs × Obj)) (de : Bs) (n : Numeric),
      dictLookup dict (S "Length") = .numeric n → n.uintegral = true →
      parseStream ts dict de =
        streamLenPath (((ts.read).2.buf).adv (skipToLFLen ((ts.read).2.buf).rem)) dict de
          n.val_ulong)
    ∧ (∀ (b : SBuf) (dict : List (Bs × Obj)) (de : Bs) (L : Nat), L ≤ b.rem.length →
        streamLenPath b dict de L =
          (Obj.stream dict de (b.rem.take L)
              (if ((⟨b.adv L, [], 0⟩ : TP).read).1 = S "endstream" then []
               else S "endstream not found" ++ S " at " ++
                 formatPosition (((⟨b.adv L, [], 0⟩ : TP).read).2.lastpos)),
            ((⟨b.adv L, [], 0⟩ : TP).read).2) ∧
          (b.rem.take L).length = L)
    ∧ (∀ (b : SBuf) (dict : List (Bs × Obj)) (de : Bs) (L : Nat), b.rem.length < L →
        streamLenPath b dict de L =
          (Obj.stream dict de (b.rem.take L ++ List.replicate (L - b.rem.length) '\x00')
            (S "End of input during reading stream data, read " ++
              formatPosition b.rem.length ++ S " bytes"),
           ⟨b.adv b.rem.length, [], 0⟩)) :=
  ⟨parseStream_len_dispatch, streamLenPath_full, streamLenPath_short⟩

/-- Witness for C2: a four-byte length-directed stream with a proper
`endstream`, and a short two-byte read against `/Length 4`. -/
theorem C2_witness :
    parseStream (initTP (S "stream\nABCD\nendstream")) [(S "Length", Obj.numeric ⟨4, 0⟩)] [] =
        streamLenPath ⟨S "stream\nABCD\nendstream", 7⟩ [(S "Length", Obj.numeric ⟨4, 0⟩)] [] 4 ∧
      (streamLenPath ⟨S "AB", 0⟩ [] [] 4).1 =
        Obj.stream [] [] (S "AB" ++ ['\x00', '\x00'])
          (S "End of input during reading stream data, read " ++ formatPosition 2 ++ S " bytes") := by
  constructor
  · have h := C2_stream_length_directed.1 (initTP (S "stream\nABCD\nendstream"))
      [(S "Length", Obj.numeric ⟨4, 0⟩)] [] ⟨4, 0⟩ rfl (by decide)
    rw [h]
    rfl
  · have h := C2_stream_length_directed.2.2 ⟨S "AB", 0⟩ [] [] 4 (by decide)
    rw [h]
    rfl

/-! ## Claim C8: filter-chain shape dispatch -/

/-- **C8, counterexample.**  An explicitly null `/Filter` entry is a
`/Filter` value that is neither absent, a name, nor an array, yet
`DecoderChain` treats it exactly like an absent entry (through
`Object::operator bool`) and builds the complete raw-payload chain
instead of failing with `Invalid /Filter`. -/
theorem C8_counterexample :
    decoderChain [(S "Filter", Obj.null)] = .ok ([], []) ∧
      decoderChain [(S "Filter", Obj.null)] ≠ .error (S "Invalid /Filter") := by
  refine ⟨rfl, ?_⟩
  intro h
  exact Except.noConfusion h

theorem chainFold_all_recognized (names : List Bs) : ∀ acc : List Bs,
    (∀ fl ∈ names, chainRecognized fl = true) →
    chainFold acc (names.map Obj.name) = .ok (acc ++ names, []) := by
  induction names with
  | nil => intro acc _; simp [chainFold]
  | cons fl rest ih =>
    intro acc hall
    simp only [List.map_cons, chainFold, hall fl (List.mem_cons_self fl rest), if_true]
    rw [ih (acc ++ [fl]) (fun g hg => hall g (List.mem_cons_of_mem _ hg))]
    simp

theorem chainFold_stops (fl : Bs) (post : List Bs) (hfl : chainRecognized fl = false) :
    ∀ (pre : List Bs) (acc : List Bs), (∀ g ∈ pre, chainRecognized g = true) →
    chainFold acc ((pre ++ fl :: post).map Obj.name) = .ok (acc ++ pre, fl) := by
  intro pre
  induction pre with
  | nil =>
    intro acc _
    simp [chainFold, hfl]
  | cons g rest ih =>
    intro acc hall
    have hg := hall g (List.mem_cons_self g rest)
    show chainFold acc (Obj.name g :: List.map Obj.name (rest ++ fl :: post)) =
      .ok (acc ++ g :: rest, fl)
    simp only [chainFold, hg, if_true]
    rw [ih (acc ++ [g]) (fun x hx => hall x (List.mem_cons_of_mem _ hx))]
    simp

/-- **C8 (amended).**  Filter-chain shape dispatch: an absent `/Filter`
entry — or any entry that `Object::operator bool` rejects, i.e. an
explicit null or an error placeholder — yields the raw-payload-only
chain with `complete = true`; a `Name` is processed as the singleton
filter list; an `Array` is walked sequentially, appending every
recognized filter and stopping at the first unrecognized name, which is
recorded as the innermost remaining filter; and every other `/Filter`
value (a value passing `operator bool` that is neither a name nor an
array, or a non-name entry reached inside the array walk) fails with
the error `Invalid /Filter`. -/
theorem C8_filter_dispatch :
    (∀ dict : List (Bs × Obj), (dictLookup dict (S "Filter")).toBool = false →
      decoderChain dict = .ok ([], []))
    ∧ (∀ (dict : List (Bs × Obj)) (fl : Bs), dictLookup dict (S "Filter") = .name fl →
        decoderChain dict = chainFold [] [Obj.name fl])
    ∧ (∀ (dict : List (Bs × Obj)) (items : List Obj) (e : Bs),
        dictLookup dict (S "Filter") = .array items e →
        decoderChain dict = chainFold [] items)
    ∧ (∀ (names : List Bs) (acc : List Bs), (∀ fl ∈ names, chainRecognized fl = true) →
        chainFold acc (names.map Obj.name) = .ok (acc ++ names, []))
    ∧ (∀ (pre : List Bs) (fl : Bs) (post : List Bs) (acc : List Bs),
        (∀ g ∈ pre, chainRecognized g = true) → chainRecognized fl = false →
        chainFold acc ((pre ++ fl :: post).map Obj.name) = .ok (acc ++ pre, fl))
    ∧ (∀ (dict : List (Bs × Obj)) (o : Obj), dictLookup dict (S "Filter") = o →
        o.toBool = true → (∀ fl, o ≠ .name fl) → (∀ items e, o ≠ .array items e) →
        decoderChain dict = .error (S "Invalid /Filter")) := by
  refine ⟨?_, ?_, ?_, chainFold_all_recognized, ?_, ?_⟩
  · intro dict h
    simp [decoderChain, h]
  · intro dict fl h
    simp only [decoderChain, h]
    by_cases hrec : chainRecognized fl = true
    · simp [chainFold, hrec, Obj.toBool]
    · simp [chainFold, hrec, Obj.toBool]
  · intro dict items e h
    simp [decoderChain, h, Obj.toBool]
  · intro pre fl post acc hall hfl
    exact chainFold_stops fl post hfl pre acc hall
  · intro dict o hlk hbool hname harr
    cases o with
    | null => simp [Obj.toBool] at hbool
    | invalid e => simp [Obj.toBool] at hbool
    | name fl => exact absurd rfl (hname fl)
    | array items e => exact absurd rfl (harr items e)
    | boolean b => simp [decoderChain, hlk, Obj.toBool]
    | numeric n => simp [decoderChain, hlk, Obj.toBool]
    | string v hx e => simp [decoderChain, hlk, Obj.toBool]
    | dict d e => simp [decoderChain, hlk, Obj.toBool]
    | stream d de dat e => simp [decoderChain, hlk, Obj.toBool]
    | indirect n g => simp [decoderChain, hlk, Obj.toBool]

/-- Witness for C8: a two-filter array stopping at `DCTDecode`, a
recognized single name, and a boolean `/Filter` failing. -/
theorem C8_witness :
    chainFold [] (([S "FlateDecode"] ++ (S "DCTDecode") :: []).map Obj.name) =
        .ok ([] ++ [S "FlateDecode"], S "DCTDecode") ∧
      decoderChain [(S "Filter", Obj.name (S "FlateDecode"))] =
        chainFold [] [Obj.name (S "FlateDecode")] ∧
      decoderChain [(S "Filter", Obj.boolean true)] = .error (S "Invalid /Filter") := by
  refine ⟨?_, ?_, ?_⟩
  · exact C8_filter_dispatch.2.2.2.2.1 [S "FlateDecode"] (S "DCTDecode") [] []
      (by decide) (by decide)
  · exact C8_filter_dispatch.2.1 _ _ rfl
  · exact C8_filter_dispatch.2.2.2.2.2 _ (Obj.boolean true) rfl (by decide)
      (fun fl => by simp) (fun items e => by simp)

/-! ## Claim C4: the object-stream reader -/

/-- **C4 (amended).**  `ObjStream::read`: while the reader is not
failed and objects remain, a successful parse yields
`NamedObject(num_k, 0, parsedObject, "")` with `num_k` the k-th header
number and `gen` always `0`, advancing the index.  On a parse failure
the reader marks itself failed but still returns a `NamedObject`
carrying the failed contents (not an `Invalid`); once failed, every
call returns `Invalid("Read on a failed ObjStream")`.  After all `N`
objects have been returned, the next `read()` returns `Null` and marks
the reader failed, so the calls after that return the `Invalid`, not
`Null`. -/
theorem C4_objstream_read :
    (∀ (s : ObjS) (f : Nat) (o : Obj) (ts' : TP), s.fail = false → s.ix < s.nums.length →
      readObjF f s.ts = some (o, ts') → o.failed = false →
      s.read f = some (.namedObject (s.nums.getD s.ix 0) 0 o [],
        ⟨s.nums, s.ix + 1, false, ts'⟩))
    ∧ (∀ (s : ObjS) (f : Nat) (o : Obj) (ts' : TP), s.fail = false → s.ix < s.nums.length →
      readObjF f s.ts = some (o, ts') → o.failed = true →
      s.read f = some (.namedObject (s.nums.getD s.ix 0) 0 o [],
        ⟨s.nums, s.ix, true, ts'⟩))
    ∧ (∀ (s : ObjS) (f : Nat), s.fail = false → s.ix = s.nums.length →
      s.read f = some (.null, ⟨s.nums, s.ix, true, s.ts⟩))
    ∧ (∀ (s : ObjS) (f : Nat), s.fail = true →
      s.read f = some (.invalid (S "Read on a failed ObjStream"), s)) := by
  refine ⟨?_, ?_, ?_, ?_⟩
  · intro s f o ts' hfail hix hread hok
    simp only [ObjS.read, hfail, Bool.false_eq_true, if_false]
    rw [if_neg (by omega), hread]
    dsimp only
    rw [hok]
    rfl
  · intro s f o ts' hfail hix hread hbad
    simp only [ObjS.read, hfail, Bool.false_eq_true, if_false]
    rw [if_neg (by omega), hread]
    dsimp only
    rw [hbad]
    rfl
  · intro s f hfail hix
    simp only [ObjS.read, hfail, Bool.false_eq_true, if_false]
    rw [if_pos hix]
  · intro s f hfail
    simp only [ObjS.read, hfail, if_true]

/-- **C4, counterexample.**  For the empty object stream
(`/N 0 /First 0`, empty payload) the first extra `read()` returns
`Null` but marks the reader failed, so the second extra `read()`
returns `Invalid("Read on a failed ObjStream")` rather than `Null`;
and for `/N 1` with payload `1 0 )` the parse failure makes `read()`
return a `NamedObject` carrying the failed `Invalid` contents, not an
`Invalid` top-level object. -/
theorem C4_counterexample :
    (mkObjStream [(S "N", Obj.numeric ⟨0, 0⟩), (S "First", Obj.numeric ⟨0, 0⟩)] [] id =
        .ok ⟨[], 0, false, initTP []⟩) ∧
      ObjS.read ⟨[], 0, false, initTP []⟩ 5 = some (.null, ⟨[], 0, true, initTP []⟩) ∧
      ObjS.read ⟨[], 0, true, initTP []⟩ 5 =
        some (.invalid (S "Read on a failed ObjStream"), ⟨[], 0, true, initTP []⟩) ∧
      (mkObjStream [(S "N", Obj.numeric ⟨1, 0⟩), (S "First", Obj.numeric ⟨4, 0⟩)]
          (S "1 0 )") id =
        .ok ⟨[1], 0, false, ⟨⟨S "1 0 )", 3⟩, [], 1⟩⟩) ∧
      ObjS.read ⟨[1], 0, false, ⟨⟨S "1 0 )", 3⟩, [], 1⟩⟩ 10 =
        some (.namedObject 1 0 (Obj.invalid (S "Garbage or unexpected token at 4")) [],
          ⟨[1], 0, true, ⟨⟨S "1 0 )", 5⟩, [S ")"], 1⟩⟩) :=
  ⟨rfl, rfl, rfl, rfl, rfl⟩

/-- Witness for C4: the read characterization applied at a concrete
one-object stream state. -/
theorem C4_witness :
    ObjS.read ⟨[7], 0, false, initTP (S "null")⟩ 10 =
      some (.namedObject 7 0 Obj.null [], ⟨[7], 1, false, ⟨⟨S "null", 4⟩, [], 4⟩⟩) := by
  have h := C4_objstream_read.1 ⟨[7], 0, false, initTP (S "null")⟩ 10 Obj.null
    ⟨⟨S "null", 4⟩, [], 4⟩ rfl (by decide) rfl rfl
  exact h

/-! ## Claim C1: round-trip.  Tokenizer characterization -/

/-- The tokenizer step at an absolute position (exactly
`SBuf.underflow` on `⟨data, p⟩`). -/
def tokAt (data : Bs) (p : Nat) : Bs × Nat × Nat :=
  ufGo ((data.drop p).length + 1) data p

theorem underflow_tokAt (data : Bs) (p : Nat) :
    SBuf.underflow ⟨data, p⟩ =
      ((tokAt data p).1, ⟨data, (tokAt data p).2.1⟩, (tokAt data p).2.2) := rfl

/-- `rest` starts with a non-regular byte (or is empty): a token ending
right before `rest` is not extended into it. -/
def RestSep (rest : Bs) : Prop := ∀ c, rest.head? = some c → charType c ≠ .regular

theorem countWs_of (ws l : Bs) (hws : ∀ c ∈ ws, charType c = .ws)
    (hl : ∀ c, l.head? = some c → charType c ≠ .ws) :
    countWs (ws ++ l) = ws.length := by
  induction ws with
  | nil =>
    cases l with
    | nil => rfl
    | cons c r =>
      simp only [List.nil_append, countWs]
      rw [if_neg (hl c rfl)]
      rfl
  | cons a t ih =>
    have h1 : (a :: t) ++ l = a :: (t ++ l) := rfl
    rw [h1]
    simp only [countWs]
    rw [if_pos (hws a (List.mem_cons_self a t)), ih (fun c hc => hws c (List.mem_cons_of_mem _ hc))]
    rfl

theorem regRun_of (t l : Bs) (ht : ∀ c ∈ t, charType c = .regular)
    (hl : ∀ c, l.head? = some c → charType c ≠ .regular) :
    regRun (t ++ l) = t := by
  induction t with
  | nil =>
    cases l with
    | nil => rfl
    | cons c r =>
      simp only [List.nil_append, regRun]
      rw [if_neg (hl c rfl)]
  | cons a t ih =>
    have h1 : (a :: t) ++ l = a :: (t ++ l) := rfl
    rw [h1]
    simp only [regRun]
    rw [if_pos (ht a (List.mem_cons_self a t)), ih (fun c hc => ht c (List.mem_cons_of_mem _ hc))]

theorem drop_of (xs ys : Bs) {data : Bs} {q : Nat} (h : data.drop q = xs ++ ys) :
    data.drop (q + xs.length) = ys := by
  have h2 := List.drop_drop xs.length q data
  rw [h, List.drop_left] at h2
  exact h2.symm

theorem regular_ne_ws {c : B} (h : charType c = .regular) : charType c ≠ .ws := by
  rw [h]; intro h2; exact CharType.noConfusion h2

theorem regular_ne_pct {c : B} (h : charType c = .regular) : c ≠ '%' := by
  intro h2
  rw [h2] at h
  exact absurd h (by decide)

/-- Tokenizing at a whitespace-prefixed regular run bounded by a
non-regular byte. -/
theorem tokAt_reg {data : Bs} {p : Nat} {ws t rest : Bs}
    (hd : data.drop p = ws ++ t ++ rest)
    (hws : ∀ c ∈ ws, charType c = .ws)
    (ht : ∀ c ∈ t, charType c = .regular) (htne : t ≠ [])
    (hrest : RestSep rest) :
    tokAt data p = (t, p + ws.length + t.length, t.length) := by
  obtain ⟨c, t', rfl⟩ : ∃ c t', t = c :: t' := by
    cases t with
    | nil => exact absurd rfl htne
    | cons c t' => exact ⟨c, t', rfl⟩
  have hc := ht c (List.mem_cons_self c t')
  have hcw : countWs (data.drop p) = ws.length := by
    rw [hd, List.append_assoc]
    exact countWs_of ws _ hws (fun x hx => by
      simp only [List.cons_append, List.head?_cons, Option.some_inj] at hx
      rw [← hx]
      exact regular_ne_ws hc)
  have hd2 : data.drop (p + ws.length) = c :: (t' ++ rest) := by
    have := drop_of ws ((c :: t') ++ rest) (by rw [hd, List.append_assoc])
    simpa using this
  have hrun : regRun (t' ++ rest) = t' :=
    regRun_of t' rest (fun x hx => ht x (List.mem_cons_of_mem _ hx)) hrest
  obtain ⟨f, hf⟩ : ∃ f, (data.drop p).length + 1 = f + 1 := ⟨_, rfl⟩
  rw [tokAt, hf]
  simp only [ufGo, hcw, hd2]
  rw [if_neg (regular_ne_pct hc)]
  simp only [hc]
  rw [hrun]

/-- Tokenizing at a single-character delimiter token (every delimiter
except a doubled `<` or `>`). -/
theorem tokAt_delim1 {data : Bs} {p : Nat} {ws rest : Bs} {d : B}
    (hd : data.drop p = ws ++ d :: rest)
    (hws : ∀ c ∈ ws, charType c = .ws)
    (hdel : charType d = .delim) (hpct : d ≠ '%')
    (hlt : d = '<' ∨ d = '>' → rest.head? ≠ some d) :
    tokAt data p = ([d], p + ws.length + 1, 1) := by
  have hcw : countWs (data.drop p) = ws.length := by
    rw [hd]
    exact countWs_of ws _ hws (fun x hx => by
      simp only [List.head?_cons, Option.some_inj] at hx
      rw [← hx, hdel]
      intro h2
      exact CharType.noConfusion h2)
  have hd2 : data.drop (p + ws.length) = d :: rest := drop_of ws (d :: rest) hd
  obtain ⟨f, hf⟩ : ∃ f, (data.drop p).length + 1 = f + 1 := ⟨_, rfl⟩
  rw [tokAt, hf]
  simp only [ufGo, hcw, hd2]
  rw [if_neg hpct]
  simp only [hdel]
  by_cases hq : d = '<' ∨ d = '>'
  · rw [if_pos hq, if_neg (by simpa using hlt hq)]
  · rw [if_neg hq]

/-- Tokenizing `<<` or `>>`. -/
theorem tokAt_delim2 {data : Bs} {p : Nat} {ws rest : Bs} {d : B}
    (hd : data.drop p = ws ++ d :: d :: rest)
    (hws : ∀ c ∈ ws, charType c = .ws)
    (hdel : charType d = .delim) (hpct : d ≠ '%')
    (hlt : d = '<' ∨ d = '>') :
    tokAt data p = ([d, d], p + ws.length + 2, 2) := by
  have hcw : countWs (data.drop p) = ws.length := by
    rw [hd]
    exact countWs_of ws _ hws (fun x hx => by
      simp only [List.head?_cons, Option.some_inj] at hx
      rw [← hx, hdel]
      intro h2
      exact CharType.noConfusion h2)
  have hd2 : data.drop (p + ws.length) = d :: d :: rest := drop_of ws (d :: d :: rest) hd
  obtain ⟨f, hf⟩ : ∃ f, (data.drop p).length + 1 = f + 1 := ⟨_, rfl⟩
  rw [tokAt, hf]
  simp only [ufGo, hcw, hd2]
  rw [if_neg hpct]
  simp only [hdel]
  rw [if_pos hlt, if_pos (by simp)]

/-- Tokenizing at end of input (possibly after trailing whitespace)
yields the empty token. -/
theorem tokAt_eoi {data : Bs} {p : Nat} {ws : Bs}
    (hd : data.drop p = ws) (hws : ∀ c ∈ ws, charType c = .ws) :
    tokAt data p = ([], p + ws.length, 0) := by
  have hcw : countWs (data.drop p) = ws.length := by
    rw [hd]
    have := countWs_of ws [] hws (fun c hc => by simp at hc)
    simpa using this
  have hd2 : data.drop (p + ws.length) = [] := drop_of ws [] (by rw [hd, List.append_nil])
  obtain ⟨f, hf⟩ : ∃ f, (data.drop p).length + 1 = f + 1 := ⟨_, rfl⟩
  rw [tokAt, hf]
  simp only [ufGo, hcw, hd2]

/-! ## The token-source abstraction

A `TokenParser` state reachable during parsing is, observably, a plain
cursor position: its pushback stack holds only tokens that were
tokenized from that very position (one, or two where the first is an
unsigned integral — the `num gen R` speculation of `parseNumberIndir`,
the only producer of a two-deep stack). -/

inductive NA1 (data : Bs) : TP → Nat → Prop where
  | base (q ll : Nat) : NA1 data ⟨⟨data, q⟩, [], ll⟩ q
  | push1 (q : Nat) (t : Bs) (q' ll' ll : Nat) (h : tokAt data q = (t, q', ll')) :
      NA1 data ⟨⟨data, q'⟩, [t], ll⟩ q

inductive NA (data : Bs) : TP → Nat → Prop where
  | of1 {ts : TP} {q : Nat} (h : NA1 data ts q) : NA data ts q
  | push2 (q : Nat) (t : Bs) (q' ll' : Nat) (u : Bs) (q'' ll'' ll : Nat)
      (h : tokAt data q = (t, q', ll')) (h2 : tokAt data q' = (u, q'', ll''))
      (hu : (Numeric.fromTok t).uintegral = true) :
      NA data ⟨⟨data, q''⟩, [t, u], ll⟩ q

theorem read_base (data : Bs) (q ll : Nat) :
    TP.read ⟨⟨data, q⟩, [], ll⟩ =
      ((tokAt data q).1, ⟨⟨data, (tokAt data q).2.1⟩, [], (tokAt data q).2.2⟩) := rfl

theorem na1_read {data : Bs} {ts : TP} {q : Nat} {t : Bs} {q' ll' : Nat}
    (h : NA1 data ts q) (htok : tokAt data q = (t, q', ll')) :
    ∃ ll2, ts.read = (t, ⟨⟨data, q'⟩, [], ll2⟩) := by
  cases h with
  | base q ll =>
    refine ⟨ll', ?_⟩
    rw [read_base, htok]
  | push1 q t0 q0 ll0 ll h0 =>
    rw [htok] at h0
    obtain ⟨rfl, rfl, rfl⟩ : t = t0 ∧ q' = q0 ∧ ll' = ll0 := by
      refine ⟨?_, ?_, ?_⟩ <;> simp_all
    exact ⟨ll, rfl⟩

theorem na_peek {data : Bs} {ts : TP} {q : Nat} {t : Bs} {q' ll' : Nat}
    (h : NA data ts q) (htok : tokAt data q = (t, q', ll')) :
    ts.peek.1 = t ∧ NA data ts.peek.2 q := by
  cases h with
  | of1 h1 =>
    cases h1 with
    | base q ll =>
      constructor
      · show (SBuf.underflow ⟨data, q⟩).1 = t
        rw [underflow_tokAt, htok]
      · show NA data ⟨(SBuf.underflow ⟨data, q⟩).2.1, [(SBuf.underflow ⟨data, q⟩).1],
          (SBuf.underflow ⟨data, q⟩).2.2⟩ q
        rw [underflow_tokAt, htok]
        exact NA.of1 (NA1.push1 q t q' ll' ll' htok)
    | push1 q t0 q0 ll0 ll h0 =>
      rw [htok] at h0
      obtain ⟨rfl, rfl, rfl⟩ : t = t0 ∧ q' = q0 ∧ ll' = ll0 := by
        refine ⟨?_, ?_, ?_⟩ <;> simp_all
      exact ⟨rfl, NA.of1 (NA1.push1 q t q' ll' ll htok)⟩
  | push2 q t0 q0 ll0 u q0' ll0' ll h0 h2 hu =>
    rw [htok] at h0
    obtain ⟨rfl, rfl, rfl⟩ : t = t0 ∧ q' = q0 ∧ ll' = ll0 := by
      refine ⟨?_, ?_, ?_⟩ <;> simp_all
    exact ⟨rfl, NA.push2 q t q' ll' u q0' ll0' ll htok h2 hu⟩

theorem na_consume {data : Bs} {ts : TP} {q : Nat} {t : Bs} {q' ll' : Nat}
    (h : NA data ts q) (htok : tokAt data q = (t, q', ll')) :
    NA1 data ts.consume q' := by
  cases h with
  | of1 h1 =>
    cases h1 with
    | base q ll =>
      show NA1 data (TP.read ⟨⟨data, q⟩, [], ll⟩).2 q'
      rw [read_base, htok]
      exact NA1.base q' ll'
    | push1 q t0 q0 ll0 ll h0 =>
      rw [htok] at h0
      obtain ⟨rfl, rfl, rfl⟩ : t = t0 ∧ q' = q0 ∧ ll' = ll0 := by
        refine ⟨?_, ?_, ?_⟩ <;> simp_all
      exact NA1.base q' ll
  | push2 q t0 q0 ll0 u q0' ll0' ll h0 h2 hu =>
    rw [htok] at h0
    obtain ⟨rfl, rfl, rfl⟩ : t = t0 ∧ q' = q0 ∧ ll' = ll0 := by
      refine ⟨?_, ?_, ?_⟩ <;> simp_all
    exact NA1.push1 q' u q0' ll0' ll h2

/-- After a `peek` whose token cannot open a `num gen R` speculation,
the state is (still) at most one token deep — in particular its buffer
matches its position once that token is consumed. -/
theorem na_peek_na1 {data : Bs} {ts : TP} {q : Nat} {t : Bs} {q' ll' : Nat}
    (h : NA data ts q) (htok : tokAt data q = (t, q', ll'))
    (hnu : (Numeric.fromTok t).uintegral = false) :
    ts.peek.1 = t ∧ NA1 data ts.peek.2 q := by
  cases h with
  | of1 h1 =>
    cases h1 with
    | base q ll =>
      constructor
      · show (SBuf.underflow ⟨data, q⟩).1 = t
        rw [underflow_tokAt, htok]
      · show NA1 data ⟨(SBuf.underflow ⟨data, q⟩).2.1, [(SBuf.underflow ⟨data, q⟩).1],
          (SBuf.underflow ⟨data, q⟩).2.2⟩ q
        rw [underflow_tokAt, htok]
        exact NA1.push1 q t q' ll' ll' htok
    | push1 q t0 q0 ll0 ll h0 =>
      rw [htok] at h0
      obtain ⟨rfl, rfl, rfl⟩ : t = t0 ∧ q' = q0 ∧ ll' = ll0 := by
        refine ⟨?_, ?_, ?_⟩ <;> simp_all
      exact ⟨rfl, NA1.push1 q t q' ll' ll htok⟩
  | push2 q t0 q0 ll0 u q0' ll0' ll h0 h2 hu =>
    rw [htok] at h0
    obtain ⟨rfl, rfl, rfl⟩ : t = t0 ∧ q' = q0 ∧ ll' = ll0 := by
      refine ⟨?_, ?_, ?_⟩ <;> simp_all
    rw [hu] at hnu
    exact absurd hnu (by simp)

/-! ## Decimal formatting: correctness of `natDigits` and `numDump` -/

theorem toNat_digitChar {m : Nat} (h : m < 10) : (digitChar m).toNat = 48 + m := by
  rw [digitChar, show '0'.toNat = 48 from rfl]
  exact toNat_ofNatChar (by omega)

theorem isDigitC_digitChar {m : Nat} (h : m < 10) : isDigitC (digitChar m) = true := by
  simp only [isDigitC, Bool.and_eq_true, decide_eq_true_eq, toNat_digitChar h]
  omega

theorem digitVal_digitChar {m : Nat} (h : m < 10) : digitVal (digitChar m) = m := by
  simp only [digitVal, toNat_digitChar h]
  rw [show '0'.toNat = 48 from rfl]
  omega

theorem digitsVal_append_singleton (l : Bs) (c : B) :
    digitsVal (l ++ [c]) = 10 * digitsVal l + digitVal c := by
  simp [digitsVal, List.foldl_append]

theorem natDigitsGo_spec : ∀ (fuel n : Nat), n < fuel →
    (∀ c ∈ natDigitsGo fuel n, isDigitC c = true) ∧ natDigitsGo fuel n ≠ [] ∧
      digitsVal (natDigitsGo fuel n) = n := by
  intro fuel
  induction fuel with
  | zero => intro n h; omega
  | succ f ih =>
    intro n h
    by_cases h10 : n < 10
    · simp only [natDigitsGo, if_pos h10]
      refine ⟨?_, by simp, ?_⟩
      · intro c hc
        rcases List.mem_singleton.mp hc with rfl
        exact isDigitC_digitChar h10
      · show 10 * 0 + digitVal (digitChar n) = n
        rw [digitVal_digitChar h10]
        omega
    · simp only [natDigitsGo, if_neg h10]
      have hrec := ih (n / 10) (by omega)
      refine ⟨?_, by simp, ?_⟩
      · intro c hc
        rcases List.mem_append.mp hc with hc | hc
        · exact hrec.1 c hc
        · rcases List.mem_singleton.mp hc with rfl
          exact isDigitC_digitChar (by omega)
      · rw [digitsVal_append_singleton, hrec.2.2, digitVal_digitChar (by omega)]
        omega

theorem natDigits_spec (n : Nat) :
    (∀ c ∈ natDigits n, isDigitC c = true) ∧ natDigits n ≠ [] ∧
      digitsVal (natDigits n) = n :=
  natDigitsGo_spec (n + 1) n (by omega)

theorem digitsVal_zeros (k : Nat) (ds : Bs) :
    digitsVal (List.replicate k '0' ++ ds) = digitsVal ds := by
  induction k with
  | zero => simp
  | succ m ih =>
    have h1 : List.replicate (m + 1) '0' ++ ds = '0' :: (List.replicate m '0' ++ ds) := by
      simp [List.replicate_succ]
    have h2 : digitsVal ('0' :: (List.replicate m '0' ++ ds)) =
        digitsVal (List.replicate m '0' ++ ds) := rfl
    rw [h1, h2, ih]

theorem zeroPad_digits {w : Nat} {ds : Bs} (h : ∀ c ∈ ds, isDigitC c = true) :
    ∀ c ∈ zeroPad w ds, isDigitC c = true := by
  intro c hc
  rcases List.mem_append.mp hc with hc | hc
  · rcases List.eq_of_mem_replicate hc with rfl
    decide
  · exact h c hc

theorem digitsVal_zeroPad (w : Nat) (ds : Bs) : digitsVal (zeroPad w ds) = digitsVal ds :=
  digitsVal_zeros _ _

theorem zeroPad_length (w : Nat) (ds : Bs) : (zeroPad w ds).length = max w ds.length := by
  simp [zeroPad]
  omega

theorem zeroPad_ne_nil {w : Nat} {ds : Bs} (h : ds ≠ []) : zeroPad w ds ≠ [] := by
  intro he
  exact h (List.append_eq_nil.mp he).2

theorem clampLong_id {v : Int} (h1 : -(2 ^ 31) ≤ v) (h2 : v < 2 ^ 31) : clampLong v = v := by
  rw [clampLong, LONG_MAX, LONG_MIN]
  rw [min_eq_right (by omega), max_eq_right (by omega)]

theorem toInt32_id {v : Int} (h1 : -(2 ^ 31) ≤ v) (h2 : v < 2 ^ 31) : toInt32 v = v := by
  rw [toInt32]
  omega

theorem numChar_regular {c : B} (h : isDigitC c = true ∨ c = '-' ∨ c = '.') :
    charType c = .regular := by
  rcases h with h | rfl | rfl
  · rw [charType_regular_iff, charType_ws_iff, charType_delim_iff]
    simp only [isDigitC, Bool.and_eq_true, decide_eq_true_eq] at h
    constructor <;> omega
  · decide
  · decide

/-- The extra hypothesis of the amended round-trip: the formatted
numeral fits `Numeric::dump`'s 20-byte `snprintf` buffer, so no digits
are truncated. -/
def fitsN (n : Numeric) : Prop :=
  (numFmt n.val_s (n.dp.toNat + (if n.val_s < 0 then 1 else 0) + 1)).length ≤ 19

/-- The numerals emitted by `Numeric::dump`, for a non-failed value in
`int` range whose formatted text fits the 20-byte buffer, reparse to
the very same `Numeric`. -/
theorem numDump_inv (n : Numeric) (hdp : 0 ≤ n.dp) (hlo : -(2 ^ 31) ≤ n.val_s)
    (hhi : n.val_s < 2 ^ 31) (hfit : fitsN n) :
    ∃ s, numDump n = some s ∧ s ≠ [] ∧ (∀ c ∈ s, isDigitC c = true ∨ c = '-' ∨ c = '.') ∧
      Numeric.fromTok s = n := by
  obtain ⟨v, dp⟩ := n
  simp only [fitsN] at hfit
  simp only at hdp hlo hhi hfit
  have hfailed : Numeric.failed ⟨v, dp⟩ = false := by
    simp only [Numeric.failed]
    simp
    omega
  obtain ⟨sg, w', hsg, hsgsign, hsglen, hbase, hlenw, hA⟩ :
      ∃ (sg : Bs) (w' : Nat), (sg = [] ∨ sg = S "-" ∨ sg = S "+") ∧
        (sg = S "-" ↔ v < 0) ∧ sg.length = (if v < 0 then 1 else 0) ∧
        numFmt v (dp.toNat + (if v < 0 then 1 else 0) + 1) = sg ++ zeroPad w' (natDigits v.natAbs) ∧
        dp.toNat + (if v < 0 then 1 else 0) + 1 ≤
          (sg ++ zeroPad w' (natDigits v.natAbs)).length ∧
        dp.toNat + 1 ≤ (zeroPad w' (natDigits v.natAbs)).length := by
    by_cases hv : v < 0
    · refine ⟨S "-", dp.toNat + 1, Or.inr (Or.inl rfl), by simp [hv],
        by rw [if_pos hv]; decide, ?_, ?_, ?_⟩
      · rw [numFmt, if_pos hv]
        simp [hv, S]
      · simp only [List.length_append, zeroPad_length, if_pos hv, S]
        simp
        omega
      · rw [zeroPad_length]
        omega
    · refine ⟨[], dp.toNat + 1, Or.inl rfl,
        Iff.intro (fun h => absurd h (by decide)) (fun h => absurd h hv),
        by simp [hv], ?_, ?_, ?_⟩
      · rw [numFmt, if_neg hv]
        simp [hv]
      · simp only [List.nil_append, zeroPad_length, if_neg hv]
        omega
      · rw [zeroPad_length]
        omega
  have hdsd := (natDigits_spec v.natAbs).1
  have hdsne := (natDigits_spec v.natAbs).2.1
  have halldsd : ∀ c ∈ zeroPad w' (natDigits v.natAbs), isDigitC c = true := zeroPad_digits hdsd
  have halldsne : zeroPad w' (natDigits v.natAbs) ≠ [] := zeroPad_ne_nil hdsne
  have halldsv : digitsVal (zeroPad w' (natDigits v.natAbs)) = v.natAbs := by
    rw [digitsVal_zeroPad]
    exact (natDigits_spec v.natAbs).2.2
  have hvaleq : ∀ dv : Bs, digitsVal dv = v.natAbs →
      toInt32 (clampLong ((if sg = S "-" then -1 else 1) * (digitsVal dv : Int))) = v := by
    intro dv hdv
    rw [hdv]
    by_cases hv : v < 0
    · rw [if_pos (hsgsign.mpr hv)]
      have hm : (-1 : Int) * (v.natAbs : Int) = v := by omega
      rw [hm, clampLong_id hlo hhi, toInt32_id hlo hhi]
    · rw [if_neg (fun h => hv (hsgsign.mp h))]
      have hm : (1 : Int) * (v.natAbs : Int) = v := by omega
      rw [hm, clampLong_id hlo hhi, toInt32_id hlo hhi]
  have hsgchars : ∀ c ∈ sg, isDigitC c = true ∨ c = '-' ∨ c = '.' := by
    rcases hsg with rfl | rfl | rfl
    · simp
    · intro c hc
      rcases List.mem_singleton.mp hc with rfl
      right; left; rfl
    · exfalso
      by_cases hv : v < 0
      · have := hsgsign.mpr hv
        exact absurd this (by decide)
      · have := hsglen
        rw [if_neg hv] at this
        exact absurd this (by decide)
  have hnp : sg = [] ∨ sg = S "-" := by
    rcases hsg with rfl | rfl | rfl
    · exact Or.inl rfl
    · exact Or.inr rfl
    · exfalso
      by_cases hv : v < 0
      · exact absurd (hsgsign.mpr hv) (by decide)
      · rw [if_neg hv] at hsglen
        exact absurd hsglen (by decide)
  have htake19 : (numFmt v (dp.toNat + (if v < 0 then 1 else 0) + 1)).take 19 =
      numFmt v (dp.toNat + (if v < 0 then 1 else 0) + 1) := List.take_of_length_le hfit
  have htake19x : (sg ++ zeroPad w' (natDigits v.natAbs)).take 19 =
      sg ++ zeroPad w' (natDigits v.natAbs) := by
    rw [← hbase]
    exact htake19
  by_cases hdpos : dp > 0
  · -- the decimal point is inserted dp places from the right
    set A := (zeroPad w' (natDigits v.natAbs)).length with hAdef
    have hLlen : (sg ++ zeroPad w' (natDigits v.natAbs)).length = sg.length + A := by
      simp [hAdef]
    have hsplit : sg.length + A - dp.toNat = sg.length + (A - dp.toNat) := by omega
    have htk : (sg ++ zeroPad w' (natDigits v.natAbs)).take (sg.length + (A - dp.toNat)) =
        sg ++ (zeroPad w' (natDigits v.natAbs)).take (A - dp.toNat) := by
      rw [List.take_append_eq_append_take]
      congr 1
      · exact List.take_of_length_le (by omega)
      · congr 1
        omega
    have hdr : (sg ++ zeroPad w' (natDigits v.natAbs)).drop (sg.length + (A - dp.toNat)) =
        (zeroPad w' (natDigits v.natAbs)).drop (A - dp.toNat) := by
      rw [List.drop_append_eq_append_drop]
      rw [List.drop_eq_nil_of_le (by omega), List.nil_append]
      congr 1
      omega
    have hd1 : ∀ c ∈ (zeroPad w' (natDigits v.natAbs)).take (A - dp.toNat), isDigitC c = true :=
      fun c hc => halldsd c (List.take_subset _ _ hc)
    have hd2 : ∀ c ∈ (zeroPad w' (natDigits v.natAbs)).drop (A - dp.toNat), isDigitC c = true :=
      fun c hc => halldsd c (List.drop_subset _ _ hc)
    have hd2len : ((zeroPad w' (natDigits v.natAbs)).drop (A - dp.toNat)).length = dp.toNat := by
      rw [List.length_drop]
      omega
    have hrt := fromTok_clean_dot sg ((zeroPad w' (natDigits v.natAbs)).take (A - dp.toNat))
      ((zeroPad w' (natDigits v.natAbs)).drop (A - dp.toNat)) (Or.imp_right Or.inl hnp) hd1 hd2
      (by rw [List.take_append_drop]; exact halldsne)
    rw [List.take_append_drop] at hrt
    refine ⟨sg ++ (zeroPad w' (natDigits v.natAbs)).take (A - dp.toNat) ++
        '.' :: (zeroPad w' (natDigits v.natAbs)).drop (A - dp.toNat), ?_, ?_, ?_, ?_⟩
    · simp only [numDump, hfailed, Bool.false_eq_true, if_false, hbase, htake19x]
      rw [if_pos (by exact_mod_cast hdpos)]
      rw [if_neg (by omega)]
      rw [hLlen, hsplit, htk, hdr]
      simp [List.append_assoc]
    · simp
    · intro c hc
      simp only [List.append_assoc, List.mem_append, List.mem_cons] at hc
      rcases hc with hc | hc | rfl | hc
      · exact hsgchars c hc
      · exact Or.inl (hd1 c hc)
      · right; right; rfl
      · exact Or.inl (hd2 c hc)
    · rw [hrt, hvaleq _ halldsv, hd2len]
      have : ((dp.toNat : Int)) = dp := Int.toNat_of_nonneg hdp
      rw [this]
  · -- dp = 0: no decimal point
    have hdp0 : dp = 0 := by omega
    subst hdp0
    have hrt := fromTok_clean_nodot sg (zeroPad w' (natDigits v.natAbs))
      (Or.imp_right Or.inl hnp) halldsd halldsne
    refine ⟨sg ++ zeroPad w' (natDigits v.natAbs), ?_, ?_, ?_, ?_⟩
    · simp only [numDump, hfailed, Bool.false_eq_true, if_false, hbase, htake19x]
      rw [if_neg (by simp)]
    · simp [halldsne]
    · intro c hc
      rcases List.mem_append.mp hc with hc | hc
      · exact hsgchars c hc
      · exact Or.inl (halldsd c hc)
    · rw [hrt, hvaleq _ halldsv]

/-! ## String escaping round-trips -/

/-- The values flowing through the C++ code are bytes. -/
def ByteOK (v : Bs) : Prop := ∀ c ∈ v, c.toNat < 256

theorem adv_adv (b : SBuf) (m k : Nat) : (b.adv m).adv k = b.adv (m + k) := by
  simp [SBuf.adv, Nat.add_assoc]

theorem escLit_split (c : B) :
    (32 ≤ c.toNat ∧ c.toNat ≤ 127 ∧ c ≠ '(' ∧ c ≠ ')' ∧ c ≠ '\\' ∧ escLit c = [c]) ∨
      escLit c = '\\' :: oct3 c := by
  by_cases h : 32 ≤ c.toNat ∧ c.toNat ≤ 127 ∧ c ≠ '(' ∧ c ≠ ')' ∧ c ≠ '\\'
  · exact Or.inl ⟨h.1, h.2.1, h.2.2.1, h.2.2.2.1, h.2.2.2.2, by rw [escLit, if_pos h]⟩
  · exact Or.inr (by rw [escLit, if_neg h])

theorem octd_ne {e : B} (h48 : 48 ≤ e.toNat) (h55 : e.toNat ≤ 55) :
    e ≠ 'n' ∧ e ≠ 'r' ∧ e ≠ 't' ∧ e ≠ 'b' ∧ e ≠ 'f' ∧
      ¬(e = '(' ∨ e = ')' ∨ e = '\\') ∧ ¬(e = '\r' ∨ e = '\n') := by
  refine ⟨?_, ?_, ?_, ?_, ?_, ?_, ?_⟩
  · intro he; rw [he] at h55; exact absurd h55 (by decide)
  · intro he; rw [he] at h55; exact absurd h55 (by decide)
  · intro he; rw [he] at h55; exact absurd h55 (by decide)
  · intro he; rw [he] at h55; exact absurd h55 (by decide)
  · intro he; rw [he] at h55; exact absurd h55 (by decide)
  · rintro (he | he | he)
    · rw [he] at h48; exact absurd h48 (by decide)
    · rw [he] at h48; exact absurd h48 (by decide)
    · rw [he] at h55; exact absurd h55 (by decide)
  · rintro (he | he)
    · rw [he] at h48; exact absurd h48 (by decide)
    · rw [he] at h48; exact absurd h48 (by decide)

theorem pslGo_rt : ∀ (v : Bs) (b : SBuf) (acc : Bs) (f : Nat) (tail : Bs),
    ByteOK v → b.rem = (v.map escLit).flatten ++ ')' :: tail →
    (v.map escLit).flatten.length + 1 ≤ f →
    pslGo f 0 b acc = (acc ++ v, [], b.adv ((v.map escLit).flatten.length + 1)) := by
  intro v
  induction v with
  | nil =>
    intro b acc f tail _ hb hf
    simp only [List.map_nil, List.flatten_nil, List.nil_append] at hb ⊢
    obtain ⟨fj, rfl⟩ : ∃ fj, f = fj + 1 := ⟨f - 1, by omega⟩
    simp only [pslGo]
    rw [hb]
    dsimp only
    rw [if_pos rfl, if_neg (by omega)]
    simp
  | cons c v' ih =>
    intro b acc f tail hbok hb hf
    have hc256 : c.toNat < 256 := hbok c (List.mem_cons_self c v')
    have hbok' : ByteOK v' := fun x hx => hbok x (List.mem_cons_of_mem _ hx)
    rcases escLit_split c with ⟨h32, h127, hpa, hpc, hbs, hesc⟩ | hesc
    · -- printable byte, copied verbatim
      have hfl : ((c :: v').map escLit).flatten =
          c :: (v'.map escLit).flatten := by
        simp [hesc]
      rw [hfl] at hb hf ⊢
      rw [List.cons_append] at hb
      obtain ⟨fj, rfl⟩ : ∃ fj, f = fj + 1 := ⟨f - 1, by omega⟩
      simp only [pslGo]
      rw [hb]
      dsimp only
      rw [if_neg hpc, if_neg hpa, if_neg hbs]
      have hrem : (b.adv 1).rem = (v'.map escLit).flatten ++ ')' :: tail := by
        rw [adv_rem, hb]
        rfl
      rw [ih (b.adv 1) (acc ++ [c]) fj tail hbok' hrem (by simp at hf ⊢; omega)]
      rw [adv_adv]
      simp [List.append_assoc, Nat.add_comm]
    · -- escaped byte: backslash plus three octal digits
      have hoct : oct3 c = [digitChar (c.toNat / 64), digitChar ((c.toNat / 8) % 8),
          digitChar (c.toNat % 8)] := by
        rw [oct3]
        simp only [Nat.mod_eq_of_lt hc256]
      have hm1 : c.toNat / 64 < 8 := by omega
      have hm2 : (c.toNat / 8) % 8 < 8 := by omega
      have hm3 : c.toNat % 8 < 8 := by omega
      have ha1 := toNat_digitChar (show c.toNat / 64 < 10 by omega)
      have ha2 := toNat_digitChar (show (c.toNat / 8) % 8 < 10 by omega)
      have ha3 := toNat_digitChar (show c.toNat % 8 < 10 by omega)
      have hfl : ((c :: v').map escLit).flatten =
          '\\' :: digitChar (c.toNat / 64) :: digitChar ((c.toNat / 8) % 8) ::
            digitChar (c.toNat % 8) :: (v'.map escLit).flatten := by
        simp [hesc, hoct]
      rw [hfl] at hb hf ⊢
      simp only [List.cons_append] at hb
      obtain ⟨fj, rfl⟩ : ∃ fj, f = fj + 1 := ⟨f - 1, by omega⟩
      simp only [pslGo]
      rw [hb]
      dsimp only
      rw [if_neg (by decide), if_neg (by decide), if_pos rfl]
      obtain ⟨hn1, hn2, hn3, hn4, hn5, hn6, hn7⟩ :=
        octd_ne (e := digitChar (c.toNat / 64)) (by omega) (by omega)
      rw [if_neg hn1, if_neg hn2, if_neg hn3, if_neg hn4, if_neg hn5, if_neg hn6, if_neg hn7,
        if_pos (by omega), if_pos (by omega), if_pos (by omega)]
      rw [digitVal_digitChar (show c.toNat / 64 < 10 by omega),
        digitVal_digitChar (show (c.toNat / 8) % 8 < 10 by omega),
        digitVal_digitChar (show c.toNat % 8 < 10 by omega)]
      rw [if_neg (by omega)]
      have harg : (c.toNat / 64 * 8 + (c.toNat / 8) % 8) * 8 + c.toNat % 8 = c.toNat := by
        omega
      rw [harg]
      have hchar : Char.ofNat c.toNat = c :=
        charEq_of_toNat (toNat_ofNatChar (by omega))
      rw [hchar]
      have hrem : (b.adv 4).rem = (v'.map escLit).flatten ++ ')' :: tail := by
        rw [adv_rem, hb]
        rfl
      rw [ih (b.adv 4) (acc ++ [c]) fj tail hbok' hrem (by simp at hf ⊢; omega)]
      rw [adv_adv]
      simp only [List.append_assoc, List.cons_append, List.singleton_append]
      refine Prod.ext rfl (Prod.ext rfl ?_)
      show b.adv _ = b.adv _
      congr 1
      simp
      omega

theorem hexd : ∀ m : Nat, m < 16 →
    isXDigit (hexDigitUC m) = true ∧ xVal (hexDigitUC m) = m ∧ hexDigitUC m ≠ '>' := by
  decide

theorem pshGo_rt : ∀ (v : Bs) (b : SBuf) (acc : Bs) (f : Nat) (tail : Bs),
    ByteOK v → b.rem = (v.map (fun c => hex2 c ++ [' '])).flatten ++ '>' :: tail →
    (v.map (fun c => hex2 c ++ [' '])).flatten.length + 1 ≤ f →
    pshGo f 0 false b acc =
      (acc ++ v, [], b.adv ((v.map (fun c => hex2 c ++ [' '])).flatten.length + 1)) := by
  intro v
  induction v with
  | nil =>
    intro b acc f tail _ hb hf
    simp only [List.map_nil, List.flatten_nil, List.nil_append] at hb ⊢
    obtain ⟨fj, rfl⟩ : ∃ fj, f = fj + 1 := ⟨f - 1, by omega⟩
    simp only [pshGo]
    rw [hb]
    dsimp only
    rw [if_pos rfl]
    simp
  | cons c v' ih =>
    intro b acc f tail hbok hb hf
    have hc256 : c.toNat < 256 := hbok c (List.mem_cons_self c v')
    have hbok' : ByteOK v' := fun x hx => hbok x (List.mem_cons_of_mem _ hx)
    have hhex : hex2 c = [hexDigitUC (c.toNat / 16), hexDigitUC (c.toNat % 16)] := by
      rw [hex2]
      simp only [Nat.mod_eq_of_lt hc256]
    have hx1 := hexd (c.toNat / 16) (by omega)
    have hx2 := hexd (c.toNat % 16) (by omega)
    have hfl : ((c :: v').map (fun c => hex2 c ++ [' '])).flatten =
        hexDigitUC (c.toNat / 16) :: hexDigitUC (c.toNat % 16) :: ' ' ::
          (v'.map (fun c => hex2 c ++ [' '])).flatten := by
      simp [hhex]
    rw [hfl] at hb hf ⊢
    simp only [List.cons_append] at hb
    obtain ⟨fj, rfl⟩ : ∃ fj, f = fj + 1 := ⟨f - 1, by omega⟩
    simp only [pshGo]
    rw [hb]
    dsimp only
    rw [if_neg hx1.2.2, hx1.1, if_pos rfl, if_neg (show ¬(false = true) by simp)]
    rw [hx1.2.1, Nat.mod_eq_of_lt (show 0 * 16 + c.toNat / 16 < 256 by omega)]
    have hrem1 : (b.adv 1).rem = hexDigitUC (c.toNat % 16) :: (' ' ::
        ((v'.map (fun c => hex2 c ++ [' '])).flatten ++ '>' :: tail)) := by
      rw [adv_rem, hb]
      rfl
    obtain ⟨fj2, rfl⟩ : ∃ fj2, fj = fj2 + 1 := ⟨fj - 1, by simp at hf; omega⟩
    simp only [pshGo]
    rw [hrem1]
    dsimp only
    rw [if_neg hx2.2.2, hx2.1, if_pos rfl, if_pos (by trivial)]
    rw [hx2.2.1]
    rw [show (0 * 16 + c.toNat / 16) * 16 + c.toNat % 16 = c.toNat from by omega,
      Nat.mod_eq_of_lt (by omega)]
    have hchar : Char.ofNat c.toNat = c :=
      charEq_of_toNat (toNat_ofNatChar (by omega))
    rw [hchar]
    have hrem2 : ((b.adv 1).adv 1).rem = ' ' ::
        ((v'.map (fun c => hex2 c ++ [' '])).flatten ++ '>' :: tail) := by
      rw [adv_rem, hrem1]
      rfl
    obtain ⟨fj3, rfl⟩ : ∃ fj3, fj2 = fj3 + 1 := ⟨fj2 - 1, by simp at hf; omega⟩
    simp only [pshGo]
    rw [hrem2]
    dsimp only
    rw [if_neg (by decide), show isXDigit ' ' = false from rfl,
      if_neg (show ¬(false = true) by simp), if_pos (Or.inl rfl)]
    have hrem3 : (((b.adv 1).adv 1).adv 1).rem =
        (v'.map (fun c => hex2 c ++ [' '])).flatten ++ '>' :: tail := by
      rw [adv_rem, hrem2]
      rfl
    rw [ih (((b.adv 1).adv 1).adv 1) (acc ++ [c]) fj3 tail hbok' hrem3
      (by simp at hf ⊢; omega)]
    rw [adv_adv, adv_adv, adv_adv]
    simp only [List.append_assoc, List.cons_append, List.singleton_append]
    refine Prod.ext rfl (Prod.ext rfl ?_)
    show b.adv _ = b.adv _
    congr 1
    simp
    omega

/-- A single `pshGo` step over a space byte just advances the buffer. -/
theorem pshGo_space (f d : Nat) (odd : Bool) (b : SBuf) (acc tl : Bs)
    (h : b.rem = ' ' :: tl) :
    pshGo (f + 1) d odd b acc = pshGo f d odd (b.adv 1) acc := by
  simp only [pshGo]
  rw [h]
  dsimp only
  rw [if_neg (by decide), show isXDigit ' ' = false from rfl,
    if_neg (show ¬(false = true) by simp), if_pos (Or.inl rfl)]

/-! ## The well-formed (parser-producible, dump-fitting) objects -/

/-- A nonempty token of regular bytes (the shape of every `Name` the
parser can produce). -/
def RegStr (v : Bs) : Prop := v ≠ [] ∧ ∀ c ∈ v, charType c = .regular

/-- Objects the parser can produce with `failed() = false`, further
restricted (in the `Numeric` case) to values whose formatted numeral
fits `Numeric::dump`'s 20-byte buffer. -/
inductive Wf : Obj → Prop where
  | null : Wf .null
  | boolean (b : Bool) : Wf (.boolean b)
  | numeric (n : Numeric) (hdp : 0 ≤ n.dp) (hlo : -(2 ^ 31) ≤ n.val_s)
      (hhi : n.val_s < 2 ^ 31) (hfit : fitsN n) : Wf (.numeric n)
  | string (v : Bs) (hx : Bool) (hv : ByteOK v) : Wf (.string v hx [])
  | name (v : Bs) (hv : RegStr v) : Wf (.name v)
  | array (items : List Obj) (h : ∀ o ∈ items, Wf o) : Wf (.array items [])
  | dict (entries : List (Bs × Obj)) (hk : ∀ e ∈ entries, RegStr e.1)
      (hv : ∀ e ∈ entries, Wf e.2)
      (hsort : List.Pairwise (fun a b => bsLt a.1 b.1 = true) entries) : Wf (.dict entries [])
  | indirect (num gen : Nat) (hn : num < 2 ^ 31) (hg : gen < 2 ^ 31) : Wf (.indirect num gen)

theorem wf_failed {o : Obj} (h : Wf o) : o.failed = false := by
  cases h with
  | null => rfl
  | boolean b => rfl
  | numeric n hdp hlo hhi hfit =>
    show n.failed = false
    simp [Numeric.failed]
    omega
  | string v hx hv => rfl
  | name v hv => rfl
  | array items h => rfl
  | dict entries hk hv hsort => rfl
  | indirect num gen hn hg => rfl

/-- A position whose next two tokens are not a `t2 R` pair with `t2` an
unsigned integer: the `parseNumberIndir` lookahead starting right before
this position rejects. -/
def TailSafe (data : Bs) (p : Nat) : Prop :=
  (Numeric.fromTok (tokAt data p).1).uintegral = true →
    (tokAt data ((tokAt data p).2.1)).1 ≠ S "R"

/-- The round-trip property of one object (the motive of the main
induction). -/
def RTstmt (o : Obj) : Prop :=
  ∀ fd off out, dumpGo fd (.obj o) off = some out →
  ∀ (data : Bs) (q : Nat) (pre rest : Bs) (ts : TP) (f : Nat),
    data.drop q = pre ++ (out ++ rest) →
    (∀ c ∈ pre, charType c = .ws) → RestSep rest →
    TailSafe data (q + pre.length + out.length) →
    NA data ts q → 2 * (data.length - q) + 1 ≤ f →
    ∃ ts', parseGo f .obj ts = some (o, ts') ∧ NA data ts' (q + pre.length + out.length)

/-! ### Ordered-dictionary facts -/

theorem bsLt_irrefl : ∀ s : Bs, bsLt s s = false := by
  intro s
  induction s with
  | nil => rfl
  | cons a t ih =>
    simp only [bsLt]
    rw [if_neg (by omega), if_neg (by omega)]
    exact ih

theorem bsLt_asymm : ∀ s u : Bs, bsLt s u = true → bsLt u s = false := by
  intro s
  induction s with
  | nil =>
    intro u h
    cases u with
    | nil => simpa [bsLt] using h
    | cons b us => rfl
  | cons a t ih =>
    intro u h
    cases u with
    | nil => simp [bsLt] at h
    | cons b us =>
      simp only [bsLt] at h ⊢
      by_cases h1 : a.toNat < b.toNat
      · rw [if_neg (by omega), if_pos h1]
      · by_cases h2 : b.toNat < a.toNat
        · rw [if_neg h1, if_pos h2] at h
          exact absurd h (by simp)
        · rw [if_neg h1, if_neg h2] at h
          rw [if_neg h2, if_neg h1]
          exact ih us h

theorem dinsert_append (k : Bs) (v : Obj) : ∀ acc : List (Bs × Obj),
    (∀ e ∈ acc, bsLt e.1 k = true) → dinsert k v acc = acc ++ [(k, v)] := by
  intro acc
  induction acc with
  | nil => intro _; rfl
  | cons e rest ih =>
    intro h
    simp only [dinsert]
    rw [if_neg (by
      rw [bsLt_asymm e.1 k (h e (List.mem_cons_self e rest))]
      simp)]
    rw [ih (fun x hx => h x (List.mem_cons_of_mem _ hx))]
    rfl

theorem dhasKey_false (k : Bs) (acc : List (Bs × Obj))
    (h : ∀ e ∈ acc, bsLt e.1 k = true) : dhasKey acc k = false := by
  rw [dhasKey, List.any_eq_false]
  intro e he
  have hlt := h e he
  have hne : e.1 ≠ k := by
    intro hk
    rw [hk] at hlt
    rw [bsLt_irrefl] at hlt
    exact absurd hlt (by simp)
  simpa using hne

/-! ### Small helpers for the dumped text -/

theorem pOff_spaces_ws (off : Nat) : ∀ c ∈ List.replicate (2 * off) ' ', charType c = .ws := by
  intro c hc
  rcases List.eq_of_mem_replicate hc with rfl
  decide

theorem ne_of_bad_char {s w : Bs} (P : B → Prop) (hs : ∀ x ∈ s, P x) {c : B} (hcw : c ∈ w)
    (hc : ¬ P c) : s ≠ w := fun he => hc (hs c (he ▸ hcw))

theorem preWs_append {pre : Bs} {off : Nat} (hpre : ∀ c ∈ pre, charType c = .ws) :
    ∀ c ∈ pre ++ List.replicate (2 * off) ' ', charType c = .ws := by
  intro c hc
  rcases List.mem_append.mp hc with hc | hc
  · exact hpre c hc
  · exact pOff_spaces_ws off c hc

/-! ### Parsing a dumped name -/

theorem nameParse {data : Bs} {q : Nat} {pre v rest : Bs} {ts : TP} {f : Nat}
    (hd : data.drop q = pre ++ ('/' :: v) ++ rest)
    (hpre : ∀ c ∈ pre, charType c = .ws)
    (hv : ∀ c ∈ v, charType c = .regular) (hvne : v ≠ [])
    (hrest : RestSep rest)
    (hts : NA data ts q) (hf : 1 ≤ f) :
    parseGo f .obj ts =
      some (.name v, ⟨⟨data, q + pre.length + 1 + v.length⟩, [], v.length⟩) := by
  have htok : tokAt data q = (S "/", q + pre.length + 1, 1) := by
    have hd2 : data.drop q = pre ++ '/' :: (v ++ rest) := by
      rw [hd]
      simp [List.append_assoc]
    exact tokAt_delim1 hd2 hpre (by decide) (by decide)
      (fun hlt => absurd hlt (by decide))
  obtain ⟨hpeek1, hpk⟩ := na_peek_na1 hts htok (by decide)
  obtain ⟨fj, rfl⟩ : ∃ fj, f = fj + 1 := ⟨f - 1, by omega⟩
  simp only [parseGo, hpeek1, reduceIte]
  rw [if_neg (show ¬(S "/" = []) by decide)]
  obtain ⟨ll0, hread1⟩ := na1_read hpk htok
  have htok2 : tokAt data (q + pre.length + 1) = (v, q + pre.length + 1 + v.length, v.length) := by
    have hd3 : data.drop (q + pre.length + 1) = [] ++ v ++ rest := by
      have := drop_of (pre ++ ['/']) (v ++ rest)
        (by rw [hd]; simp [List.append_assoc])
      simp only [List.length_append, List.length_singleton] at this
      rw [← Nat.add_assoc] at this
      simpa using this
    have := tokAt_reg hd3 (by simp) hv hvne hrest
    simpa using this
  simp only [parseName, hread1]
  rw [read_base, htok2]
  obtain ⟨c, v', rfl⟩ : ∃ c v', v = c :: v' := by
    cases v with
    | nil => exact absurd rfl hvne
    | cons c v' => exact ⟨c, v', rfl⟩
  dsimp only [List.head?]
  rw [if_pos (hv c (List.mem_cons_self c v'))]

theorem pOff_length (off : Nat) (x : Bs) : (pOff off x).length = 2 * off + x.length := by
  simp [pOff]

/-- The first token of a dumped object: never `R`, `]` or `>>`, and if
it is an unsigned integer then either it spans the whole dump (a
`Numeric`) or the following token is a number, not `R` (an
`Indirect`). -/
theorem headTok {o : Obj} (h : Wf o) : ∀ {fd off : Nat} {out : Bs},
    dumpGo fd (.obj o) off = some out →
    ∀ {data : Bs} {q : Nat} {pre rest : Bs},
    data.drop q = pre ++ (out ++ rest) → (∀ c ∈ pre, charType c = .ws) → RestSep rest →
    ∃ t r, tokAt data q = (t, r) ∧ t ≠ S "R" ∧ t ≠ S "]" ∧ t ≠ S ">>" ∧
      ((Numeric.fromTok t).uintegral = true →
        r.1 = q + pre.length + out.length ∨ (tokAt data r.1).1 ≠ S "R") := by
  cases h with
  | null =>
    intro fd off out hdump data q pre rest hd hpre hrest
    cases fd with
    | zero => exact absurd hdump (by simp [dumpGo])
    | succ fd' =>
      simp only [dumpGo, Option.some_inj] at hdump
      subst hdump
      have hd2 : data.drop q = (pre ++ List.replicate (2 * off) ' ') ++ S "null" ++ rest := by
        rw [hd]
        simp [pOff, List.append_assoc]
      exact ⟨S "null", _, tokAt_reg hd2 (preWs_append hpre) (by decide) (by decide) hrest,
        by decide, by decide, by decide, fun hu => absurd hu (by decide)⟩
  | boolean b =>
    intro fd off out hdump data q pre rest hd hpre hrest
    cases fd with
    | zero => exact absurd hdump (by simp [dumpGo])
    | succ fd' =>
      cases b with
      | true =>
        simp only [dumpGo, if_pos rfl, if_true, Option.some_inj] at hdump
        subst hdump
        have hd2 : data.drop q = (pre ++ List.replicate (2 * off) ' ') ++ S "true" ++ rest := by
          rw [hd]
          simp [pOff, List.append_assoc]
        exact ⟨S "true", _, tokAt_reg hd2 (preWs_append hpre) (by decide) (by decide) hrest,
          by decide, by decide, by decide, fun hu => absurd hu (by decide)⟩
      | false =>
        simp only [dumpGo, Bool.false_eq_true, if_false, if_true, Option.some_inj] at hdump
        subst hdump
        have hd2 : data.drop q = (pre ++ List.replicate (2 * off) ' ') ++ S "false" ++ rest := by
          rw [hd]
          simp [pOff, List.append_assoc]
        exact ⟨S "false", _, tokAt_reg hd2 (preWs_append hpre) (by decide) (by decide) hrest,
          by decide, by decide, by decide, fun hu => absurd hu (by decide)⟩
  | numeric n hdp hlo hhi hfit =>
    intro fd off out hdump data q pre rest hd hpre hrest
    cases fd with
    | zero => exact absurd hdump (by simp [dumpGo])
    | succ fd' =>
      obtain ⟨s, hnd, hsne, hschars, hsrt⟩ := numDump_inv n hdp hlo hhi hfit
      simp only [dumpGo, hnd, Option.map_some', Option.some_inj] at hdump
      subst hdump
      have hd2 : data.drop q = (pre ++ List.replicate (2 * off) ' ') ++ s ++ rest := by
        rw [hd]
        simp [pOff, List.append_assoc]
      refine ⟨s, _, tokAt_reg hd2 (preWs_append hpre)
          (fun c hc => numChar_regular (hschars c hc)) hsne hrest,
        ne_of_bad_char _ hschars (show 'R' ∈ S "R" by decide) (by decide),
        ne_of_bad_char _ hschars (show ']' ∈ S "]" by decide) (by decide),
        ne_of_bad_char _ hschars (show '>' ∈ S ">>" by decide) (by decide),
        fun _ => Or.inl ?_⟩
      simp only [List.length_append, List.length_replicate, pOff_length]
      omega
  | string v hx hv =>
    intro fd off out hdump data q pre rest hd hpre hrest
    cases fd with
    | zero => exact absurd hdump (by simp [dumpGo])
    | succ fd' =>
      cases hx with
      | true =>
        simp only [dumpGo, dumpErrTail, if_pos rfl, if_true, List.append_nil,
          Option.some_inj] at hdump
        subst hdump
        have hd2 : data.drop q = (pre ++ List.replicate (2 * off) ' ') ++ '<' ::
            (' ' :: ((v.map (fun c => hex2 c ++ [' '])).flatten ++ '>' :: rest)) := by
          rw [hd]
          simp [pOff, List.append_assoc, show S "< " = ['<', ' '] from rfl]
        refine ⟨S "<", _, tokAt_delim1 hd2 (preWs_append hpre) (by decide) (by decide)
            (fun _ => by
              rw [List.head?_cons]
              intro hh
              rw [Option.some_inj] at hh
              exact absurd hh (by decide)),
          by decide, by decide, by decide, fun hu => absurd hu (by decide)⟩
      | false =>
        simp only [dumpGo, dumpErrTail, Bool.false_eq_true, if_false, if_pos rfl, if_true,
          List.append_nil, Option.some_inj] at hdump
        subst hdump
        have hd2 : data.drop q = (pre ++ List.replicate (2 * off) ' ') ++ '(' ::
            ((v.map escLit).flatten ++ ')' :: rest) := by
          rw [hd]
          simp [pOff, List.append_assoc, show S "(" = ['('] from rfl]
        refine ⟨S "(", _, tokAt_delim1 hd2 (preWs_append hpre) (by decide) (by decide)
            (fun hlt => absurd hlt (by decide)),
          by decide, by decide, by decide, fun hu => absurd hu (by decide)⟩
  | name v hv =>
    intro fd off out hdump data q pre rest hd hpre hrest
    cases fd with
    | zero => exact absurd hdump (by simp [dumpGo])
    | succ fd' =>
      simp only [dumpGo, Option.some_inj] at hdump
      subst hdump
      have hd2 : data.drop q = (pre ++ List.replicate (2 * off) ' ') ++ '/' ::
          (v ++ rest) := by
        rw [hd]
        simp [pOff, List.append_assoc, show S "/" = ['/'] from rfl]
      refine ⟨S "/", _, tokAt_delim1 hd2 (preWs_append hpre) (by decide) (by decide)
          (fun hlt => absurd hlt (by decide)),
        by decide, by decide, by decide, fun hu => absurd hu (by decide)⟩
  | array items hitems =>
    intro fd off out hdump data q pre rest hd hpre hrest
    cases fd with
    | zero => exact absurd hdump (by simp [dumpGo])
    | succ fd' =>
      simp only [dumpGo] at hdump
      cases hbody : dumpGo fd' (DMode.items items) (off + 1) with
      | none =>
        rw [hbody] at hdump
        exact absurd hdump (by simp)
      | some body =>
        rw [hbody] at hdump
        simp only [if_pos rfl, List.append_nil, Option.some_inj, reduceIte] at hdump
        subst hdump
        have hd2 : data.drop q = (pre ++ List.replicate (2 * off) ' ') ++ '[' ::
            ('\n' :: (body ++ (pOff off (S "]") ++ rest))) := by
          rw [hd]
          simp [pOff, List.append_assoc, show S "[" ++ ['\n'] = ['[', '\n'] from rfl,
            show S "]" = [']'] from rfl]
        refine ⟨S "[", _, tokAt_delim1 hd2 (preWs_append hpre) (by decide) (by decide)
            (fun hlt => absurd hlt (by decide)),
          by decide, by decide, by decide, fun hu => absurd hu (by decide)⟩
  | dict entries hk hvs hsort =>
    intro fd off out hdump data q pre rest hd hpre hrest
    cases fd with
    | zero => exact absurd hdump (by simp [dumpGo])
    | succ fd' =>
      simp only [dumpGo] at hdump
      cases hbody : dumpGo fd' (DMode.entries entries) (off + 1) with
      | none =>
        rw [hbody] at hdump
        exact absurd hdump (by simp)
      | some body =>
        rw [hbody] at hdump
        simp only [if_pos rfl, List.append_nil, Option.some_inj, reduceIte] at hdump
        subst hdump
        have hd2 : data.drop q = (pre ++ List.replicate (2 * off) ' ') ++ '<' :: '<' ::
            ('\n' :: (body ++ (pOff off (S ">>") ++ rest))) := by
          rw [hd]
          simp [pOff, List.append_assoc, show S "<<" ++ ['\n'] = ['<', '<', '\n'] from rfl,
            show S ">>" = ['>', '>'] from rfl]
        refine ⟨S "<<", _, tokAt_delim2 hd2 (preWs_append hpre) (by decide) (by decide)
            (Or.inl rfl),
          by decide, by decide, by decide, fun hu => absurd hu (by decide)⟩
  | indirect num gen hn hg =>
    intro fd off out hdump data q pre rest hd hpre hrest
    cases fd with
    | zero => exact absurd hdump (by simp [dumpGo])
    | succ fd' =>
      simp only [dumpGo, Option.some_inj] at hdump
      subst hdump
      have hdnum := (natDigits_spec num).1
      have hdnumne := (natDigits_spec num).2.1
      have hdgen := (natDigits_spec gen).1
      have hdgenne := (natDigits_spec gen).2.1
      have hd2 : data.drop q = (pre ++ List.replicate (2 * off) ' ') ++ natDigits num ++
          (' ' :: (natDigits gen ++ ' ' :: 'R' :: rest)) := by
        rw [hd]
        simp [pOff, List.append_assoc, show S " R" = [' ', 'R'] from rfl]
      have htok := tokAt_reg hd2 (preWs_append hpre)
        (fun c hc => numChar_regular (Or.inl (hdnum c hc))) hdnumne
        (fun c hc => by
          rw [List.head?_cons, Option.some_inj] at hc
          rw [← hc]
          decide)
      refine ⟨natDigits num, _, htok,
        ne_of_bad_char (fun c => isDigitC c = true) hdnum (show 'R' ∈ S "R" by decide)
          (by decide),
        ne_of_bad_char (fun c => isDigitC c = true) hdnum (show ']' ∈ S "]" by decide)
          (by decide),
        ne_of_bad_char (fun c => isDigitC c = true) hdnum (show '>' ∈ S ">>" by decide)
          (by decide),
        fun _ => Or.inr ?_⟩
      have hd3 : data.drop (q + (pre ++ List.replicate (2 * off) ' ').length +
          (natDigits num).length) = [' '] ++ natDigits gen ++ (' ' :: 'R' :: rest) := by
        have := drop_of ((pre ++ List.replicate (2 * off) ' ') ++ natDigits num)
          (' ' :: (natDigits gen ++ ' ' :: 'R' :: rest))
          (by rw [hd2])
        simp only [List.length_append] at this
        rw [← Nat.add_assoc] at this
        simpa using this
      have htok2 := tokAt_reg hd3 (by
          intro c hc
          rcases List.mem_singleton.mp hc with rfl
          decide)
        (fun c hc => numChar_regular (Or.inl (hdgen c hc))) hdgenne
        (fun c hc => by
          rw [List.head?_cons, Option.some_inj] at hc
          rw [← hc]
          decide)
      rw [htok2]
      exact ne_of_bad_char (fun c => isDigitC c = true) hdgen (show 'R' ∈ S "R" by decide)
        (by decide)

theorem peek_base (data : Bs) (q ll : Nat) :
    TP.peek ⟨⟨data, q⟩, [], ll⟩ = ((tokAt data q).1,
      ⟨⟨data, (tokAt data q).2.1⟩, [(tokAt data q).1], (tokAt data q).2.2⟩) := rfl

/-- Inside a dumped item sequence, the two tokens ahead are never an
`n R` pair: the lookahead of `parseNumberIndir` never misfires. -/
theorem seqTailSafe {r : List Obj} (hWf : ∀ o ∈ r, Wf o) :
    ∀ {fd off : Nat} {dr : Bs}, dumpGo fd (DMode.items r) off = some dr →
    ∀ {data : Bs} {p : Nat} (sep clsp rest : Bs),
    data.drop p = sep ++ (dr ++ (clsp ++ ']' :: rest)) →
    (∀ c ∈ sep, charType c = .ws) → (∀ c ∈ clsp, charType c = .ws) → RestSep rest →
    TailSafe data p := by
  intro fd off dr hdump data p sep clsp rest hd hsep hclsp hrest
  cases r with
  | nil =>
    cases fd with
    | zero => exact absurd hdump (by simp [dumpGo])
    | succ fd' =>
      simp only [dumpGo, Option.some_inj] at hdump
      subst hdump
      have hd2 : data.drop p = (sep ++ clsp) ++ ']' :: rest := by
        rw [hd]
        simp [List.append_assoc]
      have htok := tokAt_delim1 hd2 (fun c hc => by
          rcases List.mem_append.mp hc with hc | hc
          · exact hsep c hc
          · exact hclsp c hc)
        (by decide) (by decide) (fun hlt => absurd hlt (by decide))
      intro hu
      rw [htok] at hu
      dsimp only at hu
      exact absurd hu (by decide)
  | cons o2 r2 =>
    cases fd with
    | zero => exact absurd hdump (by simp [dumpGo])
    | succ fd' =>
      simp only [dumpGo] at hdump
      cases hd2d : dumpGo fd' (DMode.obj o2) off with
      | none => rw [hd2d] at hdump; simp at hdump
      | some d2 =>
        cases hdr2 : dumpGo fd' (DMode.items r2) off with
        | none => rw [hd2d, hdr2] at hdump; simp at hdump
        | some dr2 =>
          rw [hd2d, hdr2] at hdump
          simp only [Option.some_inj] at hdump
          subst hdump
          have hd' : data.drop p = sep ++ (d2 ++ ('\n' :: (dr2 ++ (clsp ++ ']' :: rest)))) := by
            rw [hd]
            simp [List.append_assoc]
          obtain ⟨t, rr, htok, htR, htB, htG, hnum⟩ :=
            headTok (hWf o2 (List.mem_cons_self o2 r2)) hd2d hd' hsep
              (fun c hc => by
                rw [List.head?_cons, Option.some_inj] at hc
                rw [← hc]
                decide)
          intro hu
          rw [htok] at hu ⊢
          rcases hnum hu with heq | hne
          · rw [heq]
            have hdafter : data.drop (p + sep.length + d2.length) =
                '\n' :: (dr2 ++ (clsp ++ ']' :: rest)) := by
              have := drop_of (sep ++ d2)
                ('\n' :: (dr2 ++ (clsp ++ ']' :: rest)))
                (by rw [hd']; simp [List.append_assoc])
              simp only [List.length_append] at this
              rw [← Nat.add_assoc] at this
              exact this
            cases r2 with
            | nil =>
              cases fd' with
              | zero => exact absurd hdr2 (by simp [dumpGo])
              | succ fd'' =>
                simp only [dumpGo, Option.some_inj] at hdr2
                subst hdr2
                have hd3 : data.drop (p + sep.length + d2.length) =
                    ('\n' :: clsp) ++ ']' :: rest := by
                  rw [hdafter]
                  simp
                have htok3 := tokAt_delim1 hd3 (fun c hc => by
                    rcases List.mem_cons.mp hc with rfl | hc
                    · decide
                    · exact hclsp c hc)
                  (by decide) (by decide) (fun hlt => absurd hlt (by decide))
                rw [htok3]
                dsimp only
                decide
            | cons o3 r3 =>
              cases fd' with
              | zero => exact absurd hdr2 (by simp [dumpGo])
              | succ fd'' =>
                simp only [dumpGo] at hdr2
                cases hd3d : dumpGo fd'' (DMode.obj o3) off with
                | none => rw [hd3d] at hdr2; simp at hdr2
                | some d3 =>
                  cases hdr3 : dumpGo fd'' (DMode.items r3) off with
                  | none => rw [hd3d, hdr3] at hdr2; simp at hdr2
                  | some dr3 =>
                    rw [hd3d, hdr3] at hdr2
                    simp only [Option.some_inj] at hdr2
                    subst hdr2
                    have hd3 : data.drop (p + sep.length + d2.length) =
                        ['\n'] ++ (d3 ++ ('\n' :: (dr3 ++ (clsp ++ ']' :: rest)))) := by
                      rw [hdafter]
                      simp [List.append_assoc]
                    obtain ⟨t3, rr3, htok3, ht3R, _, _, _⟩ :=
                      headTok (hWf o3 (List.mem_cons_of_mem _ (List.mem_cons_self o3 r3)))
                        hd3d hd3 (fun c hc => by
                          rcases List.mem_singleton.mp hc with rfl
                          decide)
                        (fun c hc => by
                          rw [List.head?_cons, Option.some_inj] at hc
                          rw [← hc]
                          decide)
                    rw [htok3]
                    exact ht3R
          · exact hne

/-- Parsing a numeral token whose two-token tail is safe yields the
`Numeric` and pushes the speculatively read tokens back. -/
theorem numeral_parse {data : Bs} {q q1 ls : Nat} {s : Bs} {n : Numeric} {ts : TP} {f : Nat}
    (htok : tokAt data q = (s, q1, ls))
    (hs : Numeric.fromTok s = n) (hvalid : n.valid = true)
    (hne : ¬ s = []) (hne2 : ¬ s = S "/") (hne3 : ¬ s = S "(") (hne4 : ¬ s = S "<")
    (hne5 : ¬ s = S "<<") (hne6 : ¬ s = S "[") (hne7 : ¬ s = S "null")
    (hne8 : ¬ (s = S "true" ∨ s = S "false"))
    (hsafe : TailSafe data q1)
    (hts : NA data ts q) (hf : 1 ≤ f) :
    ∃ ts', parseGo f .obj ts = some (.numeric n, ts') ∧ NA data ts' q1 := by
  obtain ⟨hpeek1, hpk2⟩ := na_peek hts htok
  obtain ⟨fj, rfl⟩ : ∃ fj, f = fj + 1 := ⟨f - 1, by omega⟩
  simp only [parseGo, hpeek1]
  rw [if_neg hne, if_neg hne2, if_neg hne3, if_neg hne4, if_neg hne5, if_neg hne6,
    if_neg hne7, if_neg hne8, hs, if_pos hvalid]
  have hc1 : NA1 data ts.peek.2.consume q1 := na_consume hpk2 htok
  rcases h2 : tokAt data q1 with ⟨t2, q2, l2⟩
  rcases h3 : tokAt data q2 with ⟨t3, q3, l3⟩
  unfold TailSafe at hsafe
  rw [h2] at hsafe
  simp only at hsafe
  rw [h3] at hsafe
  obtain ⟨ll2, hread2⟩ := na1_read hc1 h2
  simp only [parseNumberIndir, hread2]
  by_cases hu12 : (n.uintegral && (Numeric.fromTok t2).uintegral) = true
  · rw [if_pos hu12, read_base, h3]
    dsimp only
    rw [if_neg (hsafe (Bool.and_elim_right hu12))]
    exact ⟨_, rfl, NA.push2 q1 t2 q2 l2 t3 q3 l3 l3 h2 h3 (Bool.and_elim_right hu12)⟩
  · rw [if_neg hu12]
    exact ⟨_, rfl, NA.of1 (NA1.push1 q1 t2 q2 l2 ll2 h2)⟩

/-- The element loop of `parseArray` over a dumped item list. -/
theorem itemsRT : ∀ (items : List Obj),
    (∀ o ∈ items, Wf o) → (∀ o ∈ items, RTstmt o) →
    ∀ (fd off : Nat) (body : Bs), dumpGo fd (DMode.items items) off = some body →
    ∀ (data : Bs) (q : Nat) (pre clsp rest : Bs) (acc : List Obj) (ts : TP) (f : Nat),
    data.drop q = pre ++ (body ++ (clsp ++ ']' :: rest)) →
    pre ≠ [] → (∀ c ∈ pre, charType c = .ws) → (∀ c ∈ clsp, charType c = .ws) →
    RestSep rest →
    NA data ts q → 2 * (data.length - q) + 2 ≤ f →
    ∃ ts', parseGo f (.arr acc) ts = some (.array (acc ++ items) [], ts') ∧
      NA data ts' (q + pre.length + body.length + clsp.length + 1) := by
  intro items
  induction items with
  | nil =>
    intro _ _ fd off body hdump data q pre clsp rest acc ts f hd hprene hpre hclsp hrest hts hf
    cases fd with
    | zero => exact absurd hdump (by simp [dumpGo])
    | succ fd' =>
      simp only [dumpGo, Option.some_inj] at hdump
      subst hdump
      have hd2 : data.drop q = (pre ++ clsp) ++ ']' :: rest := by
        rw [hd]
        simp [List.append_assoc]
      have htok := tokAt_delim1 hd2 (fun c hc => by
          rcases List.mem_append.mp hc with hc | hc
          · exact hpre c hc
          · exact hclsp c hc)
        (by decide) (by decide) (fun hlt => absurd hlt (by decide))
      obtain ⟨hpeek1, hpk2⟩ := na_peek hts htok
      obtain ⟨fj, rfl⟩ : ∃ fj, f = fj + 1 := ⟨f - 1, by omega⟩
      refine ⟨ts.peek.2.consume, ?_, ?_⟩
      · rw [List.append_nil]
        simp only [parseGo, hpeek1]
        rw [if_pos (by trivial)]
      · have heq : q + (pre ++ clsp).length + 1 =
            q + pre.length + List.length ([] : Bs) + clsp.length + 1 := by
          simp only [List.length_append, List.length_nil]
          omega
        exact heq ▸ NA.of1 (na_consume hpk2 htok)
  | cons o1 r ihr =>
    intro hWf hRT fd off body hdump data q pre clsp rest acc ts f hd hprene hpre hclsp
      hrest hts hf
    cases fd with
    | zero => exact absurd hdump (by simp [dumpGo])
    | succ fd' =>
      simp only [dumpGo] at hdump
      cases hd1d : dumpGo fd' (DMode.obj o1) off with
      | none => rw [hd1d] at hdump; simp at hdump
      | some d1 =>
        cases hdrd : dumpGo fd' (DMode.items r) off with
        | none => rw [hd1d, hdrd] at hdump; simp at hdump
        | some dr =>
          rw [hd1d, hdrd] at hdump
          simp only [Option.some_inj] at hdump
          subst hdump
          have hpre1 : 1 ≤ pre.length := List.length_pos.mpr hprene
          have hd' : data.drop q = pre ++ (d1 ++ ('\n' :: (dr ++ (clsp ++ ']' :: rest)))) := by
            rw [hd]
            simp [List.append_assoc]
          have hlen := congrArg List.length hd'
          simp only [List.length_drop, List.length_append, List.length_cons] at hlen
          obtain ⟨t, rr, htok, htR, htB, htG, hnum⟩ :=
            headTok (hWf o1 (List.mem_cons_self o1 r)) hd1d hd' hpre
              (fun c hc => by rw [List.head?_cons, Option.some_inj] at hc; rw [← hc]; decide)
          obtain ⟨hpeek1, hpk2⟩ := na_peek hts htok
          obtain ⟨fj, rfl⟩ : ∃ fj, f = fj + 1 := ⟨f - 1, by omega⟩
          simp only [parseGo, hpeek1]
          rw [if_neg htB]
          have hdafter : data.drop (q + pre.length + d1.length) =
              '\n' :: (dr ++ (clsp ++ ']' :: rest)) := by
            have := drop_of (pre ++ d1) ('\n' :: (dr ++ (clsp ++ ']' :: rest)))
              (by rw [hd', List.append_assoc])
            simp only [List.length_append] at this
            rw [← Nat.add_assoc] at this
            exact this
          have hsafe : TailSafe data (q + pre.length + d1.length) :=
            seqTailSafe (fun o ho => hWf o (List.mem_cons_of_mem _ ho)) hdrd
              ['\n'] clsp rest (by rw [hdafter]; rfl)
              (fun c hc => by rcases List.mem_singleton.mp hc with rfl; decide)
              hclsp hrest
          obtain ⟨ts1, hp1, hNA1⟩ := hRT o1 (List.mem_cons_self o1 r) fd' off d1 hd1d
            data q pre ('\n' :: (dr ++ (clsp ++ ']' :: rest))) ts.peek.2 fj hd' hpre
            (fun c hc => by rw [List.head?_cons, Option.some_inj] at hc; rw [← hc]; decide)
            hsafe hpk2 (by omega)
          rw [hp1]
          dsimp only
          rw [wf_failed (hWf o1 (List.mem_cons_self o1 r))]
          rw [if_neg (by simp)]
          obtain ⟨ts2, hp2, hNA2⟩ := ihr (fun o ho => hWf o (List.mem_cons_of_mem _ ho))
            (fun o ho => hRT o (List.mem_cons_of_mem _ ho)) fd' off dr hdrd data
            (q + pre.length + d1.length) ['\n'] clsp rest (acc ++ [o1]) ts1 fj
            (by rw [hdafter]; rfl) (by simp)
            (fun c hc => by rcases List.mem_singleton.mp hc with rfl; decide)
            hclsp hrest hNA1 (by omega)
          rw [hp2]
          refine ⟨ts2, ?_, ?_⟩
          · rw [List.append_assoc]
            rfl
          · have heq : q + pre.length + d1.length + List.length ['\n'] + dr.length +
                clsp.length + 1 =
                q + pre.length + (d1 ++ ['\n'] ++ dr).length + clsp.length + 1 := by
              simp only [List.length_append, List.length_cons, List.length_nil]
              omega
            exact heq ▸ hNA2

/-- The key/value loop of `parseDict` over a dumped entry list. -/
theorem entriesRT : ∀ (es : List (Bs × Obj)),
    (∀ e ∈ es, RegStr e.1) → (∀ e ∈ es, Wf e.2) → (∀ e ∈ es, RTstmt e.2) →
    List.Pairwise (fun a b => bsLt a.1 b.1 = true) es →
    ∀ (fd off : Nat) (body : Bs), dumpGo fd (DMode.entries es) off = some body →
    ∀ (data : Bs) (q : Nat) (pre clsp rest : Bs) (acc : List (Bs × Obj)) (ts : TP) (f : Nat),
    data.drop q = pre ++ (body ++ (clsp ++ '>' :: '>' :: rest)) →
    pre ≠ [] → (∀ c ∈ pre, charType c = .ws) → (∀ c ∈ clsp, charType c = .ws) →
    RestSep rest →
    (∀ e ∈ acc, ∀ e2 ∈ es, bsLt e.1 e2.1 = true) →
    NA data ts q → 2 * (data.length - q) + 2 ≤ f →
    ∃ ts', parseGo f (.dct acc) ts = some (.dict (acc ++ es) [], ts') ∧
      NA data ts' (q + pre.length + body.length + clsp.length + 2) := by
  intro es
  induction es with
  | nil =>
    intro _ _ _ _ fd off body hdump data q pre clsp rest acc ts f hd hprene hpre hclsp
      hrest hacc hts hf
    cases fd with
    | zero => exact absurd hdump (by simp [dumpGo])
    | succ fd' =>
      simp only [dumpGo, Option.some_inj] at hdump
      subst hdump
      have hd2 : data.drop q = (pre ++ clsp) ++ '>' :: '>' :: rest := by
        rw [hd]
        simp [List.append_assoc]
      have htok := tokAt_delim2 hd2 (fun c hc => by
          rcases List.mem_append.mp hc with hc | hc
          · exact hpre c hc
          · exact hclsp c hc)
        (by decide) (by decide) (Or.inr rfl)
      obtain ⟨hpeek1, hpk2⟩ := na_peek hts htok
      obtain ⟨fj, rfl⟩ : ∃ fj, f = fj + 1 := ⟨f - 1, by omega⟩
      refine ⟨ts.peek.2.consume, ?_, ?_⟩
      · rw [List.append_nil]
        simp only [parseGo, hpeek1]
        rw [if_pos (by trivial)]
      · have heq : q + (pre ++ clsp).length + 2 =
            q + pre.length + List.length ([] : Bs) + clsp.length + 2 := by
          simp only [List.length_append, List.length_nil]
          omega
        exact heq ▸ NA.of1 (na_consume hpk2 htok)
  | cons kv es' ihr =>
    obtain ⟨k, v⟩ := kv
    intro hk hWfv hRTv hsort fd off body hdump data q pre clsp rest acc ts f hd hprene hpre
      hclsp hrest hacc hts hf
    cases fd with
    | zero => exact absurd hdump (by simp [dumpGo])
    | succ fd' =>
      simp only [dumpGo] at hdump
      cases hdv : dumpGo fd' (DMode.obj v) (off + 1) with
      | none => rw [hdv] at hdump; simp at hdump
      | some dv =>
        cases hdrest : dumpGo fd' (DMode.entries es') off with
        | none => rw [hdv, hdrest] at hdump; simp at hdump
        | some drest =>
          rw [hdv, hdrest] at hdump
          simp only [Option.some_inj] at hdump
          subst hdump
          have hpre1 : 1 ≤ pre.length := List.length_pos.mpr hprene
          obtain ⟨hkne, hkreg⟩ := hk (k, v) (List.mem_cons_self _ es')
          have hk1 : 1 ≤ k.length := List.length_pos.mpr hkne
          have hd' : data.drop q = (pre ++ List.replicate (2 * off) ' ') ++ ('/' :: k) ++
              ('\n' :: (dv ++ ('\n' :: (drest ++ (clsp ++ '>' :: '>' :: rest))))) := by
            rw [hd]
            simp [pOff, List.append_assoc, show S "/" = ['/'] from rfl]
          have hlen := congrArg List.length hd'
          simp only [List.length_drop, List.length_append, List.length_cons,
            List.length_replicate] at hlen
          have htok : tokAt data q =
              (S "/", q + (pre ++ List.replicate (2 * off) ' ').length + 1, 1) := by
            have hd2 : data.drop q = (pre ++ List.replicate (2 * off) ' ') ++ '/' ::
                (k ++ ('\n' :: (dv ++ ('\n' :: (drest ++ (clsp ++ '>' :: '>' :: rest)))))) := by
              rw [hd']
              simp [List.append_assoc]
            exact tokAt_delim1 hd2 (preWs_append hpre) (by decide) (by decide)
              (fun hlt => absurd hlt (by decide))
          obtain ⟨hpeek1, hpk2⟩ := na_peek hts htok
          obtain ⟨fj, rfl⟩ : ∃ fj, f = fj + 1 := ⟨f - 1, by omega⟩
          simp only [parseGo, hpeek1]
          rw [if_neg (by decide)]
          have hkey := nameParse hd' (preWs_append hpre) hkreg hkne
            (fun c hc => by rw [List.head?_cons, Option.some_inj] at hc; rw [← hc]; decide)
            hpk2 (show 1 ≤ fj by omega)
          rw [hkey]
          dsimp only
          rw [show Obj.failed (Obj.name k) = false from rfl]
          rw [if_neg (by simp)]
          rw [dhasKey_false k acc
            (fun e he => hacc e he (k, v) (List.mem_cons_self _ es'))]
          rw [if_neg (by simp)]
          -- the value's first token (for the `>>` guard) and parse
          have hdk : data.drop (q + (pre ++ List.replicate (2 * off) ' ').length + 1 +
              k.length) = ['\n'] ++ (dv ++ ('\n' :: (drest ++ (clsp ++ '>' :: '>' :: rest)))) := by
            have h0 := drop_of ((pre ++ List.replicate (2 * off) ' ') ++ ('/' :: k))
              ('\n' :: (dv ++ ('\n' :: (drest ++ (clsp ++ '>' :: '>' :: rest)))))
              (by rw [hd', List.append_assoc])
            rw [show q + ((pre ++ List.replicate (2 * off) ' ') ++ ('/' :: k)).length =
              q + (pre ++ List.replicate (2 * off) ' ').length + 1 + k.length from by
                simp only [List.length_append, List.length_cons]
                omega] at h0
            exact h0
          obtain ⟨t2, rr2, htokv, _, _, ht2G, _⟩ :=
            headTok (hWfv (k, v) (List.mem_cons_self _ es')) hdv hdk
              (fun c hc => by rcases List.mem_singleton.mp hc with rfl; decide)
              (fun c hc => by rw [List.head?_cons, Option.some_inj] at hc; rw [← hc]; decide)
          rw [peek_base, htokv]
          dsimp only
          rw [if_neg ht2G]
          -- tail safety after the value: the next token is `/` or `>>`
          have hdpv : data.drop (q + (pre ++ List.replicate (2 * off) ' ').length + 1 +
              k.length + List.length ['\n'] + dv.length) =
              '\n' :: (drest ++ (clsp ++ '>' :: '>' :: rest)) := by
            have h0 := drop_of (['\n'] ++ dv)
              ('\n' :: (drest ++ (clsp ++ '>' :: '>' :: rest)))
              (by rw [hdk, List.append_assoc])
            rw [show q + (pre ++ List.replicate (2 * off) ' ').length + 1 + k.length +
              (['\n'] ++ dv).length =
              q + (pre ++ List.replicate (2 * off) ' ').length + 1 + k.length +
                List.length ['\n'] + dv.length from by
                simp only [List.length_append]
                omega] at h0
            exact h0
          have hsafe : TailSafe data (q + (pre ++ List.replicate (2 * off) ' ').length + 1 +
              k.length + List.length ['\n'] + dv.length) := by
            cases es' with
            | nil =>
              cases fd' with
              | zero => exact absurd hdrest (by simp [dumpGo])
              | succ fd'' =>
                simp only [dumpGo, Option.some_inj] at hdrest
                subst hdrest
                have hd3 : data.drop (q + (pre ++ List.replicate (2 * off) ' ').length + 1 +
                    k.length + List.length ['\n'] + dv.length) =
                    ('\n' :: clsp) ++ '>' :: '>' :: rest := by
                  rw [hdpv]
                  simp
                have htok3 := tokAt_delim2 hd3 (fun c hc => by
                    rcases List.mem_cons.mp hc with rfl | hc
                    · decide
                    · exact hclsp c hc)
                  (by decide) (by decide) (Or.inr rfl)
                intro hu
                rw [htok3] at hu
                dsimp only at hu
                exact absurd hu (by decide)
            | cons kv2 es'' =>
              obtain ⟨k2, v2⟩ := kv2
              cases fd' with
              | zero => exact absurd hdrest (by simp [dumpGo])
              | succ fd'' =>
                simp only [dumpGo] at hdrest
                cases hdv2 : dumpGo fd'' (DMode.obj v2) (off + 1) with
                | none => rw [hdv2] at hdrest; simp at hdrest
                | some dvv =>
                  cases hdrest2 : dumpGo fd'' (DMode.entries es'') off with
                  | none => rw [hdv2, hdrest2] at hdrest; simp at hdrest
                  | some drest2 =>
                    rw [hdv2, hdrest2] at hdrest
                    simp only [Option.some_inj] at hdrest
                    subst hdrest
                    have hd3 : data.drop (q + (pre ++ List.replicate (2 * off) ' ').length +
                        1 + k.length + List.length ['\n'] + dv.length) =
                        ('\n' :: List.replicate (2 * off) ' ') ++ '/' ::
                          (k2 ++ ('\n' :: (dvv ++ (['\n'] ++ drest2 ++
                            (clsp ++ '>' :: '>' :: rest))))) := by
                      rw [hdpv]
                      simp [pOff, List.append_assoc, show S "/" = ['/'] from rfl]
                    have htok3 := tokAt_delim1 hd3 (fun c hc => by
                        rcases List.mem_cons.mp hc with rfl | hc
                        · decide
                        · rcases List.eq_of_mem_replicate hc with rfl
                          decide)
                      (by decide) (by decide) (fun hlt => absurd hlt (by decide))
                    intro hu
                    rw [htok3] at hu
                    dsimp only at hu
                    exact absurd hu (by decide)
          obtain ⟨ts2, hp2, hNA2⟩ := hRTv (k, v) (List.mem_cons_self _ es') fd' (off + 1)
            dv hdv data
            (q + (pre ++ List.replicate (2 * off) ' ').length + 1 + k.length)
            ['\n'] ('\n' :: (drest ++ (clsp ++ '>' :: '>' :: rest)))
            ⟨⟨data, rr2.1⟩, [t2], rr2.2⟩ fj
            (by rw [hdk])
            (fun c hc => by rcases List.mem_singleton.mp hc with rfl; decide)
            (fun c hc => by rw [List.head?_cons, Option.some_inj] at hc; rw [← hc]; decide)
            hsafe
            (NA.of1 (NA1.push1 _ t2 rr2.1 rr2.2 rr2.2 htokv))
            (by omega)
          rw [hp2]
          dsimp only
          rw [wf_failed (hWfv (k, v) (List.mem_cons_self _ es'))]
          rw [if_neg (by simp)]
          rw [dinsert_append k v acc
            (fun e he => hacc e he (k, v) (List.mem_cons_self _ es'))]
          obtain ⟨ts3, hp3, hNA3⟩ := ihr
            (fun e he => hk e (List.mem_cons_of_mem _ he))
            (fun e he => hWfv e (List.mem_cons_of_mem _ he))
            (fun e he => hRTv e (List.mem_cons_of_mem _ he))
            (List.pairwise_cons.mp hsort).2
            fd' off drest hdrest data
            (q + (pre ++ List.replicate (2 * off) ' ').length + 1 + k.length +
              List.length ['\n'] + dv.length)
            ['\n'] clsp rest (acc ++ [(k, v)]) ts2 fj
            (by rw [hdpv]; rfl) (by simp)
            (fun c hc => by rcases List.mem_singleton.mp hc with rfl; decide)
            hclsp hrest
            (fun e he e2 he2 => by
              rcases List.mem_append.mp he with he | he
              · exact hacc e he e2 (List.mem_cons_of_mem _ he2)
              · rcases List.mem_singleton.mp he with rfl
                exact (List.pairwise_cons.mp hsort).1 e2 he2)
            hNA2 (by omega)
          rw [hp3]
          refine ⟨ts3, ?_, ?_⟩
          · rw [List.append_assoc]
            rfl
          · have heq : q + (pre ++ List.replicate (2 * off) ' ').length + 1 + k.length +
                List.length ['\n'] + dv.length + List.length ['\n'] + drest.length +
                clsp.length + 2 =
                q + pre.length +
                  (pOff off (S "/" ++ k ++ ['\n']) ++ dv ++ ['\n'] ++ drest).length +
                  clsp.length + 2 := by
              simp only [List.length_append, List.length_cons, List.length_nil,
                List.length_replicate, pOff_length, show (S "/").length = 1 from rfl]
              omega
            exact heq ▸ hNA3

/-- The round-trip: every well-formed object parses back from its own
dump (main induction over `Wf`). -/
theorem mainRT {o : Obj} (h : Wf o) : RTstmt o := by
  induction h with
  | null =>
    intro fd off out hdump data q pre rest ts f hd hpre hrest hsafe hts hf
    cases fd with
    | zero => exact absurd hdump (by simp [dumpGo])
    | succ fd' =>
      simp only [dumpGo, Option.some_inj] at hdump
      subst hdump
      have hd2 : data.drop q = (pre ++ List.replicate (2 * off) ' ') ++ S "null" ++ rest := by
        rw [hd]
        simp [pOff, List.append_assoc]
      have htok := tokAt_reg hd2 (preWs_append hpre) (by decide) (by decide) hrest
      obtain ⟨hpeek1, hpk2⟩ := na_peek hts htok
      obtain ⟨fj, rfl⟩ : ∃ fj, f = fj + 1 := ⟨f - 1, by omega⟩
      refine ⟨ts.peek.2.consume, ?_, ?_⟩
      · simp only [parseGo, hpeek1]
        rw [if_neg (by decide), if_neg (by decide), if_neg (by decide), if_neg (by decide),
          if_neg (by decide), if_neg (by decide), if_pos (by trivial)]
      · have heq : q + (pre ++ List.replicate (2 * off) ' ').length + (S "null").length =
            q + pre.length + (pOff off (S "null")).length := by
          simp only [List.length_append, List.length_replicate, pOff_length]
          omega
        exact heq ▸ NA.of1 (na_consume hpk2 htok)
  | boolean b =>
    intro fd off out hdump data q pre rest ts f hd hpre hrest hsafe hts hf
    cases fd with
    | zero => exact absurd hdump (by simp [dumpGo])
    | succ fd' =>
      cases b with
      | true =>
        simp only [dumpGo, if_pos rfl, if_true, Option.some_inj] at hdump
        subst hdump
        have hd2 : data.drop q = (pre ++ List.replicate (2 * off) ' ') ++ S "true" ++ rest := by
          rw [hd]
          simp [pOff, List.append_assoc]
        have htok := tokAt_reg hd2 (preWs_append hpre) (by decide) (by decide) hrest
        obtain ⟨hpeek1, hpk2⟩ := na_peek hts htok
        obtain ⟨fj, rfl⟩ : ∃ fj, f = fj + 1 := ⟨f - 1, by omega⟩
        refine ⟨ts.peek.2.consume, ?_, ?_⟩
        · simp only [parseGo, hpeek1]
          rw [if_neg (by decide), if_neg (by decide), if_neg (by decide), if_neg (by decide),
            if_neg (by decide), if_neg (by decide), if_neg (by decide), if_pos (by simp)]
          rfl
        · have heq : q + (pre ++ List.replicate (2 * off) ' ').length + (S "true").length =
              q + pre.length + (pOff off (S "true")).length := by
            simp only [List.length_append, List.length_replicate, pOff_length]
            omega
          exact heq ▸ NA.of1 (na_consume hpk2 htok)
      | false =>
        simp only [dumpGo, Bool.false_eq_true, if_false, if_true, Option.some_inj] at hdump
        subst hdump
        have hd2 : data.drop q = (pre ++ List.replicate (2 * off) ' ') ++ S "false" ++ rest := by
          rw [hd]
          simp [pOff, List.append_assoc]
        have htok := tokAt_reg hd2 (preWs_append hpre) (by decide) (by decide) hrest
        obtain ⟨hpeek1, hpk2⟩ := na_peek hts htok
        obtain ⟨fj, rfl⟩ : ∃ fj, f = fj + 1 := ⟨f - 1, by omega⟩
        refine ⟨ts.peek.2.consume, ?_, ?_⟩
        · simp only [parseGo, hpeek1]
          rw [if_neg (by decide), if_neg (by decide), if_neg (by decide), if_neg (by decide),
            if_neg (by decide), if_neg (by decide), if_neg (by decide), if_pos (by simp)]
          rfl
        · have heq : q + (pre ++ List.replicate (2 * off) ' ').length + (S "false").length =
              q + pre.length + (pOff off (S "false")).length := by
            simp only [List.length_append, List.length_replicate, pOff_length]
            omega
          exact heq ▸ NA.of1 (na_consume hpk2 htok)
  | numeric n hdp hlo hhi hfit =>
    intro fd off out hdump data q pre rest ts f hd hpre hrest hsafe hts hf
    cases fd with
    | zero => exact absurd hdump (by simp [dumpGo])
    | succ fd' =>
      obtain ⟨s, hnd, hsne, hschars, hsrt⟩ := numDump_inv n hdp hlo hhi hfit
      simp only [dumpGo, hnd, Option.map_some', Option.some_inj] at hdump
      subst hdump
      have hd2 : data.drop q = (pre ++ List.replicate (2 * off) ' ') ++ s ++ rest := by
        rw [hd]
        simp [pOff, List.append_assoc]
      have htok := tokAt_reg hd2 (preWs_append hpre)
        (fun c hc => numChar_regular (hschars c hc)) hsne hrest
      have hvalid : n.valid = true := by
        simp only [Numeric.valid, Numeric.failed]
        simp
        omega
      have heq : q + pre.length + (pOff off s).length =
          q + (pre ++ List.replicate (2 * off) ' ').length + s.length := by
        simp only [List.length_append, List.length_replicate, pOff_length]
        omega
      obtain ⟨ts', hp, hNA⟩ := numeral_parse htok hsrt hvalid hsne
        (ne_of_bad_char _ hschars (show '/' ∈ S "/" by decide) (by decide))
        (ne_of_bad_char _ hschars (show '(' ∈ S "(" by decide) (by decide))
        (ne_of_bad_char _ hschars (show '<' ∈ S "<" by decide) (by decide))
        (ne_of_bad_char _ hschars (show '<' ∈ S "<<" by decide) (by decide))
        (ne_of_bad_char _ hschars (show '[' ∈ S "[" by decide) (by decide))
        (ne_of_bad_char _ hschars (show 'n' ∈ S "null" by decide) (by decide))
        (fun hor => hor.elim
          (ne_of_bad_char _ hschars (show 't' ∈ S "true" by decide) (by decide))
          (ne_of_bad_char _ hschars (show 'f' ∈ S "false" by decide) (by decide)))
        (heq ▸ hsafe) hts (show 1 ≤ f by omega)
      exact ⟨ts', hp, heq.symm ▸ hNA⟩
  | string v hx hv =>
    intro fd off out hdump data q pre rest ts f hd hpre hrest hsafe hts hf
    cases fd with
    | zero => exact absurd hdump (by simp [dumpGo])
    | succ fd' =>
      cases hx with
      | false =>
        simp only [dumpGo, dumpErrTail, Bool.false_eq_true, if_false, if_pos rfl, if_true,
          List.append_nil, Option.some_inj] at hdump
        subst hdump
        have hd2 : data.drop q = (pre ++ List.replicate (2 * off) ' ') ++ '(' ::
            ((v.map escLit).flatten ++ ')' :: rest) := by
          rw [hd]
          simp [pOff, List.append_assoc, show S "(" = ['('] from rfl]
        have htok := tokAt_delim1 hd2 (preWs_append hpre) (by decide) (by decide)
          (fun hlt => absurd hlt (by decide))
        obtain ⟨hpeek1, hpk1⟩ := na_peek_na1 hts htok (by decide)
        obtain ⟨fj, rfl⟩ : ∃ fj, f = fj + 1 := ⟨f - 1, by omega⟩
        obtain ⟨ll0, hread1⟩ := na1_read hpk1 htok
        have hbrem : (⟨⟨data, q + (pre ++ List.replicate (2 * off) ' ').length + 1⟩, [],
            ll0⟩ : TP).buf.rem = (v.map escLit).flatten ++ ')' :: rest := by
          show data.drop _ = _
          have h0 := drop_of ((pre ++ List.replicate (2 * off) ' ') ++ ['('])
            ((v.map escLit).flatten ++ ')' :: rest) (by rw [hd2]; simp [List.append_assoc])
          rw [show q + ((pre ++ List.replicate (2 * off) ' ') ++ ['(']).length =
            q + (pre ++ List.replicate (2 * off) ' ').length + 1 from by
              simp only [List.length_append, List.length_singleton]
              omega] at h0
          exact h0
        refine ⟨⟨⟨data, q + (pre ++ List.replicate (2 * off) ' ').length + 1 +
            ((v.map escLit).flatten.length + 1)⟩, [], 0⟩, ?_, ?_⟩
        · simp only [parseGo, hpeek1]
          rw [if_neg (by decide), if_neg (by decide), if_pos (by trivial)]
          simp only [parseStringLiteral, hread1]
          rw [hbrem]
          rw [pslGo_rt v _ [] _ rest hv hbrem (by simp)]
          rfl
        · have heq : q + (pre ++ List.replicate (2 * off) ' ').length + 1 +
              ((v.map escLit).flatten.length + 1) =
              q + pre.length +
                (pOff off (S "(") ++ (v.map escLit).flatten ++ [')']).length := by
            simp only [List.length_append, List.length_replicate, List.length_singleton,
              pOff_length, show (S "(").length = 1 from rfl]
            omega
          exact heq ▸ NA.of1 (NA1.base _ 0)
      | true =>
        simp only [dumpGo, dumpErrTail, if_pos rfl, if_true, List.append_nil,
          Option.some_inj] at hdump
        subst hdump
        have hd2 : data.drop q = (pre ++ List.replicate (2 * off) ' ') ++ '<' ::
            (' ' :: ((v.map (fun c => hex2 c ++ [' '])).flatten ++ '>' :: rest)) := by
          rw [hd]
          simp [pOff, List.append_assoc, show S "< " = ['<', ' '] from rfl]
        have htok := tokAt_delim1 hd2 (preWs_append hpre) (by decide) (by decide)
          (fun _ => by
            rw [List.head?_cons]
            intro hh
            rw [Option.some_inj] at hh
            exact absurd hh (by decide))
        obtain ⟨hpeek1, hpk1⟩ := na_peek_na1 hts htok (by decide)
        obtain ⟨fj, rfl⟩ : ∃ fj, f = fj + 1 := ⟨f - 1, by omega⟩
        obtain ⟨ll0, hread1⟩ := na1_read hpk1 htok
        have hbrem : (⟨⟨data, q + (pre ++ List.replicate (2 * off) ' ').length + 1⟩, [],
            ll0⟩ : TP).buf.rem =
            ' ' :: ((v.map (fun c => hex2 c ++ [' '])).flatten ++ '>' :: rest) := by
          show data.drop _ = _
          have h0 := drop_of ((pre ++ List.replicate (2 * off) ' ') ++ ['<'])
            (' ' :: ((v.map (fun c => hex2 c ++ [' '])).flatten ++ '>' :: rest))
            (by rw [hd2]; simp [List.append_assoc])
          rw [show q + ((pre ++ List.replicate (2 * off) ' ') ++ ['<']).length =
            q + (pre ++ List.replicate (2 * off) ' ').length + 1 from by
              simp only [List.length_append, List.length_singleton]
              omega] at h0
          exact h0
        have hbrem2 : ((⟨data, q + (pre ++ List.replicate (2 * off) ' ').length + 1⟩ :
            SBuf).adv 1).rem = (v.map (fun c => hex2 c ++ [' '])).flatten ++ '>' :: rest := by
          rw [adv_rem]
          rw [show ((⟨data, q + (pre ++ List.replicate (2 * off) ' ').length + 1⟩ :
            SBuf).rem) = ' ' :: ((v.map (fun c => hex2 c ++ [' '])).flatten ++ '>' :: rest)
            from hbrem]
          rfl
        refine ⟨⟨⟨data, q + (pre ++ List.replicate (2 * off) ' ').length + 1 + 1 +
            ((v.map (fun c => hex2 c ++ [' '])).flatten.length + 1)⟩, [], 0⟩, ?_, ?_⟩
        · simp only [parseGo, hpeek1]
          rw [if_neg (by decide), if_neg (by decide), if_neg (by decide), if_pos (by trivial)]
          simp only [parseStringHex, hread1]
          have hbremS : (⟨data, q + (pre ++ List.replicate (2 * off) ' ').length + 1⟩ :
              SBuf).rem =
              ' ' :: ((v.map (fun c => hex2 c ++ [' '])).flatten ++ '>' :: rest) := hbrem
          rw [show (⟨data, q + (pre ++ List.replicate (2 * off) ' ').length + 1⟩ :
              SBuf).rem.length + 1 =
              ((v.map (fun c => hex2 c ++ [' '])).flatten ++ '>' :: rest).length + 1 + 1 from by
            rw [hbremS]
            rfl]
          rw [pshGo_space _ 0 false _ [] _ hbremS]
          rw [pshGo_rt v _ [] _ rest hv hbrem2 (by
            simp only [List.length_append, List.length_cons]
            omega)]
          rfl
        · have heq : q + (pre ++ List.replicate (2 * off) ' ').length + 1 + 1 +
              ((v.map (fun c => hex2 c ++ [' '])).flatten.length + 1) =
              q + pre.length + (pOff off (S "< ") ++
                (v.map (fun c => hex2 c ++ [' '])).flatten ++ ['>']).length := by
            simp only [List.length_append, List.length_replicate, List.length_singleton,
              pOff_length, show (S "< ").length = 2 from rfl]
            omega
          exact heq ▸ NA.of1 (NA1.base _ 0)
  | name v hv =>
    intro fd off out hdump data q pre rest ts f hd hpre hrest hsafe hts hf
    cases fd with
    | zero => exact absurd hdump (by simp [dumpGo])
    | succ fd' =>
      simp only [dumpGo, Option.some_inj] at hdump
      subst hdump
      have hd2 : data.drop q = (pre ++ List.replicate (2 * off) ' ') ++ ('/' :: v) ++ rest := by
        rw [hd]
        simp [pOff, List.append_assoc, show S "/" = ['/'] from rfl]
      refine ⟨_, nameParse hd2 (preWs_append hpre) hv.2 hv.1 hrest hts (by omega), ?_⟩
      have heq : q + (pre ++ List.replicate (2 * off) ' ').length + 1 + v.length =
          q + pre.length + (pOff off (S "/" ++ v)).length := by
        simp only [List.length_append, List.length_replicate, pOff_length,
          show (S "/").length = 1 from rfl]
        omega
      exact heq ▸ NA.of1 (NA1.base _ v.length)
  | array items hitems ih =>
    intro fd off out hdump data q pre rest ts f hd hpre hrest hsafe hts hf
    cases fd with
    | zero => exact absurd hdump (by simp [dumpGo])
    | succ fd' =>
      simp only [dumpGo] at hdump
      cases hbody : dumpGo fd' (DMode.items items) (off + 1) with
      | none => rw [hbody] at hdump; simp at hdump
      | some body =>
        rw [hbody] at hdump
        simp only [if_pos rfl, if_true, List.append_nil, Option.some_inj,
          reduceIte] at hdump
        subst hdump
        have hd2 : data.drop q = (pre ++ List.replicate (2 * off) ' ') ++ '[' ::
            ('\n' :: (body ++ (List.replicate (2 * off) ' ' ++ ']' :: rest))) := by
          rw [hd]
          simp [pOff, List.append_assoc, show S "[" ++ ['\n'] = ['[', '\n'] from rfl,
            show S "]" = [']'] from rfl]
        have hlen := congrArg List.length hd2
        simp only [List.length_drop, List.length_append, List.length_cons,
          List.length_replicate] at hlen
        have htok := tokAt_delim1 hd2 (preWs_append hpre) (by decide) (by decide)
          (fun hlt => absurd hlt (by decide))
        obtain ⟨hpeek1, hpk2⟩ := na_peek hts htok
        obtain ⟨fj, rfl⟩ : ∃ fj, f = fj + 1 := ⟨f - 1, by omega⟩
        have hcons := na_consume hpk2 htok
        have hdafter : data.drop (q + (pre ++ List.replicate (2 * off) ' ').length + 1) =
            ['\n'] ++ (body ++ (List.replicate (2 * off) ' ' ++ ']' :: rest)) := by
          have h0 := drop_of ((pre ++ List.replicate (2 * off) ' ') ++ ['['])
            ('\n' :: (body ++ (List.replicate (2 * off) ' ' ++ ']' :: rest)))
            (by rw [hd2]; simp [List.append_assoc])
          rw [show q + ((pre ++ List.replicate (2 * off) ' ') ++ ['[']).length =
            q + (pre ++ List.replicate (2 * off) ' ').length + 1 from by
              simp only [List.length_append, List.length_singleton]
              omega] at h0
          exact h0
        obtain ⟨ts', hp, hNA⟩ := itemsRT items hitems ih fd' (off + 1) body hbody data
          (q + (pre ++ List.replicate (2 * off) ' ').length + 1) ['\n']
          (List.replicate (2 * off) ' ') rest [] ts.peek.2.consume fj
          hdafter (by simp)
          (fun c hc => by rcases List.mem_singleton.mp hc with rfl; decide)
          (pOff_spaces_ws off) hrest (NA.of1 hcons) (by omega)
        rw [List.nil_append] at hp
        refine ⟨ts', ?_, ?_⟩
        · simp only [parseGo, hpeek1]
          rw [if_neg (by decide), if_neg (by decide), if_neg (by decide), if_neg (by decide),
            if_neg (by decide), if_pos (by trivial)]
          exact hp
        · have heq : q + (pre ++ List.replicate (2 * off) ' ').length + 1 +
              List.length ['\n'] + body.length + (List.replicate (2 * off) ' ').length + 1 =
              q + pre.length + (pOff off (S "[" ++ ['\n']) ++ body ++ pOff off (S "]")).length := by
            simp only [List.length_append, List.length_replicate, List.length_cons,
              List.length_nil, pOff_length, show (S "[" ++ ['\n']).length = 2 from rfl,
              show (S "]").length = 1 from rfl]
            omega
          exact heq ▸ hNA
  | dict entries hk hvs hsort ih =>
    intro fd off out hdump data q pre rest ts f hd hpre hrest hsafe hts hf
    cases fd with
    | zero => exact absurd hdump (by simp [dumpGo])
    | succ fd' =>
      simp only [dumpGo] at hdump
      cases hbody : dumpGo fd' (DMode.entries entries) (off + 1) with
      | none => rw [hbody] at hdump; simp at hdump
      | some body =>
        rw [hbody] at hdump
        simp only [if_pos rfl, if_true, List.append_nil, Option.some_inj,
          reduceIte] at hdump
        subst hdump
        have hd2 : data.drop q = (pre ++ List.replicate (2 * off) ' ') ++ '<' :: '<' ::
            ('\n' :: (body ++ (List.replicate (2 * off) ' ' ++ '>' :: '>' :: rest))) := by
          rw [hd]
          simp [pOff, List.append_assoc, show S "<<" ++ ['\n'] = ['<', '<', '\n'] from rfl,
            show S ">>" = ['>', '>'] from rfl]
        have hlen := congrArg List.length hd2
        simp only [List.length_drop, List.length_append, List.length_cons,
          List.length_replicate] at hlen
        have htok := tokAt_delim2 hd2 (preWs_append hpre) (by decide) (by decide) (Or.inl rfl)
        obtain ⟨hpeek1, hpk2⟩ := na_peek hts htok
        obtain ⟨fj, rfl⟩ : ∃ fj, f = fj + 1 := ⟨f - 1, by omega⟩
        have hcons := na_consume hpk2 htok
        have hdafter : data.drop (q + (pre ++ List.replicate (2 * off) ' ').length + 2) =
            ['\n'] ++ (body ++ (List.replicate (2 * off) ' ' ++ '>' :: '>' :: rest)) := by
          have h0 := drop_of ((pre ++ List.replicate (2 * off) ' ') ++ ['<', '<'])
            ('\n' :: (body ++ (List.replicate (2 * off) ' ' ++ '>' :: '>' :: rest)))
            (by rw [hd2]; simp [List.append_assoc])
          rw [show q + ((pre ++ List.replicate (2 * off) ' ') ++ ['<', '<']).length =
            q + (pre ++ List.replicate (2 * off) ' ').length + 2 from by
              simp only [List.length_append, List.length_cons, List.length_nil]
              omega] at h0
          exact h0
        obtain ⟨ts', hp, hNA⟩ := entriesRT entries hk hvs ih hsort fd' (off + 1) body hbody
          data (q + (pre ++ List.replicate (2 * off) ' ').length + 2) ['\n']
          (List.replicate (2 * off) ' ') rest [] ts.peek.2.consume fj
          hdafter (by simp)
          (fun c hc => by rcases List.mem_singleton.mp hc with rfl; decide)
          (pOff_spaces_ws off) hrest (fun e he => absurd he (by simp))
          (NA.of1 hcons) (by omega)
        rw [List.nil_append] at hp
        refine ⟨ts', ?_, ?_⟩
        · simp only [parseGo, hpeek1]
          rw [if_neg (by decide), if_neg (by decide), if_neg (by decide), if_neg (by decide),
            if_pos (by trivial)]
          exact hp
        · have heq : q + (pre ++ List.replicate (2 * off) ' ').length + 2 +
              List.length ['\n'] + body.length + (List.replicate (2 * off) ' ').length + 2 =
              q + pre.length +
                (pOff off (S "<<" ++ ['\n']) ++ body ++ pOff off (S ">>")).length := by
            simp only [List.length_append, List.length_replicate, List.length_cons,
              List.length_nil, pOff_length, show (S "<<" ++ ['\n']).length = 3 from rfl,
              show (S ">>").length = 2 from rfl]
            omega
          exact heq ▸ hNA
  | indirect num gen hn hg =>
    intro fd off out hdump data q pre rest ts f hd hpre hrest hsafe hts hf
    cases fd with
    | zero => exact absurd hdump (by simp [dumpGo])
    | succ fd' =>
      simp only [dumpGo, Option.some_inj] at hdump
      subst hdump
      have hdnum := (natDigits_spec num).1
      have hdnumne := (natDigits_spec num).2.1
      have hdnumv := (natDigits_spec num).2.2
      have hdgen := (natDigits_spec gen).1
      have hdgenne := (natDigits_spec gen).2.1
      have hdgenv := (natDigits_spec gen).2.2
      have hd2 : data.drop q = (pre ++ List.replicate (2 * off) ' ') ++ natDigits num ++
          (' ' :: (natDigits gen ++ ' ' :: 'R' :: rest)) := by
        rw [hd]
        simp [pOff, List.append_assoc, show S " R" = [' ', 'R'] from rfl]
      have htok := tokAt_reg hd2 (preWs_append hpre)
        (fun c hc => numChar_regular (Or.inl (hdnum c hc))) hdnumne
        (fun c hc => by rw [List.head?_cons, Option.some_inj] at hc; rw [← hc]; decide)
      have hfrom1 : Numeric.fromTok (natDigits num) = ⟨(num : Int), 0⟩ := by
        have h0 := fromTok_clean_nodot [] (natDigits num) (Or.inl rfl) hdnum hdnumne
        rw [List.nil_append] at h0
        rw [if_neg (by decide), hdnumv, one_mul, clampLong_id (by omega) (by exact_mod_cast hn),
          toInt32_id (by omega) (by exact_mod_cast hn)] at h0
        exact h0
      have hdg : data.drop (q + (pre ++ List.replicate (2 * off) ' ').length +
          (natDigits num).length) = [' '] ++ natDigits gen ++ (' ' :: 'R' :: rest) := by
        have h0 := drop_of ((pre ++ List.replicate (2 * off) ' ') ++ natDigits num)
          (' ' :: (natDigits gen ++ ' ' :: 'R' :: rest)) (by rw [hd2])
        rw [show q + ((pre ++ List.replicate (2 * off) ' ') ++ natDigits num).length =
          q + (pre ++ List.replicate (2 * off) ' ').length + (natDigits num).length from by
            simp only [List.length_append]
            omega] at h0
        rw [h0]
        simp
      have htok2 := tokAt_reg hdg
        (fun c hc => by rcases List.mem_singleton.mp hc with rfl; decide)
        (fun c hc => numChar_regular (Or.inl (hdgen c hc))) hdgenne
        (fun c hc => by rw [List.head?_cons, Option.some_inj] at hc; rw [← hc]; decide)
      have hfrom2 : Numeric.fromTok (natDigits gen) = ⟨(gen : Int), 0⟩ := by
        have h0 := fromTok_clean_nodot [] (natDigits gen) (Or.inl rfl) hdgen hdgenne
        rw [List.nil_append] at h0
        rw [if_neg (by decide), hdgenv, one_mul, clampLong_id (by omega) (by exact_mod_cast hg),
          toInt32_id (by omega) (by exact_mod_cast hg)] at h0
        exact h0
      have hdR : data.drop (q + (pre ++ List.replicate (2 * off) ' ').length +
          (natDigits num).length + [' '].length + (natDigits gen).length) =
          [' '] ++ S "R" ++ rest := by
        have h0 := drop_of ([' '] ++ natDigits gen) (' ' :: 'R' :: rest)
          (by rw [hdg, List.append_assoc])
        rw [show q + (pre ++ List.replicate (2 * off) ' ').length + (natDigits num).length +
          ([' '] ++ natDigits gen).length =
          q + (pre ++ List.replicate (2 * off) ' ').length + (natDigits num).length +
            [' '].length + (natDigits gen).length from by
            simp only [List.length_append]
            omega] at h0
        rw [h0]
        rfl
      have htok3 := tokAt_reg hdR
        (fun c hc => by rcases List.mem_singleton.mp hc with rfl; decide)
        (by decide) (by decide) hrest
      obtain ⟨hpeek1, hpk2⟩ := na_peek hts htok
      obtain ⟨fj, rfl⟩ : ∃ fj, f = fj + 1 := ⟨f - 1, by omega⟩
      have hcons := na_consume hpk2 htok
      obtain ⟨ll2, hread2⟩ := na1_read hcons htok2
      refine ⟨⟨⟨data, q + (pre ++ List.replicate (2 * off) ' ').length +
        (natDigits num).length + [' '].length + (natDigits gen).length + 2⟩, [], 1⟩, ?_, ?_⟩
      · simp only [parseGo, hpeek1]
        rw [if_neg hdnumne,
          if_neg (ne_of_bad_char (fun c => isDigitC c = true) hdnum
            (show '/' ∈ S "/" by decide) (by decide)),
          if_neg (ne_of_bad_char (fun c => isDigitC c = true) hdnum
            (show '(' ∈ S "(" by decide) (by decide)),
          if_neg (ne_of_bad_char (fun c => isDigitC c = true) hdnum
            (show '<' ∈ S "<" by decide) (by decide)),
          if_neg (ne_of_bad_char (fun c => isDigitC c = true) hdnum
            (show '<' ∈ S "<<" by decide) (by decide)),
          if_neg (ne_of_bad_char (fun c => isDigitC c = true) hdnum
            (show '[' ∈ S "[" by decide) (by decide)),
          if_neg (ne_of_bad_char (fun c => isDigitC c = true) hdnum
            (show 'n' ∈ S "null" by decide) (by decide)),
          if_neg (fun hor => hor.elim
            (ne_of_bad_char (fun c => isDigitC c = true) hdnum
              (show 't' ∈ S "true" by decide) (by decide))
            (ne_of_bad_char (fun c => isDigitC c = true) hdnum
              (show 'f' ∈ S "false" by decide) (by decide))),
          hfrom1, if_pos (show Numeric.valid ⟨(num : Int), 0⟩ = true from rfl)]
        simp only [parseNumberIndir, hread2, hfrom2]
        rw [if_pos (show (Numeric.uintegral ⟨(num : Int), 0⟩ &&
          Numeric.uintegral ⟨(gen : Int), 0⟩) = true from by
            simp [Numeric.uintegral, Numeric.integral])]
        rw [read_base, htok3]
        dsimp only
        rw [if_pos rfl]
        rfl
      · have heq : q + (pre ++ List.replicate (2 * off) ' ').length +
            (natDigits num).length + [' '].length + (natDigits gen).length + 2 =
            q + pre.length + (pOff off [] ++ natDigits num ++ [' '] ++ natDigits gen ++
              S " R").length := by
          simp only [List.length_append, List.length_replicate, List.length_cons,
            List.length_nil, pOff_length, show (S " R").length = 2 from rfl,
            show ([' '] : Bs).length = 1 from rfl]
          omega
        exact heq ▸ NA.of1 (NA1.base _ 1)

/-! ## Claim C1: the serializer / parser round trip -/

/-- **C1 (counterexample to the literal claim).**  The parser produces
`Numeric` with value 1, `dp = 19` from the input `.0000000000000000001`
with `failed() = false`, but `dump` formats the value through a 20-byte
`snprintf` buffer that keeps at most 19 characters, so it emits
`.0000000000000000000`, which reparses to the different object `Numeric`
with value 0, `dp = 19`. -/
theorem C1_counterexample :
    (readObjF 60 (initTP (S ".0000000000000000001"))).map (fun r => r.1) =
        some (Obj.numeric ⟨1, 19⟩) ∧
      Obj.failed (Obj.numeric ⟨1, 19⟩) = false ∧
      dumpObj 1 (Obj.numeric ⟨1, 19⟩) 0 = some (S ".0000000000000000000") ∧
      (readObjF 60 (initTP (S ".0000000000000000000"))).map (fun r => r.1) =
        some (Obj.numeric ⟨0, 19⟩) ∧
      Obj.numeric ⟨0, 19⟩ ≠ Obj.numeric ⟨1, 19⟩ := by
  refine ⟨rfl, rfl, rfl, rfl, ?_⟩
  intro h
  injection h with h2
  exact absurd h2 (by decide)

/-- **C1 (amended).**  Round trip: for every well-formed object `o` —
one the parser can produce with `failed() = false` (dictionary keys in
sorted order, as the parser's `std::map` stores them), further restricted
to numerals whose formatted text fits `Numeric::dump`'s 20-byte buffer —
whenever `dump` succeeds on `o` at offset 0, running `readObject` on the
emitted bytes returns exactly `o`. -/
theorem C1_roundtrip {o : Obj} (h : Wf o) :
    ∀ fd out, dumpObj fd o 0 = some out →
      ∃ ts', readObjF (2 * out.length + 1) (initTP out) = some (o, ts') := by
  intro fd out hdump
  obtain ⟨ts', hp, -⟩ := mainRT h fd 0 out hdump out 0 [] [] (initTP out)
    (2 * out.length + 1)
    (by simp)
    (fun c hc => absurd hc (List.not_mem_nil c))
    (fun c hc => by simp at hc)
    (by
      show TailSafe out (0 + List.length ([] : Bs) + out.length)
      rw [show 0 + List.length ([] : Bs) + out.length = out.length from by simp]
      intro hu
      rw [tokAt_eoi (show List.drop out.length out = ([] : Bs) from by simp)
        (fun c hc => absurd hc (List.not_mem_nil c))] at hu
      have hu2 : (Numeric.fromTok ([] : Bs)).uintegral = true := hu
      exact absurd hu2 (by decide))
    (NA.of1 (NA1.base 0 0))
    (by simp)
  exact ⟨ts', hp⟩

theorem C1_witness :
    Wf (Obj.array [Obj.numeric ⟨1, 0⟩, Obj.name (S "A"), Obj.indirect 3 4] []) ∧
    ∃ ts', readObjF (2 * (S "[\n  1\n  /A\n  3 4 R\n]").length + 1)
        (initTP (S "[\n  1\n  /A\n  3 4 R\n]")) =
      some (Obj.array [Obj.numeric ⟨1, 0⟩, Obj.name (S "A"), Obj.indirect 3 4] [], ts') := by
  have hwf : Wf (Obj.array [Obj.numeric ⟨1, 0⟩, Obj.name (S "A"), Obj.indirect 3 4] []) := by
    refine Wf.array _ ?_
    intro o ho
    simp only [List.mem_cons, List.not_mem_nil, or_false] at ho
    rcases ho with rfl | rfl | rfl
    · exact Wf.numeric ⟨1, 0⟩ (by decide) (by decide) (by decide)
        (by unfold fitsN; decide)
    · exact Wf.name (S "A") ⟨by decide, by decide⟩
    · exact Wf.indirect 3 4 (by decide) (by decide)
  exact ⟨hwf, C1_roundtrip hwf 5 (S "[\n  1\n  /A\n  3 4 R\n]") rfl⟩


end Pdf

